import Mathlib

/-!
# spotkeeper: a verification development

A shallow embedding of `spotkeeper.go` (package `main`): the archive loader with its
legacy fallback, the merge steps and the modified flag, the treatment of feed errors,
the ordering step, the temp-file-plus-rename save and the GPX exporter, followed by
theorems about them.

What `main` obtains from outside `spotkeeper.go` (the decoders, the retrieval
collaborator, the merge routine, the operating system's file operations and their
faults, the `%f` and RFC 3339 renderings) enters through the record `Env`, so the
theorems about `main` hold for every behaviour of those collaborators. Two functions
of the Go standard library are embedded as they are: `sort.Sort` (the pattern-defeating
quicksort of `sort/zsortinterface.go`) and `html.EscapeString`. What the exporter
writes is read back by a reader for XML 1.0 that is part of the development.
-/

set_option autoImplicit false

namespace Spotkeeper

/-! ## Data model -/

/-- A Go `float64`, kept by its bit pattern: `main` only hands coordinates to the
`%f` verb of `fmt`. -/
structure Float64 where
  bits : Nat
deriving DecidableEq

/-- Modelled from the spec: the record type `spot.Message` is declared in the imported
package `github.com/jum/spot`, not in `spotkeeper.go`. The fields are the five that
`main` reads, typed as the spec's data model gives them (section 3 and section 6):
`Id` a string, `UnixTime` integer epoch seconds, floating-point coordinates and a
possibly empty `MessageContent`. -/
structure Message where
  Id : String
  UnixTime : Int
  Latitude : Float64
  Longitude : Float64
  MessageContent : String
deriving DecidableEq

/-- What `main` can observe of an error value through the two interface assertions
`interface { Timeout() bool }` and `interface { Temporary() bool }`: `none` when the
dynamic type lacks the method, `some b` when it has it and the call returns `b`. -/
structure ErrMethods where
  timeout : Option Bool
  temporary : Option Bool
deriving DecidableEq

/-- A non-nil Go `error` as far as `main` inspects it: a `spot.Error` value with its
`Code`, a `*url.Error` with its `Err` field (possibly nil), or a value of any other
dynamic type. Every case records the methods of the value itself. -/
inductive GoError where
  | spotError (code : String) (m : ErrMethods)
  | urlError (m : ErrMethods) (err : Option GoError)
  | other (m : ErrMethods)

/-- The methods of an error value itself. -/
def GoError.methods : GoError → ErrMethods
  | .spotError _ m => m
  | .urlError m _ => m
  | .other m => m

/-- The command-line flags of `main` and the remaining arguments (`flag.Args()`). -/
structure Config where
  messageDB : String
  feedID : String
  verbose : Bool
  quiet : Bool
  printgpx : String
  args : List String

/-- The file system: the content stored at each path, `none` where no file exists. -/
abbrev FS := String → Option String

/-- How the process can stop early: a `panic(err)` or the `os.Exit(1)` of the feed
step. Both terminate with a non-zero status. -/
inductive Abort where
  | panic
  | exit1
deriving DecidableEq

/-- The exit status of the process. -/
def Abort.status : Abort → Nat
  | .panic => 2
  | .exit1 => 1

/-- A file-system operation issued by `main`, with the paths it names. -/
inductive FsOp where
  | create (path : String)
  | write (path : String)
  | close (path : String)
  | rename (src dst : String)
deriving DecidableEq

/-- An operation touches a path when it names it. -/
def FsOp.touches : FsOp → String → Bool
  | .create p, q => p == q
  | .write p, q => p == q
  | .close p, q => p == q
  | .rename a b, q => a == q || b == q

/-- One entry of the log of file-system operations: the operation and whether it
succeeded. -/
structure Event where
  op : FsOp
  ok : Bool
deriving DecidableEq

/-- The outcome of a `Decode(&messages)` call: whether the returned error is nil, and
what the variable `messages` holds afterwards (a failed call may leave records it
decoded before the failure). -/
structure Decoded where
  ok : Bool
  messages : List Message

/-- Everything `main` obtains from outside `spotkeeper.go`. -/
structure Env where
  /-- `json.NewDecoder(bf).Decode(&messages)` on the content of the archive; `messages`
  is nil before the call. -/
  jsonDecode : String → Decoded
  /-- `gob.NewDecoder(bf).Decode(&messages)` on the content of the archive; the first
  argument is what `messages` holds before the call, as the JSON attempt left it. -/
  gobDecode : List Message → String → Decoded
  /-- `spot.DecodeFeed(f)` followed by `d.Response.FeedMessageResponse.Messages.Message`. -/
  decodeFeed : String → Option (List Message)
  /-- `spot.RetrieveMessages(*feedID)`: the batch and the error, `none` for nil. -/
  retrieveMessages : String → List Message × Option GoError
  /-- `spot.MergeMessages`. -/
  mergeMessages : List Message → List Message → List Message
  /-- `json.MarshalIndent(messages, "", "  ")`, `none` on error. -/
  jsonMarshalIndent : List Message → Option String
  /-- The `%f` verb of `fmt` on a `float64`. -/
  float6 : Float64 → String
  /-- `time.Unix(t, 0).UTC().Format(time.RFC3339)`. -/
  rfc3339 : Int → String
  /-- `os.Open` fails on this path although a file may exist. -/
  openFails : String → Bool
  /-- `f.Seek(0, os.SEEK_SET)` fails on the file opened at this path. -/
  seekFails : String → Bool
  /-- `os.Create` fails on this path. -/
  createFails : String → Bool
  /-- Writing to the file at this path fails after this many characters got through. -/
  writeFails : String → Option Nat
  /-- The write fault on the file at this path shows only in the deferred `bf.Flush()`
  of the export, whose error `main` does not look at. -/
  faultInDeferredFlush : String → Bool
  /-- `f.Close` fails on the file at this path. -/
  closeFails : String → Bool
  /-- `os.Rename` fails for this pair of paths. -/
  renameFails : String → String → Bool

/-! ## Loading the archive (lines 43 to 66) -/

/-- The result of `os.Open`: the content of the file, `none` when the call returns an
error (no such file, or `openFails`). -/
def osOpen (env : Env) (fs : FS) (path : String) : Option String :=
  if env.openFails path then none else fs path

/-- Lines 43 to 66: the records read from the archive and the value `modified` has
afterwards. A failed `os.Open` only prints a warning; a failed JSON decode is followed
by a seek to the start and a gob decode, whose success sets `modified`; a failed seek
or gob decode panics. -/
def loadArchive (env : Env) (fs : FS) (path : String) : Except Abort (List Message × Bool) :=
  match osOpen env fs path with
  | none => .ok ([], false)
  | some content =>
    if (env.jsonDecode content).ok then .ok ((env.jsonDecode content).messages, false)
    else if env.seekFails path then .error .panic
    else if (env.gobDecode (env.jsonDecode content).messages content).ok then
      .ok ((env.gobDecode (env.jsonDecode content).messages content).messages, true)
    else .error .panic

/-! ## Merging (lines 71 to 93 and 136 to 143) -/

/-- The two variables of `main` that the merge steps update. -/
structure State where
  messages : List Message
  modified : Bool
deriving DecidableEq

/-- Lines 85 to 92 and 136 to 143: remember the length, merge the batch, and set
`modified` when the collection got longer. -/
def mergeStep (merge : List Message → List Message → List Message) (st : State)
    (batch : List Message) : State :=
  let num := st.messages.length
  let messages := merge st.messages batch
  if messages.length > num then ⟨messages, true⟩ else ⟨messages, st.modified⟩

/-- Lines 71 to 93: the loop over `flag.Args()`. A file that cannot be opened or
decoded panics; each decoded batch goes through `mergeStep`. -/
def mergeArgs (env : Env) (fs : FS) : List String → State → Except Abort State
  | [], st => .ok st
  | fname :: rest, st =>
    match osOpen env fs fname with
    | none => .error .panic
    | some content =>
      match env.decodeFeed content with
      | none => .error .panic
      | some batch => mergeArgs env fs rest (mergeStep env.mergeMessages st batch)

/-! ## The ordering step (line 148): `sort.Sort(spot.MessageTimeSorter(messages))` -/

instance : Inhabited Message := ⟨⟨"", 0, ⟨0⟩, ⟨0⟩, ""⟩⟩

/-- The element `a[i]` of a slice. Every index the algorithms below read lies inside
the slice; outside it Go would panic and this model reads a default record. -/
def msgAt (data : List Message) (i : Nat) : Message :=
  data.getD i default

/-- Modelled from the spec: `MessageTimeSorter` is declared in the imported package
`github.com/jum/spot`. The spec orders "ascending by `UnixTime`", with no secondary
key: `Less(i, j)` is `a[i].UnixTime < a[j].UnixTime`. -/
def Less (data : List Message) (i j : Nat) : Bool :=
  decide ((msgAt data i).UnixTime < (msgAt data j).UnixTime)

/-- Modelled from the spec: `MessageTimeSorter.Swap` is declared in the imported package
`github.com/jum/spot`. The spec has the ordering step sort the collection of records
itself, so `Swap(i, j)` is the exchange `a[i], a[j] = a[j], a[i]`. -/
def Swap (data : List Message) (i j : Nat) : List Message :=
  (data.set i (msgAt data j)).set j (msgAt data i)

/-- Go's `bits.Len`: the number of bits needed to represent `x`. The first argument
bounds the number of halvings. -/
def bitsLenAux : Nat → Nat → Nat
  | 0, _ => 0
  | fuel + 1, x => if x = 0 then 0 else bitsLenAux fuel (x / 2) + 1

/-- Go's `bits.Len`. -/
def bitsLen (x : Nat) : Nat :=
  bitsLenAux x x

/-- The inner loop of `insertionSort`:
`for j := i; j > a && data.Less(j, j-1); j-- { data.Swap(j, j-1) }`. -/
def insertionInner (a : Nat) : Nat → List Message → List Message
  | 0, data => data
  | j + 1, data =>
    if j + 1 > a && Less data (j + 1) j then insertionInner a j (Swap data (j + 1) j)
    else data

/-- The outer loop of `insertionSort`, `for i := a + 1; i < b; i++`, from index `i`
on; the first argument bounds the number of iterations. -/
def insertionOuter (a b : Nat) : Nat → Nat → List Message → List Message
  | 0, _, data => data
  | fuel + 1, i, data =>
    if i < b then insertionOuter a b fuel (i + 1) (insertionInner a i data) else data

/-- Go's `insertionSort(data, a, b)`: sorts `data[a:b]` using insertion sort. -/
def insertionSort (data : List Message) (a b : Nat) : List Message :=
  insertionOuter a b (b - a) (a + 1) data

/-- Go's `siftDown(data, lo, hi, first)` from `root` on; the first argument bounds the
number of iterations of its loop. -/
def siftDownLoop (hi first : Nat) : Nat → Nat → List Message → List Message
  | 0, _, data => data
  | fuel + 1, root, data =>
    let child := 2 * root + 1
    if child ≥ hi then data
    else
      let child :=
        if child + 1 < hi && Less data (first + child) (first + child + 1) then child + 1
        else child
      if !Less data (first + root) (first + child) then data
      else siftDownLoop hi first fuel child (Swap data (first + root) (first + child))

/-- Go's `siftDown(data, lo, hi, first)`. -/
def siftDown (data : List Message) (lo hi first : Nat) : List Message :=
  siftDownLoop hi first hi lo data

/-- The first loop of `heapSort`, `for i := (hi - 1) / 2; i >= 0; i--`, from `i` down
to 0. -/
def heapBuild (hi first : Nat) : Nat → List Message → List Message
  | 0, data => siftDown data 0 hi first
  | i + 1, data => heapBuild hi first i (siftDown data (i + 1) hi first)

/-- The second loop of `heapSort`, `for i := hi - 1; i >= 0; i--`; the argument is
`i + 1`. -/
def heapPop (first : Nat) : Nat → List Message → List Message
  | 0, data => data
  | i + 1, data => heapPop first i (siftDown (Swap data first (first + i)) 0 i first)

/-- Go's `heapSort(data, a, b)`. -/
def heapSort (data : List Message) (a b : Nat) : List Message :=
  let first := a
  let hi := b - a
  heapPop first hi (heapBuild hi first ((hi - 1) / 2) data)

/-- Go's `xorshift.Next` on a `uint64`. -/
def xorshiftNext (r : Nat) : Nat :=
  let r := r ^^^ ((r <<< 13) % 2 ^ 64)
  let r := r ^^^ (r >>> 7)
  let r := r ^^^ ((r <<< 17) % 2 ^ 64)
  r

/-- Go's `nextPowerOfTwo`. -/
def nextPowerOfTwo (length : Nat) : Nat :=
  1 <<< bitsLen length

/-- The loop of `breakPatterns`, `for i := 0; i < 3; i++`; the first argument is the
number of iterations left. The three swaps are at the positions `idx`, `idx + 1` and
`idx + 2`, the ones `choosePivot` looks at around `a + (length/4)*2`: with `a = 0` and
eight elements these are the positions 3, 4 and 5. -/
def breakPatternsLoop (a length modulus idx : Nat) : Nat → Nat → Nat → List Message → List Message
  | 0, _, _, data => data
  | n + 1, i, random, data =>
    let random := xorshiftNext random
    let other := random &&& (modulus - 1)
    let other := if other ≥ length then other - length else other
    breakPatternsLoop a length modulus idx n (i + 1) random (Swap data (idx + i) (a + other))

/-- Go's `breakPatterns(data, a, b)`. -/
def breakPatterns (data : List Message) (a b : Nat) : List Message :=
  let length := b - a
  if length ≥ 8 then
    let random := length
    let modulus := nextPowerOfTwo length
    let idx := a + (length / 4) * 2 - 1
    breakPatternsLoop a length modulus idx 3 0 random data
  else data

/-- Go's `sortedHint`. -/
inductive SortedHint where
  | unknownHint
  | increasingHint
  | decreasingHint
deriving DecidableEq

/-- Go's `order2`: the two indices in order, and the updated count of swaps. -/
def order2 (data : List Message) (a b swaps : Nat) : Nat × Nat × Nat :=
  if Less data b a then (b, a, swaps + 1) else (a, b, swaps)

/-- Go's `median`: the index of the median of three, and the updated count of swaps. -/
def median (data : List Message) (a b c swaps : Nat) : Nat × Nat :=
  match order2 data a b swaps with
  | (a, b, swaps) =>
    match order2 data b c swaps with
    | (b, _, swaps) =>
      match order2 data a b swaps with
      | (_, b, swaps) => (b, swaps)

/-- Go's `medianAdjacent`. -/
def medianAdjacent (data : List Message) (a swaps : Nat) : Nat × Nat :=
  median data (a - 1) a (a + 1) swaps

/-- Go's `choosePivot(data, a, b)`. -/
def choosePivot (data : List Message) (a b : Nat) : Nat × SortedHint :=
  let l := b - a
  let i := a + l / 4 * 1
  let j := a + l / 4 * 2
  let k := a + l / 4 * 3
  let (j, swaps) :=
    if l ≥ 8 then
      if l ≥ 50 then
        match medianAdjacent data i 0 with
        | (i, swaps) =>
          match medianAdjacent data j swaps with
          | (j, swaps) =>
            match medianAdjacent data k swaps with
            | (k, swaps) => median data i j k swaps
      else median data i j k 0
    else (j, 0)
  if swaps = 0 then (j, .increasingHint)
  else if swaps = 12 then (j, .decreasingHint)
  else (j, .unknownHint)

/-- The loop of `reverseRange`, `for i < j`; the first argument bounds the number of
iterations. -/
def reverseLoop : Nat → Nat → Nat → List Message → List Message
  | 0, _, _, data => data
  | fuel + 1, i, j, data =>
    if i < j then reverseLoop fuel (i + 1) (j - 1) (Swap data i j) else data

/-- Go's `reverseRange(data, a, b)`. -/
def reverseRange (data : List Message) (a b : Nat) : List Message :=
  reverseLoop (b - a) a (b - 1) data

/-- The scan `for i < b && !data.Less(i, i-1) { i++ }` of `partialInsertionSort`; the
first argument bounds the number of iterations. -/
def scanSorted (data : List Message) (b : Nat) : Nat → Nat → Nat
  | 0, i => i
  | fuel + 1, i => if i < b && !Less data i (i - 1) then scanSorted data b fuel (i + 1) else i

/-- The loop `for j := i - 1; j >= 1; j--` of `partialInsertionSort`, which shifts the
smaller element to the left. -/
def shiftSmallerLeft : Nat → List Message → List Message
  | 0, data => data
  | j + 1, data =>
    if !Less data (j + 1) j then data else shiftSmallerLeft j (Swap data (j + 1) j)

/-- The loop `for j := i + 1; j < b; j++` of `partialInsertionSort`, which shifts the
greater element to the right; the first argument bounds the number of iterations. -/
def shiftGreaterRight (b : Nat) : Nat → Nat → List Message → List Message
  | 0, _, data => data
  | fuel + 1, j, data =>
    if j < b then
      if !Less data j (j - 1) then data else shiftGreaterRight b fuel (j + 1) (Swap data j (j - 1))
    else data

/-- The loop `for j := 0; j < maxSteps; j++` of `partialInsertionSort`; the first
argument is the number of steps left. -/
def partialInsertionLoop (a b : Nat) : Nat → Nat → List Message → Bool × List Message
  | 0, _, data => (false, data)
  | steps + 1, i, data =>
    let i := scanSorted data b (b - i) i
    if i = b then (true, data)
    else if b - a < 50 then (false, data)
    else
      let data := Swap data i (i - 1)
      let data := if i - a ≥ 2 then shiftSmallerLeft (i - 1) data else data
      let data := if b - i ≥ 2 then shiftGreaterRight b (b - (i + 1)) (i + 1) data else data
      partialInsertionLoop a b steps i data

/-- Go's `partialInsertionSort(data, a, b)`: whether the slice is sorted at the end,
and the slice. -/
def partialInsertionSort (data : List Message) (a b : Nat) : Bool × List Message :=
  partialInsertionLoop a b 5 (a + 1) data

/-- The scan `for i <= j && data.Less(i, a) { i++ }` of `partition`. -/
def scanLess (data : List Message) (a j : Nat) : Nat → Nat → Nat
  | 0, i => i
  | fuel + 1, i => if i ≤ j && Less data i a then scanLess data a j fuel (i + 1) else i

/-- The scan `for i <= j && !data.Less(j, a) { j-- }` of `partition`. Since `i` starts
at `a + 1` the scan ends at the latest with `j = i - 1`, never below index 0. -/
def scanNotLess (data : List Message) (a i : Nat) : Nat → Nat
  | 0 => 0
  | j + 1 => if i ≤ j + 1 && !Less data (j + 1) a then scanNotLess data a i j else j + 1

/-- The unconditional loop `for { ... }` of `partition`; the first argument bounds the
number of iterations. The result is the slice and the final `j`. -/
def partitionLoop (a : Nat) : Nat → Nat → Nat → List Message → List Message × Nat
  | 0, _, j, data => (data, j)
  | fuel + 1, i, j, data =>
    let i := scanLess data a j (j + 1 - i) i
    let j := scanNotLess data a i j
    if i > j then (data, j)
    else partitionLoop a fuel (i + 1) (j - 1) (Swap data i j)

/-- Go's `partition(data, a, b, pivot)`: the slice, the new index of the pivot and
whether the slice was already partitioned. -/
def partition (data : List Message) (a b pivot : Nat) : List Message × Nat × Bool :=
  let data := Swap data a pivot
  let i := a + 1
  let j := b - 1
  let i := scanLess data a j (j + 1 - i) i
  let j := scanNotLess data a i j
  if i > j then (Swap data j a, j, true)
  else
    let data := Swap data i j
    match partitionLoop a (b - a) (i + 1) (j - 1) data with
    | (data, j) => (Swap data j a, j, false)

/-- The scan `for i <= j && !data.Less(a, i) { i++ }` of `partitionEqual`. -/
def scanNotGreater (data : List Message) (a j : Nat) : Nat → Nat → Nat
  | 0, i => i
  | fuel + 1, i => if i ≤ j && !Less data a i then scanNotGreater data a j fuel (i + 1) else i

/-- The scan `for i <= j && data.Less(a, j) { j-- }` of `partitionEqual`. Since `i`
starts at `a + 1` the scan ends at the latest with `j = i - 1`, never below index 0. -/
def scanGreater (data : List Message) (a i : Nat) : Nat → Nat
  | 0 => 0
  | j + 1 => if i ≤ j + 1 && Less data a (j + 1) then scanGreater data a i j else j + 1

/-- The loop of `partitionEqual`; the first argument bounds the number of iterations.
The result is the slice and the final `i`. -/
def partitionEqualLoop (a : Nat) : Nat → Nat → Nat → List Message → List Message × Nat
  | 0, i, _, data => (data, i)
  | fuel + 1, i, j, data =>
    let i := scanNotGreater data a j (j + 1 - i) i
    let j := scanGreater data a i j
    if i > j then (data, i)
    else partitionEqualLoop a fuel (i + 1) (j - 1) (Swap data i j)

/-- Go's `partitionEqual(data, a, b, pivot)`: the slice and the index `mid`. -/
def partitionEqual (data : List Message) (a b pivot : Nat) : List Message × Nat :=
  let data := Swap data a pivot
  partitionEqualLoop a (b - a) (a + 1) (b - 1) data

/-- Go's `pdqsort(data, a, b, limit)`. The loop `for { ... }` and the recursive call
are one recursion here: an iteration is entered with the current `a`, `b`, `limit`,
`wasBalanced` and `wasPartitioned`, and the recursive call enters with both flags
true. The first argument bounds the depth; `b - a + 1` is enough. -/
def pdqsort : Nat → List Message → Nat → Nat → Nat → Bool → Bool → List Message
  | 0, data, _, _, _, _, _ => data
  | fuel + 1, data, a, b, limit, wasBalanced, wasPartitioned =>
    let length := b - a
    if length ≤ 12 then insertionSort data a b
    else if limit = 0 then heapSort data a b
    else
      let data := if !wasBalanced then breakPatterns data a b else data
      let limit := if !wasBalanced then limit - 1 else limit
      match choosePivot data a b with
      | (pivot, hint) =>
        let data := if hint = .decreasingHint then reverseRange data a b else data
        let pivot := if hint = .decreasingHint then (b - 1) - (pivot - a) else pivot
        let hint := if hint = .decreasingHint then SortedHint.increasingHint else hint
        match (if wasBalanced && wasPartitioned && hint = .increasingHint
                then partialInsertionSort data a b else (false, data)) with
        | (true, data) => data
        | (false, data) =>
          if a > 0 && !Less data (a - 1) pivot then
            match partitionEqual data a b pivot with
            | (data, mid) => pdqsort fuel data mid b limit wasBalanced wasPartitioned
          else
            match partition data a b pivot with
            | (data, mid, alreadyPartitioned) =>
              let leftLen := mid - a
              let rightLen := b - mid
              let balanceThreshold := length / 8
              if leftLen < rightLen then
                pdqsort fuel (pdqsort fuel data a mid limit true true) (mid + 1) b limit
                  (leftLen ≥ balanceThreshold) alreadyPartitioned
              else
                pdqsort fuel (pdqsort fuel data (mid + 1) b limit true true) a mid limit
                  (rightLen ≥ balanceThreshold) alreadyPartitioned

/-- Go's `sort.Sort` on a `MessageTimeSorter`: pattern-defeating quicksort as in the
standard library since go1.19. -/
def sortSort (data : List Message) : List Message :=
  let n := data.length
  if n ≤ 1 then data
  else pdqsort (n + 1) data 0 n (bitsLen n) true true

/-! ## Feed errors (lines 98 to 134) -/

/-- Lines 103 to 107: a `spot.Error` whose code is `E-0195` clears `err`. -/
def clearBenignCode (err : GoError) : Option GoError :=
  match err with
  | .spotError code _ => if code = "E-0195" then none else some err
  | _ => some err

/-- Lines 108 to 111: `testErr := err`, replaced by its `Err` field when it is a
`*url.Error`. -/
def unwrapUrl (testErr : Option GoError) : Option GoError :=
  match testErr with
  | some (.urlError _ inner) => inner
  | e => e

/-- Lines 116 to 120: the assertion to `timeout` succeeds and `Timeout()` is true. -/
def timeoutHolds (testErr : Option GoError) : Bool :=
  match testErr with
  | some e => e.methods.timeout == some true
  | none => false

/-- Lines 124 to 128: the assertion to `temporary` succeeds and `Temporary()` is true. -/
def temporaryHolds (testErr : Option GoError) : Bool :=
  match testErr with
  | some e => e.methods.temporary == some true
  | none => false

/-- Lines 101 to 129: the value of `err` when line 130 tests it, for a non-nil error
returned by the retrieval. -/
def filterFeedError (quiet : Bool) (err : GoError) : Option GoError :=
  if quiet then
    let err1 := clearBenignCode err
    let testErr := unwrapUrl err1
    let err2 := if timeoutHolds testErr then none else err1
    let err3 := if temporaryHolds testErr then none else err2
    err3
  else some err

/-- Lines 98 to 144: the feed step. Without a feed identifier nothing happens; a
retrieval error that is still non-nil at line 130 exits with status 1; otherwise the
returned batch goes through `mergeStep`. -/
def feedStep (env : Env) (cfg : Config) (st : State) : Except Abort State :=
  if cfg.feedID.length > 0 then
    match env.retrieveMessages cfg.feedID with
    | (n, none) => .ok (mergeStep env.mergeMessages st n)
    | (n, some err) =>
      match filterFeedError cfg.quiet err with
      | some _ => .error .exit1
      | none => .ok (mergeStep env.mergeMessages st n)
  else .ok st

/-- Lines 39 to 148: everything up to the test `if modified` of line 152, that is
load, the file batches, the feed batch and the ordering step `sort.Sort` of line 148. -/
def beforeSave (env : Env) (cfg : Config) (fs : FS) : Except Abort State :=
  match loadArchive env fs cfg.messageDB with
  | .error a => .error a
  | .ok (messages, legacy) =>
    match mergeArgs env fs cfg.args ⟨messages, legacy⟩ with
    | .error a => .error a
    | .ok st =>
      match feedStep env cfg st with
      | .error a => .error a
      | .ok st => .ok ⟨sortSort st.messages, st.modified⟩

/-! ## Saving (lines 152 to 174) -/

/-- The file system with `content` stored at `path`. -/
def FS.store (fs : FS) (path content : String) : FS :=
  fun q => if q = path then some content else fs q

/-- The file system after a successful `os.Rename src dst`. -/
def FS.rename (fs : FS) (src dst : String) : FS :=
  fun q => if q = dst then fs src else if q = src then none else fs q

/-- Where the save block stands: the next statement to run, with the marshalled
bytes once they exist, or how the block ended. -/
inductive SavePc where
  | marshal
  | create (j : String)
  | write (j : String)
  | close
  | rename
  | done
  | aborted
deriving DecidableEq

/-- The save block in progress: the program point, the file system, and the log of
file-system operations issued so far (oldest first). -/
structure SaveState where
  pc : SavePc
  fs : FS
  log : List Event

/-- One statement of lines 153 to 173. Each failure panics. -/
def saveStep (env : Env) (path : String) (messages : List Message) (s : SaveState) :
    SaveState :=
  let tmpName := path ++ ".tmp"
  match s.pc with
  | .marshal =>
    match env.jsonMarshalIndent messages with
    | none => { s with pc := .aborted }
    | some j => { s with pc := .create j }
  | .create j =>
    if env.createFails tmpName then
      { s with pc := .aborted, log := s.log ++ [⟨.create tmpName, false⟩] }
    else
      { pc := .write j, fs := s.fs.store tmpName "", log := s.log ++ [⟨.create tmpName, true⟩] }
  | .write j =>
    match env.writeFails tmpName with
    | some k =>
      { pc := .aborted, fs := s.fs.store tmpName (j.take k),
        log := s.log ++ [⟨.write tmpName, false⟩] }
    | none =>
      { pc := .close, fs := s.fs.store tmpName j, log := s.log ++ [⟨.write tmpName, true⟩] }
  | .close =>
    if env.closeFails tmpName then
      { s with pc := .aborted, log := s.log ++ [⟨.close tmpName, false⟩] }
    else
      { s with pc := .rename, log := s.log ++ [⟨.close tmpName, true⟩] }
  | .rename =>
    if env.renameFails tmpName path then
      { s with pc := .aborted, log := s.log ++ [⟨.rename tmpName path, false⟩] }
    else
      { pc := .done, fs := s.fs.rename tmpName path,
        log := s.log ++ [⟨.rename tmpName path, true⟩] }
  | .done => s
  | .aborted => s

/-- The save block after `n` statements, started on file system `fs`. A run that is
interrupted stops at some `n`. -/
def saveRun (env : Env) (path : String) (messages : List Message) (fs : FS) :
    Nat → SaveState
  | 0 => ⟨.marshal, fs, []⟩
  | n + 1 => saveStep env path messages (saveRun env path messages fs n)

/-- Lines 153 to 173 run to their end: five statements. -/
def saveArchive (env : Env) (path : String) (messages : List Message) (fs : FS) :
    SaveState :=
  saveRun env path messages fs 5

/-! ## Exporting (lines 175 to 207) -/

/-- Go's `html.EscapeString` on one character: it escapes exactly the five characters
`<`, `>`, `&`, `'` and `"`, to `&lt;`, `&gt;`, `&amp;`, `&#39;` and `&#34;`. -/
def escapeChar (c : Char) : List Char :=
  if c = '&' then "&amp;".data
  else if c = '\'' then "&#39;".data
  else if c = '<' then "&lt;".data
  else if c = '>' then "&gt;".data
  else if c = '"' then "&#34;".data
  else [c]

/-- Go's `html.EscapeString`. -/
def htmlEscapeString (s : String) : String :=
  ⟨s.data.flatMap escapeChar⟩

/-- The header written at lines 183 to 190. -/
def gpxHeader : String :=
  "<?xml version=\"1.0\" encoding=\"UTF-8\" standalone=\"yes\"?>\n<gpx\n version=\"1.1\"\n creator=\"spot.go\"\n xmlns:xsi=\"http://www.w3.org/2001/XMLSchema-instance\"\n xmlns=\"http://www.topografix.com/GPX/1/1\"\n xsi:schemaLocation=\"http://www.topografix.com/GPX/1/1 http://www.topografix.com/GPX/1/1/gpx.xsd\">\n"

/-- The footer written at lines 202 to 203. -/
def gpxFooter : String :=
  "</gpx>\n"

/-- The start of both format strings up to the opening `name` tag, with the two `%f`
verbs filled in. -/
def wptOpen (env : Env) (e : Message) : String :=
  "<wpt lat=\"" ++ env.float6 e.Latitude ++ "\" lon=\"" ++ env.float6 e.Longitude
    ++ "\"><name>"

/-- Lines 196 to 200: the text one `fmt.Fprintf` writes for a record. The `%v` verb
writes the string `e.Id` as it is; only `MessageContent` goes through
`html.EscapeString`. -/
def waypoint (env : Env) (e : Message) : String :=
  if e.MessageContent.length > 0 then
    wptOpen env e ++ e.Id ++ "</name><time>" ++ env.rfc3339 e.UnixTime ++ "</time><cmt>"
      ++ htmlEscapeString e.MessageContent ++ "</cmt></wpt>\n"
  else
    wptOpen env e ++ e.Id ++ "</name><time>" ++ env.rfc3339 e.UnixTime ++ "</time></wpt>\n"

/-- Lines 183 to 203: what is written to the buffered writer, in order: the header,
one `Fprintf` per record of the loop, the footer. -/
def renderGpx (env : Env) (messages : List Message) : String :=
  (messages.foldl (fun bf e => bf ++ waypoint env e) gpxHeader) ++ gpxFooter

/-- Lines 175 to 207: the export. `os.Create` failing panics. A write fault leaves the
characters that got through; it panics at the `bf.Write` of the footer when the
buffered writer has met it by then (the results of `Fprintf` are not looked at), and
goes unreported when it shows only in the deferred `bf.Flush()`. -/
def exportGpx (env : Env) (cfg : Config) (messages : List Message) (fs : FS) :
    FS × Option Abort :=
  if cfg.printgpx.length > 0 then
    if env.createFails cfg.printgpx then (fs, some .panic)
    else
      match env.writeFails cfg.printgpx with
      | some k =>
        (fs.store cfg.printgpx ((renderGpx env messages).take k),
          if env.faultInDeferredFlush cfg.printgpx then none else some .panic)
      | none => (fs.store cfg.printgpx (renderGpx env messages), none)
  else (fs, none)

/-! ## The whole run -/

/-- What a run of `main` leaves behind. -/
structure Run where
  /-- The exit status: 0, or non-zero after a panic or `os.Exit(1)`. -/
  status : Nat
  /-- The file system at the end. -/
  fs : FS
  /-- Whether the save block of lines 153 to 173 was entered. -/
  saveEntered : Bool
  /-- The file-system operations the save block issued. -/
  saveLog : List Event
  /-- Whether the export block of lines 176 to 206 was entered. -/
  exportEntered : Bool

/-- The function `main`. -/
def main (env : Env) (cfg : Config) (fs : FS) : Run :=
  match beforeSave env cfg fs with
  | .error a => ⟨a.status, fs, false, [], false⟩
  | .ok st =>
    if st.modified then
      let s := saveArchive env cfg.messageDB st.messages fs
      if s.pc = .done then
        match exportGpx env cfg st.messages s.fs with
        | (fs2, some a) => ⟨a.status, fs2, true, s.log, true⟩
        | (fs2, none) => ⟨0, fs2, true, s.log, decide (cfg.printgpx.length > 0)⟩
      else ⟨Abort.panic.status, s.fs, true, s.log, false⟩
    else
      match exportGpx env cfg st.messages fs with
      | (fs2, some a) => ⟨a.status, fs2, false, [], true⟩
      | (fs2, none) => ⟨0, fs2, false, [], decide (cfg.printgpx.length > 0)⟩

/-! ## The merge engine -/

/-- Modelled from the spec: `spot.MergeMessages` is a function of the imported package
`github.com/jum/spot`, not of `spotkeeper.go`. Spec section 4.2: "the result contains
every record of `existing`, plus every record of `incoming` whose `Id` is not already
present in `existing` (by exact equality of the identifier)"; the identifiers seen are
collected once per call (section 9). -/
def MergeMessages (existing incoming : List Message) : List Message :=
  let seen := existing.map (fun m => m.Id)
  existing ++ incoming.filter (fun m => !seen.contains m.Id)

/-! ## The claims' own vocabulary -/

/-- The error a claim speaks of "after unwrapping one URL-error layer": the `Err` field
of a `*url.Error` (possibly nil), the error itself otherwise. -/
def afterOneUrlLayer (err : GoError) : Option GoError :=
  match err with
  | .urlError _ inner => inner
  | e => some e

/-- The error reports `Timeout()` true. -/
def reportsTimeout (err : Option GoError) : Prop :=
  ∃ e, err = some e ∧ e.methods.timeout = some true

/-- The error reports `Temporary()` true. -/
def reportsTemporary (err : Option GoError) : Prop :=
  ∃ e, err = some e ∧ e.methods.temporary = some true

/-- A benign condition: a feed error whose code is `E-0195`, or an error that after
unwrapping one URL-error layer reports `Timeout()` true or `Temporary()` true. -/
def Benign (err : GoError) : Prop :=
  (∃ m, err = .spotError "E-0195" m) ∨ reportsTimeout (afterOneUrlLayer err)
    ∨ reportsTemporary (afterOneUrlLayer err)

/-- The batches decoded from the files named on the command line, in order; `none`
when one of them cannot be opened or decoded. -/
def argBatches (env : Env) (fs : FS) : List String → Option (List (List Message))
  | [] => some []
  | fname :: rest =>
    match osOpen env fs fname with
    | none => none
    | some content =>
      match env.decodeFeed content with
      | none => none
      | some batch =>
        match argBatches env fs rest with
        | none => none
        | some batches => some (batch :: batches)

/-- The batch the feed step merges: none without a feed identifier, otherwise the one
the retrieval returned; `none` when the retrieval error is fatal. -/
def feedBatches (env : Env) (cfg : Config) : Option (List (List Message)) :=
  if cfg.feedID.length > 0 then
    match env.retrieveMessages cfg.feedID with
    | (n, none) => some [n]
    | (n, some err) =>
      match filterFeedError cfg.quiet err with
      | some _ => none
      | none => some [n]
  else some []

/-- All batches a run merges, in the order of the merge steps: the file batches, then
the feed batch. -/
def mergedBatches (env : Env) (cfg : Config) (fs : FS) : Option (List (List Message)) :=
  match argBatches env fs cfg.args with
  | none => none
  | some fromFiles =>
    match feedBatches env cfg with
    | none => none
    | some fromFeed => some (fromFiles ++ fromFeed)

/-- The collection after the first `k` merge steps. -/
def mergedAfter (merge : List Message → List Message → List Message)
    (loaded : List Message) (batches : List (List Message)) (k : Nat) : List Message :=
  (batches.take k).foldl merge loaded

/-- At least one merge step added a record, that is, made the collection longer. -/
def SomeMergeAdded (merge : List Message → List Message → List Message)
    (loaded : List Message) (batches : List (List Message)) : Prop :=
  ∃ k, k < batches.length ∧
    (mergedAfter merge loaded batches k).length
      < (mergedAfter merge loaded batches (k + 1)).length

/-- The archive was rewritten: the log of the save block holds a successful rename of
the temporary file over the archive path. -/
def Rewritten (cfg : Config) (log : List Event) : Prop :=
  ⟨FsOp.rename (cfg.messageDB ++ ".tmp") cfg.messageDB, true⟩ ∈ log

/-- The number of occurrences of a character in a text; for `<` it is the number of
tags the text opens or closes. -/
def charCount (c : Char) (s : String) : Nat :=
  s.data.count c

/-- The texts of a list one after the other, in the order of the list. -/
def concatAll : List String → String
  | [] => ""
  | s :: rest => s ++ concatAll rest

/-- The child elements the claims attribute to the waypoint of a record, each with its
tag and its text: `name`, `time`, and `cmt` exactly when `MessageContent` is non-empty,
its text the escaped `MessageContent`. -/
def wptChildren (env : Env) (e : Message) : List (String × String) :=
  [("name", e.Id), ("time", env.rfc3339 e.UnixTime)]
    ++ (if e.MessageContent = "" then [] else [("cmt", htmlEscapeString e.MessageContent)])

/-- An element with a tag and a text, as markup. -/
def renderChild (child : String × String) : String :=
  "<" ++ child.1 ++ ">" ++ child.2 ++ "</" ++ child.1 ++ ">"

/-- The `wpt` element of a record, rendered from its attributes and child elements. -/
def renderWpt (env : Env) (e : Message) : String :=
  "<wpt lat=\"" ++ env.float6 e.Latitude ++ "\" lon=\"" ++ env.float6 e.Longitude ++ "\">"
    ++ concatAll ((wptChildren env e).map renderChild) ++ "</wpt>\n"

/-- The replacement the claims describe: every angle bracket, ampersand and quote
character becomes its entity, every other character stays. -/
def entityOf (c : Char) : List Char :=
  if c = '<' then "&lt;".data
  else if c = '>' then "&gt;".data
  else if c = '&' then "&amp;".data
  else if c = '"' then "&#34;".data
  else if c = '\'' then "&#39;".data
  else [c]

/-- The five entities of `html.EscapeString` without their leading `&`. -/
def entityBodies : List (List Char) :=
  ["amp;".data, "#39;".data, "#34;".data, "lt;".data, "gt;".data]

/-- A text is escaped: it holds none of `<`, `>`, `"` and `'`, and every `&` in it
starts one of the five entities of `html.EscapeString`. -/
def escaped : List Char → Bool
  | [] => true
  | c :: rest =>
    if c = '&' then entityBodies.any (fun body => body.isPrefixOf rest) && escaped rest
    else c != '<' && c != '>' && c != '"' && c != '\'' && escaped rest

/-- The count of tags one record contributes: the six of `wpt`, `name` and `time`, and
two more when it has a `cmt` element. -/
def tagsOfRecord (e : Message) : Nat :=
  if e.MessageContent.length > 0 then 8 else 6

/-- The identifiers of the records of a collection observed at second `t`, in the
order of the collection. -/
def idsAt (t : Int) (messages : List Message) : List String :=
  (messages.filter (fun m => m.UnixTime = t)).map (fun m => m.Id)

/-! ## Reading a document as XML

The claims call the exported document well-formed markup. This is not a notion of
`spotkeeper.go`; it is stated here with a reader for the part of XML 1.0 a track
document uses: an optional XML declaration, one root element, start tags with
double-quoted attributes, end tags, empty-element tags, character data and references.
Comments, processing instructions, CDATA sections and document type declarations are
refused, so whatever the reader accepts is well-formed XML 1.0, while not every
well-formed document is accepted. The reader goes through a document one character at
a time and yields what it has read as a list of events. -/

/-- XML 1.0, production `Char`, on a code point. -/
def xmlCode (n : Nat) : Bool :=
  n == 9 || n == 10 || n == 13 || (32 ≤ n && n ≤ 55295) || (57344 ≤ n && n ≤ 65533)
    || (65536 ≤ n && n ≤ 1114111)

/-- XML 1.0, production `Char`: the characters a document may hold at all. -/
def xmlChar (c : Char) : Bool :=
  xmlCode c.toNat

/-- XML 1.0, production `S`: white space. -/
def xmlSpace (c : Char) : Bool :=
  c == ' ' || c == '\t' || c == '\r' || c == '\n'

/-- XML 1.0, production `NameStartChar`, restricted to ASCII. -/
def nameStart (c : Char) : Bool :=
  c.isAlpha || c == '_' || c == ':'

/-- XML 1.0, production `NameChar`, restricted to ASCII. -/
def nameChar (c : Char) : Bool :=
  nameStart c || c.isDigit || c == '-' || c == '.'

/-- Whether a text holds the sequence `]]>`, which character data must not hold. -/
def hasCDataEnd : List Char → Bool
  | [] => false
  | c :: rest => (c == ']' && "]>".data.isPrefixOf rest) || hasCDataEnd rest

/-- The value of a run of decimal digits. -/
def decValue (digits : List Char) : Nat :=
  digits.foldl (fun n c => 10 * n + (c.toNat - 48)) 0

/-- The value of one hexadecimal digit. -/
def hexDigit (c : Char) : Option Nat :=
  if c.isDigit then some (c.toNat - 48)
  else if 'a'.toNat ≤ c.toNat ∧ c.toNat ≤ 'f'.toNat then some (c.toNat - 87)
  else if 'A'.toNat ≤ c.toNat ∧ c.toNat ≤ 'F'.toNat then some (c.toNat - 55)
  else none

/-- The value of a run of hexadecimal digits. -/
def hexValue (digits : List Char) : Nat :=
  digits.foldl (fun n c => 16 * n + (hexDigit c).getD 0) 0

/-- XML 1.0, production `Reference`, on what stands between `&` and `;`: one of the
five predefined entities, or a decimal or hexadecimal character reference to a legal
character. -/
def refOk (name : List Char) : Bool :=
  name == "lt".data || name == "gt".data || name == "amp".data || name == "quot".data
    || name == "apos".data
    || (match name with
        | c :: d :: rest =>
          c == '#' &&
            (if d == 'x' then
              !rest.isEmpty && rest.all (fun h => (hexDigit h).isSome) && xmlCode (hexValue rest)
            else (d :: rest).all Char.isDigit && xmlCode (decValue (d :: rest)))
        | _ => false)

/-- XML 1.0, production `VersionNum`: `1.` and at least one digit. -/
def versionOk (v : String) : Bool :=
  match v.data with
  | a :: b :: rest => a == '1' && b == '.' && !rest.isEmpty && rest.all Char.isDigit
  | _ => false

/-- XML 1.0, production `EncName`. -/
def encNameOk (v : String) : Bool :=
  match v.data with
  | c :: rest => c.isAlpha && rest.all (fun d => d.isAlphanum || d == '.' || d == '_' || d == '-')
  | [] => false

/-- XML 1.0, production `SDDecl`: the value is `yes` or `no`. -/
def standaloneOk (v : String) : Bool :=
  v == "yes" || v == "no"

/-- XML 1.0, production `XMLDecl`, on the pseudo-attributes read: `version`, then
optionally `encoding`, then optionally `standalone`. -/
def declOk (attrs : List (String × String)) : Bool :=
  match attrs with
  | [(n, v)] => n == "version" && versionOk v
  | [(n, v), (m, w)] =>
    n == "version" && versionOk v
      && ((m == "encoding" && encNameOk w) || (m == "standalone" && standaloneOk w))
  | [(n, v), (m, w), (k, u)] =>
    n == "version" && versionOk v && m == "encoding" && encNameOk w
      && k == "standalone" && standaloneOk u
  | _ => false

/-- No name occurs twice (XML 1.0, well-formedness constraint "Unique Att Spec"). -/
def distinctNames : List String → Bool
  | [] => true
  | n :: rest => !rest.contains n && distinctNames rest

/-- One event of reading a document from left to right: the XML declaration, a start
tag with its attributes, an end tag, or a run of text between two tags, kept as it
is written. An empty-element tag gives a start and an end. -/
inductive XmlEvent where
  | decl (attrs : List (String × String))
  | start (name : String) (attrs : List (String × String))
  | stop (name : String)
  | chars (text : String)
  deriving DecidableEq

/-- The tag being read: its name, the attributes read so far, and whether it is the
XML declaration. -/
structure TagHead where
  name : List Char
  attrs : List (String × String)
  isDecl : Bool
  deriving DecidableEq

/-- Where the reader is: in text, in a reference, or in one of the parts of a tag. -/
inductive XmlMode where
  | text (buf : List Char)
  | ref (buf : List Char) (name : List Char)
  | lt (fresh : Bool)
  | declName (name : List Char)
  | startName (name : List Char)
  | attrGap (head : TagHead)
  | attrName (head : TagHead) (aname : List Char)
  | attrQuote (head : TagHead) (aname : List Char)
  | attrValue (head : TagHead) (aname : List Char) (value : List Char)
  | attrEnd (head : TagHead)
  | slash (head : TagHead)
  | question (head : TagHead)
  | endName (name : List Char)
  | endGap (name : List Char)
  deriving DecidableEq

/-- The state of the reader: where it is, and the events read so far. -/
structure XmlState where
  mode : XmlMode
  events : List XmlEvent
  deriving DecidableEq

/-- The events with a finished run of text added: nothing is added for no text, and
there is no reading at all of a text that holds `]]>` (XML 1.0, production
`CharData`). -/
def addText (events : List XmlEvent) (buf : List Char) : Option (List XmlEvent) :=
  if buf = [] then some events
  else if hasCDataEnd buf then none
  else some (events ++ [.chars ⟨buf⟩])

/-- The events of a finished start tag or empty-element tag. -/
def closeTag (head : TagHead) (events : List XmlEvent) (selfClosing : Bool) :
    Option XmlState :=
  if head.isDecl then none
  else if distinctNames (head.attrs.map Prod.fst) then
    some ⟨.text [],
      if selfClosing then events ++ [.start ⟨head.name⟩ head.attrs, .stop ⟨head.name⟩]
      else events ++ [.start ⟨head.name⟩ head.attrs]⟩
  else none

/-- What may follow the name or an attribute of a tag, white space apart: `>`, `/` for
an empty-element tag, `?` for the end of the XML declaration. -/
def tagEnd (head : TagHead) (events : List XmlEvent) (c : Char) : Option XmlState :=
  if c = '>' then closeTag head events false
  else if c = '/' then (if head.isDecl then none else some ⟨.slash head, events⟩)
  else if c = '?' then (if head.isDecl then some ⟨.question head, events⟩ else none)
  else none

/-- One character of reading. -/
def xmlStep (s : XmlState) (c : Char) : Option XmlState :=
  match s.mode with
  | .text buf =>
    if c = '<' then
      (addText s.events buf).map (fun evs => ⟨.lt (s.events.isEmpty && buf.isEmpty), evs⟩)
    else if c = '&' then some ⟨.ref buf [], s.events⟩
    else if xmlChar c then some ⟨.text (buf ++ [c]), s.events⟩
    else none
  | .ref buf name =>
    if c = ';' then
      (if refOk name then some ⟨.text (buf ++ ('&' :: (name ++ [';']))), s.events⟩ else none)
    else some ⟨.ref buf (name ++ [c]), s.events⟩
  | .lt fresh =>
    if c = '/' then some ⟨.endName [], s.events⟩
    else if c = '?' then (if fresh then some ⟨.declName [], s.events⟩ else none)
    else if nameStart c then some ⟨.startName [c], s.events⟩
    else none
  | .declName name =>
    if nameChar c then some ⟨.declName (name ++ [c]), s.events⟩
    else if xmlSpace c && name == "xml".data then some ⟨.attrGap ⟨name, [], true⟩, s.events⟩
    else none
  | .startName name =>
    if nameChar c then some ⟨.startName (name ++ [c]), s.events⟩
    else if xmlSpace c then some ⟨.attrGap ⟨name, [], false⟩, s.events⟩
    else tagEnd ⟨name, [], false⟩ s.events c
  | .attrGap head =>
    if xmlSpace c then some ⟨.attrGap head, s.events⟩
    else if nameStart c then some ⟨.attrName head [c], s.events⟩
    else tagEnd head s.events c
  | .attrName head aname =>
    if nameChar c then some ⟨.attrName head (aname ++ [c]), s.events⟩
    else if c = '=' then some ⟨.attrQuote head aname, s.events⟩
    else none
  | .attrQuote head aname =>
    if c = '"' then some ⟨.attrValue head aname [], s.events⟩ else none
  | .attrValue head aname value =>
    if c = '"' then
      some ⟨.attrEnd ⟨head.name, head.attrs ++ [(⟨aname⟩, ⟨value⟩)], head.isDecl⟩, s.events⟩
    else if c = '<' ∨ c = '&' then none
    else if xmlChar c then some ⟨.attrValue head aname (value ++ [c]), s.events⟩
    else none
  | .attrEnd head =>
    if xmlSpace c then some ⟨.attrGap head, s.events⟩ else tagEnd head s.events c
  | .slash head =>
    if c = '>' then closeTag head s.events true else none
  | .question head =>
    if c = '>' ∧ declOk head.attrs then some ⟨.text [], s.events ++ [.decl head.attrs]⟩
    else none
  | .endName name =>
    if (if name = [] then nameStart c else nameChar c) then
      some ⟨.endName (name ++ [c]), s.events⟩
    else if name = [] then none
    else if xmlSpace c then some ⟨.endGap name, s.events⟩
    else if c = '>' then some ⟨.text [], s.events ++ [.stop ⟨name⟩]⟩
    else none
  | .endGap name =>
    if xmlSpace c then some ⟨.endGap name, s.events⟩
    else if c = '>' then some ⟨.text [], s.events ++ [.stop ⟨name⟩]⟩
    else none

/-- Reading a run of characters from a state. -/
def xmlRun : XmlState → List Char → Option XmlState
  | s, [] => some s
  | s, c :: rest =>
    match xmlStep s c with
    | some next => xmlRun next rest
    | none => none

/-- The state before the first character. -/
def xmlInit : XmlState :=
  ⟨.text [], []⟩

/-- The events of a document, if it can be read to its end and ends outside a tag and
outside a reference. -/
def xmlEvents (doc : String) : Option (List XmlEvent) :=
  match xmlRun xmlInit doc.data with
  | some ⟨.text buf, events⟩ => addText events buf
  | _ => none

/-- The nesting of the events after the XML declaration (XML 1.0, productions
`document` and `element`): every end tag closes the element opened last, there is
exactly one root element, and outside it there is white space only. The first argument
is the stack of open elements, the second tells whether the root has been closed. -/
def nested : List String → Bool → List XmlEvent → Bool
  | stack, rootDone, [] => stack.isEmpty && rootDone
  | _, _, .decl _ :: _ => false
  | stack, rootDone, .start name _ :: rest =>
    if stack.isEmpty && rootDone then false else nested (name :: stack) rootDone rest
  | stack, rootDone, .stop name :: rest =>
    match stack with
    | [] => false
    | top :: below => top == name && nested below (rootDone || below.isEmpty) rest
  | stack, rootDone, .chars text :: rest =>
    (!stack.isEmpty || text.data.all xmlSpace) && nested stack rootDone rest

/-- A document is well-formed: it can be read, and its events are nested as the
grammar asks. The XML declaration may come first only; the reader yields it only at
the very start of a document. -/
def wellFormed (doc : String) : Bool :=
  match xmlEvents doc with
  | some (.decl _ :: events) => nested [] false events
  | some events => nested [] false events
  | none => false

/-- The events of a text between two tags: none for the empty text. -/
def textEvents (text : String) : List XmlEvent :=
  if text = "" then [] else [.chars text]

/-- The events of the one element the claims attribute to a record: a `wpt` element
with the attributes `lat` and `lon`, the child `name` whose text is the `Id`, the child
`time`, and the child `cmt` with the escaped `MessageContent` exactly when
`MessageContent` is non-empty; nothing else. -/
def wptElement (env : Env) (e : Message) : List XmlEvent :=
  [.start "wpt" [("lat", env.float6 e.Latitude), ("lon", env.float6 e.Longitude)],
   .start "name" []] ++ textEvents e.Id
    ++ [.stop "name", .start "time" []] ++ textEvents (env.rfc3339 e.UnixTime)
    ++ [.stop "time"]
    ++ (if e.MessageContent = "" then []
        else [.start "cmt" [], .chars (htmlEscapeString e.MessageContent), .stop "cmt"])
    ++ [.stop "wpt"]

/-- The events of a record: its `wpt` element and the line break after it. -/
def wptEvents (env : Env) (e : Message) : List XmlEvent :=
  wptElement env e ++ [.chars "\n"]

/-- The events of the header: the XML declaration, the start tag of the root element
`gpx` with its five attributes, and the line break after each. -/
def gpxOpenEvents : List XmlEvent :=
  [.decl [("version", "1.0"), ("encoding", "UTF-8"), ("standalone", "yes")],
   .chars "\n",
   .start "gpx" [("version", "1.1"), ("creator", "spot.go"),
     ("xmlns:xsi", "http://www.w3.org/2001/XMLSchema-instance"),
     ("xmlns", "http://www.topografix.com/GPX/1/1"),
     ("xsi:schemaLocation",
       "http://www.topografix.com/GPX/1/1 http://www.topografix.com/GPX/1/1/gpx.xsd")],
   .chars "\n"]

/-- The events of the footer: the end tag of the root element and the line break
after it. -/
def gpxCloseEvents : List XmlEvent :=
  [.stop "gpx", .chars "\n"]

/-- A text that can stand between two tags as it is: legal characters only, no `<`,
no `&`, and no `]]>`. -/
def plainText (s : String) : Bool :=
  s.data.all (fun c => xmlChar c && c != '<' && c != '&') && !hasCDataEnd s.data

/-- A text that can stand between the double quotes of an attribute as it is: legal
characters only, no `<`, no `&` and no `"`. -/
def attrText (s : String) : Bool :=
  s.data.all (fun c => xmlChar c && c != '<' && c != '&' && c != '"')

/-! ## Invariants of the proofs -/

/-- What holds of the save block at each program point, for a save of `messages` to
`path` started on the file system `fs`: the steps that succeeded so far, the file
system and the log are determined by the point reached; after an abort the log is one
of the five failure logs and the archive path holds what it held at the start. -/
def SaveInv (env : Env) (path : String) (messages : List Message) (fs : FS)
    (s : SaveState) : Prop :=
  let tmpName := path ++ ".tmp"
  match s.pc with
  | .marshal => s.fs = fs ∧ s.log = []
  | .create j => env.jsonMarshalIndent messages = some j ∧ s.fs = fs ∧ s.log = []
  | .write j =>
    env.jsonMarshalIndent messages = some j ∧ env.createFails tmpName = false ∧
      s.fs = fs.store tmpName "" ∧ s.log = [⟨.create tmpName, true⟩]
  | .close =>
    ∃ j, env.jsonMarshalIndent messages = some j ∧ env.createFails tmpName = false ∧
      env.writeFails tmpName = none ∧
      s.fs = (fs.store tmpName "").store tmpName j ∧
      s.log = [⟨.create tmpName, true⟩, ⟨.write tmpName, true⟩]
  | .rename =>
    ∃ j, env.jsonMarshalIndent messages = some j ∧ env.createFails tmpName = false ∧
      env.writeFails tmpName = none ∧ env.closeFails tmpName = false ∧
      s.fs = (fs.store tmpName "").store tmpName j ∧
      s.log = [⟨.create tmpName, true⟩, ⟨.write tmpName, true⟩, ⟨.close tmpName, true⟩]
  | .done =>
    ∃ j, env.jsonMarshalIndent messages = some j ∧ env.createFails tmpName = false ∧
      env.writeFails tmpName = none ∧ env.closeFails tmpName = false ∧
      env.renameFails tmpName path = false ∧
      s.fs = ((fs.store tmpName "").store tmpName j).rename tmpName path ∧
      s.log = [⟨.create tmpName, true⟩, ⟨.write tmpName, true⟩, ⟨.close tmpName, true⟩,
        ⟨.rename tmpName path, true⟩]
  | .aborted =>
    s.fs path = fs path ∧
      (env.jsonMarshalIndent messages = none ∧ s.log = []
        ∨ env.createFails tmpName = true ∧ s.log = [⟨.create tmpName, false⟩]
        ∨ (env.writeFails tmpName).isSome = true ∧
            s.log = [⟨.create tmpName, true⟩, ⟨.write tmpName, false⟩]
        ∨ env.closeFails tmpName = true ∧
            s.log = [⟨.create tmpName, true⟩, ⟨.write tmpName, true⟩,
              ⟨.close tmpName, false⟩]
        ∨ env.renameFails tmpName path = true ∧
            (∃ j, env.jsonMarshalIndent messages = some j) ∧
            s.log = [⟨.create tmpName, true⟩, ⟨.write tmpName, true⟩,
              ⟨.close tmpName, true⟩, ⟨.rename tmpName path, false⟩])

/-- The sort key of `a[i]`. -/
def keyAt (data : List Message) (i : Nat) : Int :=
  (msgAt data i).UnixTime

/-- The slice `data[a:b]` is non-decreasing in `UnixTime`. -/
def SortedOn (data : List Message) (a b : Nat) : Prop :=
  ∀ i j, a ≤ i → i ≤ j → j < b → keyAt data i ≤ keyAt data j

/-- The slice `d2` is `d1` with the elements of `d1[a:b]` rearranged among the indices
of `[a, b)`: the same length, and a permutation of the indices that moves nothing
outside `[a, b)`. -/
def PermOn (a b : Nat) (d1 d2 : List Message) : Prop :=
  d2.length = d1.length ∧
    ∃ σ : Equiv.Perm Nat, (∀ k, ¬ (a ≤ k ∧ k < b) → σ k = k) ∧
      ∀ k, msgAt d2 k = msgAt d1 (σ k)

/-- When the slice does not start at index 0, the element before it is not greater
than any element of `data[a:b]`. -/
def LowerBounded (data : List Message) (a b : Nat) : Prop :=
  0 < a → ∀ k, a ≤ k → k < b → keyAt data (a - 1) ≤ keyAt data k

/-- The heap property of `heapSort` on the nodes from `lo` on: in the heap laid out at
`data[first : first + hi]`, no child in the heap is greater than its parent. -/
def HeapFrom (data : List Message) (first lo hi : Nat) : Prop :=
  ∀ i c, lo ≤ i → (c = 2 * i + 1 ∨ c = 2 * i + 2) → c < hi →
    keyAt data (first + c) ≤ keyAt data (first + i)

/-- The heap property while `siftDown` is at `root`: it holds at every node from `lo`
on other than `root`, and the parent of `root` is not smaller than the children of
`root`. -/
def HeapExcept (data : List Message) (first lo hi root : Nat) : Prop :=
  (∀ i c, lo ≤ i → i ≠ root → (c = 2 * i + 1 ∨ c = 2 * i + 2) → c < hi →
    keyAt data (first + c) ≤ keyAt data (first + i)) ∧
  (∀ i c, lo ≤ i → (root = 2 * i + 1 ∨ root = 2 * i + 2) →
    (c = 2 * root + 1 ∨ c = 2 * root + 2) → c < hi →
    keyAt data (first + c) ≤ keyAt data (first + i))

/-! ## A concrete world, for the witnesses and counterexamples -/

/-- The archived record of the spec's example scenario. -/
def recA1 : Message := ⟨"A1", 1000, ⟨10⟩, ⟨20⟩, ""⟩

/-- The incoming copy of `A1`, with a different latitude. -/
def recA1new : Message := ⟨"A1", 1000, ⟨15⟩, ⟨20⟩, ""⟩

/-- The new record of the spec's example scenario. -/
def recB2 : Message := ⟨"B2", 900, ⟨11⟩, ⟨21⟩, "hi"⟩

/-- A record only the feed knows. -/
def recC3 : Message := ⟨"C3", 1100, ⟨12⟩, ⟨22⟩, "a<b & \"c\""⟩

/-- A record whose identifier holds markup. -/
def recMarkup : Message := ⟨"<b>&", 1, ⟨0⟩, ⟨0⟩, ""⟩

/-- A record whose `Id` is the sequence that character data must not hold. -/
def recCData : Message := ⟨"]]>", 1, ⟨0⟩, ⟨0⟩, ""⟩

/-- A record whose `MessageContent` is a control character. -/
def recControl : Message := ⟨"A1", 1, ⟨0⟩, ⟨0⟩, "\x01"⟩

/-- A record whose `Id` closes the `name` element and opens a `cmt` element. -/
def recInject : Message := ⟨"x</name><cmt>injected</cmt><name>y", 1, ⟨0⟩, ⟨0⟩, ""⟩

/-- A timeout from the HTTP client: a `*url.Error` around an error whose `Timeout()`
is true. -/
def timeoutError : GoError :=
  .urlError ⟨some true, some true⟩ (some (.other ⟨some true, none⟩))

/-- An error with neither method. -/
def plainError : GoError :=
  .other ⟨none, none⟩

/-- Twelve records observed at the same second, followed by one observed earlier. -/
def thirteen : List Message :=
  [⟨"a", 1, ⟨0⟩, ⟨0⟩, ""⟩, ⟨"b", 1, ⟨0⟩, ⟨0⟩, ""⟩, ⟨"c", 1, ⟨0⟩, ⟨0⟩, ""⟩,
   ⟨"d", 1, ⟨0⟩, ⟨0⟩, ""⟩, ⟨"e", 1, ⟨0⟩, ⟨0⟩, ""⟩, ⟨"f", 1, ⟨0⟩, ⟨0⟩, ""⟩,
   ⟨"g", 1, ⟨0⟩, ⟨0⟩, ""⟩, ⟨"h", 1, ⟨0⟩, ⟨0⟩, ""⟩, ⟨"i", 1, ⟨0⟩, ⟨0⟩, ""⟩,
   ⟨"j", 1, ⟨0⟩, ⟨0⟩, ""⟩, ⟨"k", 1, ⟨0⟩, ⟨0⟩, ""⟩, ⟨"l", 1, ⟨0⟩, ⟨0⟩, ""⟩,
   ⟨"m", 0, ⟨0⟩, ⟨0⟩, ""⟩]

/-- A small world: four archive encodings, one feed file, three feeds. -/
def demoEnv : Env where
  jsonDecode := fun c =>
    if c = "[]" then ⟨true, []⟩
    else if c = "[A1]" then ⟨true, [recA1]⟩
    else if c = "[a-m]" then ⟨true, thirteen⟩
    else ⟨false, []⟩
  gobDecode := fun _ c => if c = "gob[A1]" then ⟨true, [recA1]⟩ else ⟨false, []⟩
  decodeFeed := fun c => if c = "feed[A1,B2]" then some [recA1new, recB2] else none
  retrieveMessages := fun id =>
    if id = "live" then ([recB2], none)
    else if id = "slow" then ([recC3], some timeoutError)
    else ([], some plainError)
  mergeMessages := MergeMessages
  jsonMarshalIndent := fun l => some (String.join (l.map (fun m => m.Id)))
  float6 := fun _ => "0.000000"
  rfc3339 := fun _ => "1970-01-01T00:00:00Z"
  openFails := fun _ => false
  seekFails := fun _ => false
  createFails := fun _ => false
  writeFails := fun _ => none
  faultInDeferredFlush := fun _ => false
  closeFails := fun _ => false
  renameFails := fun _ _ => false

/-- The demo world with a disk that fills up: every write stops after one character. -/
def fullDiskEnv : Env := { demoEnv with writeFails := fun _ => some 1 }

/-- A file system with two JSON archives, a gob archive, a corrupt archive and a saved
feed file. -/
def demoFS : FS := fun p =>
  if p = "messages.db" then some "[A1]"
  else if p = "old.db" then some "gob[A1]"
  else if p = "bad.db" then some "garbage"
  else if p = "feed.json" then some "feed[A1,B2]"
  else if p = "thirteen.db" then some "[a-m]"
  else none

/-- The flags of a run on the JSON archive with no file argument, no feed and no
export. -/
def demoCfg : Config := ⟨"messages.db", "", false, false, "", []⟩

/-- The flags of the spec's example scenario: the JSON archive, one saved feed file,
the live feed and an export. -/
def exampleCfg : Config := ⟨"messages.db", "live", false, false, "out.gpx", ["feed.json"]⟩

/-- The flags of a quiet run against the feed that times out. -/
def slowCfg : Config := ⟨"messages.db", "slow", false, true, "", []⟩

/-- The flags of a quiet run against the feed that is down with an error of neither
kind. -/
def downCfg : Config := ⟨"messages.db", "down", false, true, "", []⟩

/-- The flags of a run on the archive of thirteen records, with nothing to merge. -/
def thirteenCfg : Config := ⟨"thirteen.db", "", false, false, "", []⟩

/-! ## Theorems -/

/-! ### Loading the archive (C4) -/

/-- C4: loading the archive has exactly four outcomes. When `os.Open` fails (in
particular when no file exists) the result is the empty collection with the legacy
flag false and the run continues; when the content decodes as JSON the result is
those records with the flag false; when JSON decoding fails and, after the seek to the
start, gob decoding succeeds, the result is the records of the gob decoding with the
flag true; when both decodings fail the process panics and returns no records. Every
load ends in one of these four ways. -/
theorem loadArchive_four_outcomes (env : Env) (fs : FS) (path : String) :
    (fs path = none → loadArchive env fs path = .ok ([], false)) ∧
    (∀ content, osOpen env fs path = some content →
      (env.jsonDecode content).ok = true →
      loadArchive env fs path = .ok ((env.jsonDecode content).messages, false)) ∧
    (∀ content, osOpen env fs path = some content →
      (env.jsonDecode content).ok = false → env.seekFails path = false →
      (env.gobDecode (env.jsonDecode content).messages content).ok = true →
      loadArchive env fs path
        = .ok ((env.gobDecode (env.jsonDecode content).messages content).messages, true)) ∧
    (∀ content, osOpen env fs path = some content →
      (env.jsonDecode content).ok = false →
      (env.gobDecode (env.jsonDecode content).messages content).ok = false →
      loadArchive env fs path = .error .panic) ∧
    (loadArchive env fs path = .ok ([], false) ∧ osOpen env fs path = none
      ∨ (∃ content, osOpen env fs path = some content ∧
          (env.jsonDecode content).ok = true ∧
          loadArchive env fs path = .ok ((env.jsonDecode content).messages, false))
      ∨ (∃ content, osOpen env fs path = some content ∧
          (env.jsonDecode content).ok = false ∧
          (env.gobDecode (env.jsonDecode content).messages content).ok = true ∧
          loadArchive env fs path
            = .ok ((env.gobDecode (env.jsonDecode content).messages content).messages, true))
      ∨ (∃ content, osOpen env fs path = some content ∧
          (env.jsonDecode content).ok = false ∧
          loadArchive env fs path = .error .panic)) := by
  refine ⟨?_, ?_, ?_, ?_, ?_⟩
  · intro h
    have : osOpen env fs path = none := by
      unfold osOpen; split <;> simp [h]
    simp [loadArchive, this]
  · intro content ho hj
    simp [loadArchive, ho, hj]
  · intro content ho hj hs hg
    simp [loadArchive, ho, hj, hs, hg]
  · intro content ho hj hg
    simp only [loadArchive, ho, hj, hg]
    by_cases hs : env.seekFails path = true <;> simp [hs]
  · cases ho : osOpen env fs path with
    | none => left; simp [loadArchive, ho]
    | some content =>
      right
      by_cases hj : (env.jsonDecode content).ok = true
      · left; exact ⟨content, rfl, hj, by simp [loadArchive, ho, hj]⟩
      · right
        have hj2 : (env.jsonDecode content).ok = false := by simpa using hj
        by_cases hs : env.seekFails path = true
        · right; exact ⟨content, rfl, hj2, by simp [loadArchive, ho, hj2, hs]⟩
        · by_cases hg : (env.gobDecode (env.jsonDecode content).messages content).ok = true
          · left
            exact ⟨content, rfl, hj2, hg, by simp [loadArchive, ho, hj2, hs, hg]⟩
          · right
            exact ⟨content, rfl, hj2, by simp [loadArchive, ho, hj2, hs, hg]⟩

/-- Witness for C4: the four outcomes on the demo world, for a path with no file, the
JSON archive, the gob archive and the corrupt archive. -/
theorem loadArchive_four_outcomes_witness :
    loadArchive demoEnv demoFS "absent.db" = .ok ([], false) ∧
    loadArchive demoEnv demoFS "messages.db" = .ok ([recA1], false) ∧
    loadArchive demoEnv demoFS "old.db" = .ok ([recA1], true) ∧
    loadArchive demoEnv demoFS "bad.db" = .error .panic :=
  ⟨(loadArchive_four_outcomes demoEnv demoFS "absent.db").1 rfl,
   (loadArchive_four_outcomes demoEnv demoFS "messages.db").2.1 "[A1]" rfl rfl,
   (loadArchive_four_outcomes demoEnv demoFS "old.db").2.2.1 "gob[A1]" rfl rfl rfl rfl,
   (loadArchive_four_outcomes demoEnv demoFS "bad.db").2.2.2.1 "garbage" rfl rfl rfl⟩
/-! ### The merge engine and the merge step (C2) -/

theorem mem_ids_MergeMessages (a b : List Message) (m : Message) (hm : m ∈ b) :
    m.Id ∈ (MergeMessages a b).map (fun m => m.Id) := by
  unfold MergeMessages
  rw [List.map_append, List.mem_append]
  by_cases h : m.Id ∈ a.map (fun m => m.Id)
  · exact Or.inl h
  · right
    refine List.mem_map.mpr ⟨m, List.mem_filter.mpr ⟨hm, ?_⟩, rfl⟩
    simp only [List.elem_eq_mem, Bool.not_eq_true', decide_eq_false_iff_not]
    exact h

theorem MergeMessages_filter_again (a b : List Message) :
    b.filter (fun m => !((MergeMessages a b).map (fun m => m.Id)).contains m.Id) = [] := by
  rw [List.filter_eq_nil_iff]
  intro m hm
  have key := mem_ids_MergeMessages a b m hm
  simp only [List.elem_eq_mem, Bool.not_eq_true', decide_eq_false_iff_not, not_not,
    Bool.not_eq_true, key, decide_True]
  simp

theorem MergeMessages_twice (a b : List Message) :
    MergeMessages (MergeMessages a b) b = MergeMessages a b := by
  have h := MergeMessages_filter_again a b
  have e : MergeMessages (MergeMessages a b) b = MergeMessages a b ++
      b.filter (fun m => !((MergeMessages a b).map (fun m => m.Id)).contains m.Id) := rfl
  rw [e, h, List.append_nil]

/-- C2: dedup idempotence of the merge step as the orchestrator uses it. Merging a
batch into the archive and then merging the same batch again yields the same
collection as merging it once; the second merge adds no record, so the length does not
grow and the second merge step leaves the state, the modified flag included, as the
first one left it. -/
theorem mergeStep_idempotent (st : State) (batch : List Message) :
    MergeMessages (MergeMessages st.messages batch) batch = MergeMessages st.messages batch ∧
    (MergeMessages (MergeMessages st.messages batch) batch).length
      = (MergeMessages st.messages batch).length ∧
    mergeStep MergeMessages (mergeStep MergeMessages st batch) batch
      = mergeStep MergeMessages st batch ∧
    (mergeStep MergeMessages (mergeStep MergeMessages st batch) batch).modified
      = (mergeStep MergeMessages st batch).modified := by
  have h := MergeMessages_twice st.messages batch
  have hstep : mergeStep MergeMessages (mergeStep MergeMessages st batch) batch
      = mergeStep MergeMessages st batch := by
    unfold mergeStep
    by_cases hlen : (MergeMessages st.messages batch).length > st.messages.length
    · simp [hlen, h]
    · simp [hlen, h]
  exact ⟨h, by rw [h], hstep, by rw [hstep]⟩

/-- Witness for C2: the spec's example scenario. Merging the batch `[A1, B2]` into the
archive `[A1]` adds `B2` only and sets the flag; merging it again changes nothing. -/
theorem mergeStep_idempotent_witness :
    mergeStep MergeMessages ⟨[recA1], false⟩ [recA1new, recB2] = ⟨[recA1, recB2], true⟩ ∧
    mergeStep MergeMessages ⟨[recA1, recB2], false⟩ [recA1new, recB2]
      = ⟨[recA1, recB2], false⟩ ∧
    mergeStep MergeMessages (mergeStep MergeMessages ⟨[recA1], false⟩ [recA1new, recB2])
        [recA1new, recB2]
      = mergeStep MergeMessages ⟨[recA1], false⟩ [recA1new, recB2] :=
  ⟨by decide, by decide, (mergeStep_idempotent ⟨[recA1], false⟩ [recA1new, recB2]).2.2.1⟩

/-! ### Feed errors (C8) -/

theorem filterFeedError_none_iff (quiet : Bool) (err : GoError) :
    filterFeedError quiet err = none ↔ quiet = true ∧ Benign err := by
  cases quiet with
  | false => simp [filterFeedError]
  | true =>
    simp only [filterFeedError, true_and, if_true]
    unfold Benign reportsTimeout reportsTemporary
    cases err with
    | spotError code m =>
      by_cases hc : code = "E-0195"
      · subst hc
        simp [clearBenignCode, unwrapUrl, timeoutHolds, temporaryHolds]
      · rcases m with ⟨_ | _ | _, _ | _ | _⟩ <;>
          simp [clearBenignCode, unwrapUrl, timeoutHolds, temporaryHolds, afterOneUrlLayer,
            GoError.methods, hc, Ne.symm hc]
    | urlError m inner =>
      cases inner with
      | none => simp [clearBenignCode, unwrapUrl, timeoutHolds, temporaryHolds, afterOneUrlLayer]
      | some e =>
        rcases h : e.methods with ⟨_ | _ | _, _ | _ | _⟩ <;>
          simp [clearBenignCode, unwrapUrl, timeoutHolds, temporaryHolds, afterOneUrlLayer, h]
    | other m =>
      rcases m with ⟨_ | _ | _, _ | _ | _⟩ <;>
        simp [clearBenignCode, unwrapUrl, timeoutHolds, temporaryHolds, afterOneUrlLayer,
          GoError.methods]

theorem beforeSave_of_stages (env : Env) (cfg : Config) (fs : FS)
    (loaded : List Message) (legacy : Bool) (st st2 : State)
    (hload : loadArchive env fs cfg.messageDB = .ok (loaded, legacy))
    (hargs : mergeArgs env fs cfg.args ⟨loaded, legacy⟩ = .ok st)
    (hfeed : feedStep env cfg st = .ok st2) :
    beforeSave env cfg fs = .ok ⟨sortSort st2.messages, st2.modified⟩ := by
  simp only [beforeSave, hload, hargs, hfeed]

theorem main_of_feed_exit (env : Env) (cfg : Config) (fs : FS)
    (loaded : List Message) (legacy : Bool) (st : State)
    (hload : loadArchive env fs cfg.messageDB = .ok (loaded, legacy))
    (hargs : mergeArgs env fs cfg.args ⟨loaded, legacy⟩ = .ok st)
    (hfeed : feedStep env cfg st = .error .exit1) :
    main env cfg fs = ⟨1, fs, false, [], false⟩ := by
  have h : beforeSave env cfg fs = .error .exit1 := by
    simp only [beforeSave, hload, hargs, hfeed]
  simp only [main, h, Abort.status]

/-- C8: a retrieval error is absorbed exactly when the quiet option is set and the
error is benign (a feed error with code `E-0195`, or an error that after unwrapping
one URL-error layer reports `Timeout()` true or `Temporary()` true). For a run whose
load and file batches succeeded and whose retrieval returned an error: the feed step
goes on to the merge, and the run reaches the ordering step and the save decision, if
and only if quiet is set and the error is benign; in every other case, every error
without quiet included, the process exits with status 1, having entered neither the
save block nor the export block and leaving the file system as it was. -/
theorem feed_error_absorbed_iff (env : Env) (cfg : Config) (fs : FS)
    (loaded : List Message) (legacy : Bool) (st : State) (n : List Message) (err : GoError)
    (hload : loadArchive env fs cfg.messageDB = .ok (loaded, legacy))
    (hargs : mergeArgs env fs cfg.args ⟨loaded, legacy⟩ = .ok st)
    (hfeed : cfg.feedID.length > 0)
    (hret : env.retrieveMessages cfg.feedID = (n, some err)) :
    ((∃ st2, feedStep env cfg st = .ok st2) ↔ cfg.quiet = true ∧ Benign err) ∧
    (cfg.quiet = true ∧ Benign err →
      feedStep env cfg st = .ok (mergeStep env.mergeMessages st n) ∧
      beforeSave env cfg fs
        = .ok ⟨sortSort (mergeStep env.mergeMessages st n).messages,
            (mergeStep env.mergeMessages st n).modified⟩) ∧
    (¬ (cfg.quiet = true ∧ Benign err) →
      feedStep env cfg st = .error .exit1 ∧
      (main env cfg fs).status = 1 ∧ (main env cfg fs).status ≠ 0 ∧
      (main env cfg fs).saveEntered = false ∧ (main env cfg fs).saveLog = [] ∧
      (main env cfg fs).exportEntered = false ∧ (main env cfg fs).fs = fs) := by
  have hiff := filterFeedError_none_iff cfg.quiet err
  have hyes : cfg.quiet = true ∧ Benign err →
      feedStep env cfg st = .ok (mergeStep env.mergeMessages st n) := by
    intro hb
    have hnone := hiff.mpr hb
    simp only [feedStep, hfeed, if_true, hret, hnone]
  have hno : ¬ (cfg.quiet = true ∧ Benign err) → feedStep env cfg st = .error .exit1 := by
    intro hb
    have hsome : filterFeedError cfg.quiet err ≠ none := fun h => hb (hiff.mp h)
    obtain ⟨e, he⟩ := Option.ne_none_iff_exists'.mp hsome
    simp only [feedStep, hfeed, if_true, hret, he]
  refine ⟨?_, ?_, ?_⟩
  · constructor
    · rintro ⟨st2, h2⟩
      by_contra hb
      rw [hno hb] at h2
      cases h2
    · intro hb
      exact ⟨_, hyes hb⟩
  · intro hb
    exact ⟨hyes hb, beforeSave_of_stages env cfg fs loaded legacy st _ hload hargs (hyes hb)⟩
  · intro hb
    have hm := main_of_feed_exit env cfg fs loaded legacy st hload hargs (hno hb)
    refine ⟨hno hb, ?_, ?_, ?_, ?_, ?_, ?_⟩ <;> simp [hm]

theorem plainError_not_benign : ¬ (downCfg.quiet = true ∧ Benign plainError) := by
  rintro ⟨_, h | ⟨e, he, hm⟩ | ⟨e, he, hm⟩⟩
  · obtain ⟨m, hm⟩ := h
    cases hm
  · simp only [afterOneUrlLayer, plainError, Option.some.injEq] at he
    subst he
    simp [GoError.methods] at hm
  · simp only [afterOneUrlLayer, plainError, Option.some.injEq] at he
    subst he
    simp [GoError.methods] at hm

theorem timeoutError_benign : slowCfg.quiet = true ∧ Benign timeoutError :=
  ⟨rfl, Or.inr (Or.inl ⟨_, rfl, rfl⟩)⟩

/-- Witness for C8: on the demo world, the quiet run against the feed that times out
goes on to the save decision with the returned record merged, and the quiet run
against the feed that fails with an error of neither kind exits with status 1 before
any save or export. -/
theorem feed_error_absorbed_iff_witness :
    beforeSave demoEnv slowCfg demoFS = .ok ⟨[recA1, recC3], true⟩ ∧
    ((main demoEnv downCfg demoFS).status = 1 ∧ (main demoEnv downCfg demoFS).status ≠ 0 ∧
      (main demoEnv downCfg demoFS).saveEntered = false ∧
      (main demoEnv downCfg demoFS).saveLog = [] ∧
      (main demoEnv downCfg demoFS).exportEntered = false ∧
      (main demoEnv downCfg demoFS).fs = demoFS) :=
  ⟨((feed_error_absorbed_iff demoEnv slowCfg demoFS [recA1] false ⟨[recA1], false⟩ [recC3]
      timeoutError rfl rfl (by decide) rfl).2.1 timeoutError_benign).2,
   ((feed_error_absorbed_iff demoEnv downCfg demoFS [recA1] false ⟨[recA1], false⟩ []
      plainError rfl rfl (by decide) rfl).2.2 plainError_not_benign).2⟩

/-! ### Saving (C5) -/

theorem tmpName_ne (path : String) : path ++ ".tmp" ≠ path := by
  intro h
  have hl := congrArg String.length h
  simp only [String.length_append, add_right_eq_self] at hl
  exact absurd hl (by decide)

theorem store_other (fs : FS) (p c q : String) (h : q ≠ p) : (fs.store p c) q = fs q := by
  simp [FS.store, h]

theorem saveStep_inv (env : Env) (path : String) (messages : List Message) (fs : FS)
    (s : SaveState) (h : SaveInv env path messages fs s) :
    SaveInv env path messages fs (saveStep env path messages s) := by
  have hne : path ≠ path ++ ".tmp" := fun h => tmpName_ne path h.symm
  obtain ⟨pc, sfs, slog⟩ := s
  cases pc with
  | marshal =>
    simp only [SaveInv] at h
    obtain ⟨h1, h2⟩ := h
    cases hm : env.jsonMarshalIndent messages with
    | none =>
      simp only [saveStep, hm, SaveInv]
      exact ⟨by rw [h1], Or.inl ⟨trivial, h2⟩⟩
    | some j =>
      simp only [saveStep, hm, SaveInv]
      exact ⟨trivial, h1, h2⟩
  | create j =>
    simp only [SaveInv] at h
    obtain ⟨h0, h1, h2⟩ := h
    by_cases hc : env.createFails (path ++ ".tmp") = true
    · simp only [saveStep, hc, if_true, SaveInv]
      exact ⟨by rw [h1], Or.inr (Or.inl ⟨trivial, by simp [h2]⟩)⟩
    · have hc2 : env.createFails (path ++ ".tmp") = false := by simpa using hc
      simp only [saveStep, hc2, SaveInv]
      exact ⟨h0, trivial, by simp [h1], by simp [h2]⟩
  | write j =>
    simp only [SaveInv] at h
    obtain ⟨h0, hcr, h1, h2⟩ := h
    cases hw : env.writeFails (path ++ ".tmp") with
    | some k =>
      simp only [saveStep, hw, SaveInv]
      refine ⟨?_, Or.inr (Or.inr (Or.inl ⟨by simp, by simp [h2]⟩))⟩
      rw [store_other _ _ _ _ hne, h1, store_other _ _ _ _ hne]
    | none =>
      simp only [saveStep, hw, SaveInv]
      exact ⟨j, h0, hcr, trivial, by rw [h1], by simp [h2]⟩
  | close =>
    simp only [SaveInv] at h
    obtain ⟨j, h0, hcr, hwr, h1, h2⟩ := h
    by_cases hc : env.closeFails (path ++ ".tmp") = true
    · simp only [saveStep, hc, if_true, SaveInv]
      refine ⟨?_, Or.inr (Or.inr (Or.inr (Or.inl ⟨trivial, by simp [h2]⟩)))⟩
      rw [h1, store_other _ _ _ _ hne, store_other _ _ _ _ hne]
    · have hc2 : env.closeFails (path ++ ".tmp") = false := by simpa using hc
      simp only [saveStep, hc2, SaveInv]
      exact ⟨j, h0, hcr, hwr, trivial, by simp [h1], by simp [h2]⟩
  | rename =>
    simp only [SaveInv] at h
    obtain ⟨j, h0, hcr, hwr, hcl, h1, h2⟩ := h
    by_cases hc : env.renameFails (path ++ ".tmp") path = true
    · simp only [saveStep, hc, if_true, SaveInv]
      refine ⟨?_, Or.inr (Or.inr (Or.inr (Or.inr ⟨trivial, ⟨j, h0⟩, by simp [h2]⟩)))⟩
      rw [h1, store_other _ _ _ _ hne, store_other _ _ _ _ hne]
    · have hc2 : env.renameFails (path ++ ".tmp") path = false := by simpa using hc
      simp only [saveStep, hc2, SaveInv]
      exact ⟨j, h0, hcr, hwr, hcl, trivial, by simp [h1], by simp [h2]⟩
  | done => simpa only [saveStep] using h
  | aborted => simpa only [saveStep] using h

theorem saveRun_inv (env : Env) (path : String) (messages : List Message) (fs : FS)
    (n : Nat) : SaveInv env path messages fs (saveRun env path messages fs n) := by
  induction n with
  | zero => simp [saveRun, SaveInv]
  | succ n ih => exact saveStep_inv env path messages fs _ ih

theorem saveStep_pc (env : Env) (path : String) (messages : List Message) (s : SaveState) :
    (s.pc = .marshal →
      (saveStep env path messages s).pc = .aborted
        ∨ ∃ j, (saveStep env path messages s).pc = .create j) ∧
    (∀ j, s.pc = .create j →
      (saveStep env path messages s).pc = .aborted
        ∨ (saveStep env path messages s).pc = .write j) ∧
    (∀ j, s.pc = .write j →
      (saveStep env path messages s).pc = .aborted
        ∨ (saveStep env path messages s).pc = .close) ∧
    (s.pc = .close →
      (saveStep env path messages s).pc = .aborted
        ∨ (saveStep env path messages s).pc = .rename) ∧
    (s.pc = .rename →
      (saveStep env path messages s).pc = .aborted
        ∨ (saveStep env path messages s).pc = .done) ∧
    (s.pc = .aborted → (saveStep env path messages s).pc = .aborted) := by
  obtain ⟨pc, sfs, slog⟩ := s
  refine ⟨?_, ?_, ?_, ?_, ?_, ?_⟩
  · rintro rfl
    simp only [saveStep]
    cases env.jsonMarshalIndent messages <;> simp
  · rintro j rfl
    simp only [saveStep]
    split <;> simp
  · rintro j rfl
    simp only [saveStep]
    cases env.writeFails (path ++ ".tmp") <;> simp
  · rintro rfl
    simp only [saveStep]
    split <;> simp
  · rintro rfl
    simp only [saveStep]
    split <;> simp
  · rintro rfl
    simp only [saveStep]

theorem saveArchive_pc (env : Env) (path : String) (messages : List Message) (fs : FS) :
    (saveArchive env path messages fs).pc = .done
      ∨ (saveArchive env path messages fs).pc = .aborted := by
  have step := saveStep_pc env path messages
  have h0 : (saveRun env path messages fs 0).pc = .marshal := rfl
  have ab : ∀ n, (saveRun env path messages fs n).pc = .aborted →
      (saveRun env path messages fs (n + 1)).pc = .aborted :=
    fun n h => (step _).2.2.2.2.2 h
  have e : saveArchive env path messages fs = saveRun env path messages fs 5 := rfl
  rw [e]
  rcases (step _).1 h0 with h1 | ⟨j, h1⟩
  · exact Or.inr (ab 4 (ab 3 (ab 2 (ab 1 h1))))
  · rcases (step _).2.1 j h1 with h2 | h2
    · exact Or.inr (ab 4 (ab 3 (ab 2 h2)))
    · rcases (step _).2.2.1 j h2 with h3 | h3
      · exact Or.inr (ab 4 (ab 3 h3))
      · rcases (step _).2.2.2.1 h3 with h4 | h4
        · exact Or.inr (ab 4 h4)
        · rcases (step _).2.2.2.2.1 h4 with h5 | h5
          · exact Or.inr h5
          · exact Or.inl h5

theorem create_not_touches (path : String) :
    (FsOp.create (path ++ ".tmp")).touches path = false ∧
    (FsOp.write (path ++ ".tmp")).touches path = false ∧
    (FsOp.close (path ++ ".tmp")).touches path = false := by
  simp [FsOp.touches, tmpName_ne]

theorem main_of_save_aborted (env : Env) (cfg : Config) (fs : FS) (st : State)
    (hb : beforeSave env cfg fs = .ok st) (hm : st.modified = true)
    (ha : (saveArchive env cfg.messageDB st.messages fs).pc = .aborted) :
    main env cfg fs = ⟨2, (saveArchive env cfg.messageDB st.messages fs).fs, true,
      (saveArchive env cfg.messageDB st.messages fs).log, false⟩ := by
  simp [main, hb, hm, ha, Abort.status]

/-- C5: atomic persistence of the save block, over an explicit file system. At every
point of the block (after any number `n` of its statements, so also when the run stops
early): an operation of the log that names the archive path is the rename of
`<path>.tmp` over it, it is the last operation, and marshalling, create, write and
close all succeeded before it; as long as the block has not completed, the archive
path holds what it held at the start. When marshalling, create, write, close or
rename fails, the block panics with the archive path unchanged, and the process ends
with a non-zero status, the export block not entered. When the block completes, the
archive path holds the marshalled bytes. -/
theorem save_is_atomic (env : Env) (path : String) (messages : List Message) (fs : FS)
    (n : Nat) :
    (∀ ev ∈ (saveRun env path messages fs n).log, ev.op.touches path = true →
      ev.op = .rename (path ++ ".tmp") path ∧
      (saveRun env path messages fs n).log
        = [⟨.create (path ++ ".tmp"), true⟩, ⟨.write (path ++ ".tmp"), true⟩,
            ⟨.close (path ++ ".tmp"), true⟩, ev] ∧
      ∃ j, env.jsonMarshalIndent messages = some j) ∧
    ((saveRun env path messages fs n).pc ≠ .done →
      (saveRun env path messages fs n).fs path = fs path) ∧
    ((saveRun env path messages fs n).pc = .done →
      (saveRun env path messages fs n).fs path = env.jsonMarshalIndent messages ∧
      ∃ j, env.jsonMarshalIndent messages = some j) ∧
    (env.jsonMarshalIndent messages = none ∨ env.createFails (path ++ ".tmp") = true
        ∨ (env.writeFails (path ++ ".tmp")).isSome = true
        ∨ env.closeFails (path ++ ".tmp") = true
        ∨ env.renameFails (path ++ ".tmp") path = true →
      (saveArchive env path messages fs).pc = .aborted ∧
      (saveArchive env path messages fs).fs path = fs path ∧
      ∀ cfg st, cfg.messageDB = path → beforeSave env cfg fs = .ok st →
        st.modified = true → st.messages = messages →
        (main env cfg fs).status = 2 ∧ (main env cfg fs).fs path = fs path ∧
        (main env cfg fs).exportEntered = false) := by
  have hne : path ≠ path ++ ".tmp" := fun h => tmpName_ne path h.symm
  have hnt := create_not_touches path
  have inv := saveRun_inv env path messages fs n
  have inv5 := saveRun_inv env path messages fs 5
  refine ⟨?_, ?_, ?_, ?_⟩
  · generalize saveRun env path messages fs n = s at inv
    obtain ⟨pc, sfs, slog⟩ := s
    intro ev hev ht
    cases pc <;> simp only [SaveInv] at inv
    · simp [inv.2] at hev
    · simp [inv.2.2] at hev
    · obtain ⟨-, -, -, hl⟩ := inv
      simp only [hl, List.mem_singleton] at hev
      subst hev
      simp [hnt.1] at ht
    · obtain ⟨j, -, -, -, -, hl⟩ := inv
      simp only [hl, List.mem_cons, List.mem_singleton, List.not_mem_nil, or_false] at hev
      rcases hev with rfl | rfl <;> simp [hnt.1, hnt.2.1] at ht
    · obtain ⟨j, -, -, -, -, -, hl⟩ := inv
      simp only [hl, List.mem_cons, List.mem_singleton, List.not_mem_nil, or_false] at hev
      rcases hev with rfl | rfl | rfl <;> simp [hnt.1, hnt.2.1, hnt.2.2] at ht
    · obtain ⟨j, hj, -, -, -, -, -, hl⟩ := inv
      simp only [hl, List.mem_cons, List.mem_singleton, List.not_mem_nil, or_false] at hev
      rcases hev with rfl | rfl | rfl | rfl
      · simp [hnt.1] at ht
      · simp [hnt.2.1] at ht
      · simp [hnt.2.2] at ht
      · exact ⟨rfl, hl, j, hj⟩
    · obtain ⟨-, h | h | h | h | h⟩ := inv
      · simp [h.2] at hev
      · simp only [h.2, List.mem_singleton] at hev
        subst hev
        simp [hnt.1] at ht
      · simp only [h.2, List.mem_cons, List.mem_singleton, List.not_mem_nil, or_false] at hev
        rcases hev with rfl | rfl <;> simp [hnt.1, hnt.2.1] at ht
      · simp only [h.2, List.mem_cons, List.mem_singleton, List.not_mem_nil, or_false] at hev
        rcases hev with rfl | rfl | rfl <;> simp [hnt.1, hnt.2.1, hnt.2.2] at ht
      · obtain ⟨-, ⟨j, hj⟩, hl⟩ := h
        simp only [hl, List.mem_cons, List.mem_singleton, List.not_mem_nil, or_false] at hev
        rcases hev with rfl | rfl | rfl | rfl
        · simp [hnt.1] at ht
        · simp [hnt.2.1] at ht
        · simp [hnt.2.2] at ht
        · exact ⟨rfl, hl, j, hj⟩
  · generalize saveRun env path messages fs n = s at inv
    obtain ⟨pc, sfs, slog⟩ := s
    intro hpc
    cases pc <;> simp only [SaveInv] at inv
    · exact congrFun inv.1 path
    · exact congrFun inv.2.1 path
    · show sfs path = fs path
      rw [inv.2.2.1, store_other _ _ _ _ hne]
    · obtain ⟨j, -, -, -, hf, -⟩ := inv
      show sfs path = fs path
      rw [hf, store_other _ _ _ _ hne, store_other _ _ _ _ hne]
    · obtain ⟨j, -, -, -, -, hf, -⟩ := inv
      show sfs path = fs path
      rw [hf, store_other _ _ _ _ hne, store_other _ _ _ _ hne]
    · exact absurd rfl hpc
    · exact inv.1
  · generalize saveRun env path messages fs n = s at inv
    obtain ⟨pc, sfs, slog⟩ := s
    intro hpc
    simp only at hpc
    subst hpc
    simp only [SaveInv] at inv
    obtain ⟨j, hj, -, -, -, -, hf, -⟩ := inv
    refine ⟨?_, j, hj⟩
    show sfs path = _
    rw [hf, hj]
    simp [FS.rename, FS.store]
  · intro hfail
    have hab : (saveArchive env path messages fs).pc = .aborted := by
      rcases saveArchive_pc env path messages fs with hd | ha
      · exfalso
        have i5 : SaveInv env path messages fs (saveArchive env path messages fs) := inv5
        generalize saveArchive env path messages fs = s at hd i5
        obtain ⟨pc, sfs, slog⟩ := s
        simp only at hd
        subst hd
        simp only [SaveInv] at i5
        obtain ⟨j, hj, h1, h2, h3, h4, -⟩ := i5
        rcases hfail with h | h | h | h | h
        · rw [hj] at h; cases h
        · rw [h1] at h; cases h
        · rw [h2] at h; cases h
        · rw [h3] at h; cases h
        · rw [h4] at h; cases h
      · exact ha
    have hfs : (saveArchive env path messages fs).fs path = fs path := by
      have i5 : SaveInv env path messages fs (saveArchive env path messages fs) := inv5
      generalize saveArchive env path messages fs = s at hab i5
      obtain ⟨pc, sfs, slog⟩ := s
      simp only at hab
      subst hab
      simp only [SaveInv] at i5
      exact i5.1
    refine ⟨hab, hfs, ?_⟩
    intro cfg st hp hb hm hmsg
    subst hp hmsg
    have hmain := main_of_save_aborted env cfg fs st hb hm hab
    rw [hmain]
    exact ⟨rfl, hfs, rfl⟩
/-- Witness for C5: on a disk that fills up during the write, the save block panics
and the archive still holds its old content. -/
theorem save_is_atomic_witness :
    (saveArchive fullDiskEnv "messages.db" [recB2, recA1] demoFS).pc = .aborted ∧
    (saveArchive fullDiskEnv "messages.db" [recB2, recA1] demoFS).fs "messages.db"
      = some "[A1]" :=
  ⟨((save_is_atomic fullDiskEnv "messages.db" [recB2, recA1] demoFS 5).2.2.2
      (Or.inr (Or.inr (Or.inl rfl)))).1,
   ((save_is_atomic fullDiskEnv "messages.db" [recB2, recA1] demoFS 5).2.2.2
      (Or.inr (Or.inr (Or.inl rfl)))).2.1⟩

/-! ### The modified flag and the save decision (C1) -/

theorem mergeArgs_eq_foldl (env : Env) (fs : FS) (args : List String) (st st2 : State)
    (h : mergeArgs env fs args st = .ok st2) :
    ∃ batches, argBatches env fs args = some batches ∧
      st2 = batches.foldl (mergeStep env.mergeMessages) st := by
  induction args generalizing st with
  | nil =>
    simp only [mergeArgs, Except.ok.injEq] at h
    exact ⟨[], rfl, h.symm⟩
  | cons fname rest ih =>
    simp only [mergeArgs] at h
    cases ho : osOpen env fs fname with
    | none => simp [ho] at h
    | some content =>
      simp only [ho] at h
      cases hd : env.decodeFeed content with
      | none => simp [hd] at h
      | some batch =>
        simp only [hd] at h
        obtain ⟨batches, hb, hst⟩ := ih _ h
        exact ⟨batch :: batches, by simp [argBatches, ho, hd, hb], by simpa using hst⟩

theorem feedStep_eq_foldl (env : Env) (cfg : Config) (st st2 : State)
    (h : feedStep env cfg st = .ok st2) :
    ∃ batches, feedBatches env cfg = some batches ∧
      st2 = batches.foldl (mergeStep env.mergeMessages) st := by
  unfold feedStep at h
  unfold feedBatches
  by_cases hf : cfg.feedID.length > 0
  · simp only [hf, if_true] at h ⊢
    rcases hr : env.retrieveMessages cfg.feedID with ⟨n, _ | err⟩
    · simp only [hr, Except.ok.injEq] at h
      exact ⟨[n], rfl, by simp [h]⟩
    · simp only [hr] at h
      cases hq : filterFeedError cfg.quiet err with
      | some e => simp [hq] at h
      | none =>
        simp only [hq, Except.ok.injEq] at h
        exact ⟨[n], by simp [hq], by simp [h]⟩
  · simp only [hf, if_false, Except.ok.injEq] at h ⊢
    exact ⟨[], rfl, by simp [h]⟩

theorem someMergeAdded_cons (merge : List Message → List Message → List Message)
    (loaded batch : List Message) (batches : List (List Message)) :
    SomeMergeAdded merge loaded (batch :: batches) ↔
      loaded.length < (merge loaded batch).length
        ∨ SomeMergeAdded merge (merge loaded batch) batches := by
  unfold SomeMergeAdded mergedAfter
  constructor
  · rintro ⟨k, hk, hlt⟩
    cases k with
    | zero => left; simpa using hlt
    | succ k =>
      right
      refine ⟨k, by simpa using hk, ?_⟩
      simpa using hlt
  · rintro (h | ⟨k, hk, hlt⟩)
    · exact ⟨0, by simp, by simpa using h⟩
    · exact ⟨k + 1, by simpa using hk, by simpa using hlt⟩

theorem foldl_mergeStep (merge : List Message → List Message → List Message)
    (batches : List (List Message)) (st : State) :
    (batches.foldl (mergeStep merge) st).messages = batches.foldl merge st.messages ∧
    ((batches.foldl (mergeStep merge) st).modified = true ↔
      st.modified = true ∨ SomeMergeAdded merge st.messages batches) := by
  induction batches generalizing st with
  | nil => simp [SomeMergeAdded]
  | cons batch rest ih =>
    simp only [List.foldl_cons]
    obtain ⟨h1, h2⟩ := ih (mergeStep merge st batch)
    have hm : (mergeStep merge st batch).messages = merge st.messages batch := by
      simp only [mergeStep]; split <;> rfl
    have hf : (mergeStep merge st batch).modified = true ↔
        st.modified = true ∨ st.messages.length < (merge st.messages batch).length := by
      unfold mergeStep
      by_cases hlen : (merge st.messages batch).length > st.messages.length
      · simp [hlen]
      · have hlen2 : ¬ st.messages.length < (merge st.messages batch).length := hlen
        simp [hlen, hlen2]
    refine ⟨by rw [h1, hm], ?_⟩
    rw [h2, hm, hf, someMergeAdded_cons]
    tauto

/-- C1: the modified flag and the save decision. For every run that reaches the test
`if modified` (load, file batches and feed step did not abort): the flag is true at
that test if and only if the archive was loaded through the legacy gob format or at
least one merge step, of a file batch or of the feed batch, made the collection
longer; the save block is entered if and only if the flag is true, and a run that ends
with status 0 has rewritten the archive (renamed the temporary file over it) if and
only if the flag is true. In particular, when the archive loads as JSON and no merge
adds a record, the save block is not entered and issues no file-system operation. -/
theorem modified_iff_legacy_or_added (env : Env) (cfg : Config) (fs : FS) (st : State)
    (h : beforeSave env cfg fs = .ok st) :
    ∃ loaded legacy batches,
      loadArchive env fs cfg.messageDB = .ok (loaded, legacy) ∧
      mergedBatches env cfg fs = some batches ∧
      st.messages = sortSort (batches.foldl env.mergeMessages loaded) ∧
      (st.modified = true ↔
        legacy = true ∨ SomeMergeAdded env.mergeMessages loaded batches) ∧
      ((main env cfg fs).saveEntered = true ↔ st.modified = true) ∧
      ((main env cfg fs).status = 0 →
        (Rewritten cfg (main env cfg fs).saveLog ↔ st.modified = true)) ∧
      (legacy = false ∧ ¬ SomeMergeAdded env.mergeMessages loaded batches →
        (main env cfg fs).saveEntered = false ∧ (main env cfg fs).saveLog = [] ∧
        ¬ Rewritten cfg (main env cfg fs).saveLog) := by
  have h0 := h
  unfold beforeSave at h
  rcases hl : loadArchive env fs cfg.messageDB with a | ⟨loaded, legacy⟩
  · simp [hl] at h
  simp only [hl] at h
  cases ha : mergeArgs env fs cfg.args ⟨loaded, legacy⟩ with
  | error a => simp [ha] at h
  | ok st1 =>
    simp only [ha] at h
    cases hfd : feedStep env cfg st1 with
    | error a => simp [hfd] at h
    | ok st2 =>
      simp only [hfd, Except.ok.injEq] at h
      obtain ⟨b1, hb1, hs1⟩ := mergeArgs_eq_foldl env fs cfg.args _ _ ha
      obtain ⟨b2, hb2, hs2⟩ := feedStep_eq_foldl env cfg _ _ hfd
      have hst2 : st2 = (b1 ++ b2).foldl (mergeStep env.mergeMessages) ⟨loaded, legacy⟩ := by
        rw [List.foldl_append, ← hs1, ← hs2]
      obtain ⟨hmsg, hflag⟩ := foldl_mergeStep env.mergeMessages (b1 ++ b2) ⟨loaded, legacy⟩
      rw [← hst2] at hmsg hflag
      have hmod : st.modified = st2.modified := by rw [← h]
      have hflag2 : st.modified = true ↔
          legacy = true ∨ SomeMergeAdded env.mergeMessages loaded (b1 ++ b2) := by
        rw [hmod]; exact hflag
      have hentered : (main env cfg fs).saveEntered = true ↔ st.modified = true := by
        unfold main
        rw [h0]
        by_cases hm : st.modified = true
        · simp only [hm, if_true]
          split
          · split <;> simp
          · simp
        · have hm2 : st.modified = false := by simpa using hm
          simp only [hm2, Bool.false_eq_true, if_false]
          split <;> simp
      have hnolog : st.modified = false → (main env cfg fs).saveLog = [] := by
        intro hm
        unfold main
        rw [h0]
        simp only [hm, Bool.false_eq_true, if_false]
        split <;> rfl
      have hrew : (main env cfg fs).status = 0 →
          (Rewritten cfg (main env cfg fs).saveLog ↔ st.modified = true) := by
        intro hstat
        by_cases hm : st.modified = true
        · simp only [hm, iff_true]
          have inv := saveRun_inv env cfg.messageDB st.messages fs 5
          have hdone : (saveArchive env cfg.messageDB st.messages fs).pc = .done := by
            rcases saveArchive_pc env cfg.messageDB st.messages fs with hd | hab
            · exact hd
            · rw [main_of_save_aborted env cfg fs st h0 hm hab] at hstat
              simp at hstat
          have hlog : (main env cfg fs).saveLog
              = (saveArchive env cfg.messageDB st.messages fs).log := by
            unfold main
            rw [h0]
            simp only [hm, if_true, hdone]
            split <;> rfl
          rw [hlog]
          have i5 : SaveInv env cfg.messageDB st.messages fs
              (saveArchive env cfg.messageDB st.messages fs) := inv
          generalize saveArchive env cfg.messageDB st.messages fs = s at hdone i5
          obtain ⟨pc, sfs, slog⟩ := s
          simp only at hdone
          subst hdone
          simp only [SaveInv] at i5
          obtain ⟨j, -, -, -, -, -, -, hl2⟩ := i5
          simp [Rewritten, hl2]
        · have hm2 : st.modified = false := by simpa using hm
          simp [hm2, hnolog hm2, Rewritten]
      refine ⟨loaded, legacy, b1 ++ b2, rfl, by simp [mergedBatches, hb1, hb2], ?_, hflag2,
        hentered, hrew, ?_⟩
      · rw [← h, hmsg]
      · rintro ⟨hleg, hno⟩
        have hm2 : st.modified = false := by
          cases hmv : st.modified with
          | false => rfl
          | true => exact absurd (hflag2.mp hmv) (by simp [hleg, hno])
        refine ⟨?_, hnolog hm2, by simp [hnolog hm2, Rewritten]⟩
        cases hse : (main env cfg fs).saveEntered with
        | false => rfl
        | true => rw [hentered.mp hse] at hm2; cases hm2

/-- Witness for C1: the spec's example scenario on the demo world reaches the save
decision with the two records in time order and the flag set. -/
theorem modified_iff_legacy_or_added_witness :
    ∃ loaded legacy batches,
      loadArchive demoEnv demoFS exampleCfg.messageDB = .ok (loaded, legacy) ∧
      mergedBatches demoEnv exampleCfg demoFS = some batches ∧
      (⟨[recB2, recA1], true⟩ : State).messages
        = sortSort (batches.foldl demoEnv.mergeMessages loaded) ∧
      ((⟨[recB2, recA1], true⟩ : State).modified = true ↔
        legacy = true ∨ SomeMergeAdded demoEnv.mergeMessages loaded batches) ∧
      ((main demoEnv exampleCfg demoFS).saveEntered = true
        ↔ (⟨[recB2, recA1], true⟩ : State).modified = true) ∧
      ((main demoEnv exampleCfg demoFS).status = 0 →
        (Rewritten exampleCfg (main demoEnv exampleCfg demoFS).saveLog
          ↔ (⟨[recB2, recA1], true⟩ : State).modified = true)) ∧
      (legacy = false ∧ ¬ SomeMergeAdded demoEnv.mergeMessages loaded batches →
        (main demoEnv exampleCfg demoFS).saveEntered = false ∧
        (main demoEnv exampleCfg demoFS).saveLog = [] ∧
        ¬ Rewritten exampleCfg (main demoEnv exampleCfg demoFS).saveLog) :=
  modified_iff_legacy_or_added demoEnv exampleCfg demoFS ⟨[recB2, recA1], true⟩ (by rfl)

/-! ### The batch of an absorbed feed error (C9) -/

theorem MergeMessages_of_known (a b : List Message)
    (h : ∀ m ∈ b, m.Id ∈ a.map (fun m => m.Id)) : MergeMessages a b = a := by
  unfold MergeMessages
  have : b.filter (fun m => !(a.map (fun m => m.Id)).contains m.Id) = [] := by
    rw [List.filter_eq_nil_iff]
    intro m hm
    have key := h m hm
    simp only [List.elem_eq_mem, key, decide_True, Bool.not_true, Bool.false_eq_true,
      not_false_eq_true]
  simp only [this, List.append_nil]

theorem mergeStep_of_same (merge : List Message → List Message → List Message)
    (st : State) (batch : List Message) (h : merge st.messages batch = st.messages) :
    mergeStep merge st batch = st := by
  simp [mergeStep, h]

/-- Counterexample to C9 as stated: on the demo world the quiet run against the feed
that times out absorbs the error, and the batch returned with the error is merged all
the same: the collection grows from `[A1]` to `[A1, C3]` and the flag is set. -/
theorem feed_batch_merged_despite_error :
    demoEnv.retrieveMessages slowCfg.feedID = ([recC3], some timeoutError) ∧
    filterFeedError slowCfg.quiet timeoutError = none ∧
    feedStep demoEnv slowCfg ⟨[recA1], false⟩ = .ok ⟨[recA1, recC3], true⟩ ∧
    (⟨[recA1, recC3], true⟩ : State) ≠ ⟨[recA1], false⟩ :=
  ⟨rfl, rfl, rfl, by decide⟩

/-- C9, amended: when a retrieval error is absorbed, the feed step merges the batch
exactly as the retrieval collaborator returned it, like a batch returned without an
error. The collection and the modified flag are left as they were when the merge of
that batch returns the collection unchanged; under the merge engine of the spec that
is the case when every record of the batch has an `Id` already present, in particular
when the batch is empty. -/
theorem feed_absorbed_merges_returned_batch (env : Env) (cfg : Config) (st : State)
    (n : List Message) (err : GoError)
    (hfeed : cfg.feedID.length > 0)
    (hret : env.retrieveMessages cfg.feedID = (n, some err))
    (habs : filterFeedError cfg.quiet err = none) :
    feedStep env cfg st = .ok (mergeStep env.mergeMessages st n) ∧
    (env.mergeMessages st.messages n = st.messages → feedStep env cfg st = .ok st) ∧
    (env.mergeMessages = MergeMessages →
      (∀ m ∈ n, m.Id ∈ st.messages.map (fun m => m.Id)) → feedStep env cfg st = .ok st) ∧
    (env.mergeMessages = MergeMessages → n = [] → feedStep env cfg st = .ok st) := by
  have h1 : feedStep env cfg st = .ok (mergeStep env.mergeMessages st n) := by
    simp only [feedStep, hfeed, if_true, hret, habs]
  have h2 : env.mergeMessages st.messages n = st.messages → feedStep env cfg st = .ok st := by
    intro h
    rw [h1, mergeStep_of_same _ _ _ h]
  refine ⟨h1, h2, ?_, ?_⟩
  · intro hm hk
    apply h2
    rw [hm]
    exact MergeMessages_of_known _ _ hk
  · intro hm hn
    apply h2
    rw [hm, hn]
    exact MergeMessages_of_known _ _ (by simp)

/-- Witness for C9 amended: the quiet run against the feed that times out, started on
a collection that already holds the record the feed returns. -/
theorem feed_absorbed_merges_returned_batch_witness :
    feedStep demoEnv slowCfg ⟨[recA1, recC3], false⟩
      = .ok (mergeStep demoEnv.mergeMessages ⟨[recA1, recC3], false⟩ [recC3]) ∧
    feedStep demoEnv slowCfg ⟨[recA1, recC3], false⟩ = .ok ⟨[recA1, recC3], false⟩ :=
  ⟨(feed_absorbed_merges_returned_batch demoEnv slowCfg ⟨[recA1, recC3], false⟩ [recC3]
      timeoutError (by decide) rfl rfl).1,
   (feed_absorbed_merges_returned_batch demoEnv slowCfg ⟨[recA1, recC3], false⟩ [recC3]
      timeoutError (by decide) rfl rfl).2.1 rfl⟩

/-! ### The exporter (C7, C6) -/

theorem escaped_escapeChar_append (c : Char) (tail : List Char) (h : escaped tail = true) :
    escaped (escapeChar c ++ tail) = true := by
  unfold escapeChar
  split_ifs with h1 h2 h3 h4 h5
  · simp [escaped, entityBodies, h]
  · simp [escaped, entityBodies, h]
  · simp [escaped, entityBodies, h]
  · simp [escaped, entityBodies, h]
  · simp [escaped, entityBodies, h]
  · simp [escaped, h, h1, h2, h3, h4, h5]

theorem escaped_flatMap (l : List Char) : escaped (l.flatMap escapeChar) = true := by
  induction l with
  | nil => rfl
  | cons c rest ih =>
    rw [List.flatMap_cons]
    exact escaped_escapeChar_append c _ ih

theorem escaped_no_raw (l : List Char) (h : escaped l = true) :
    ∀ c ∈ l, c ≠ '<' ∧ c ≠ '>' ∧ c ≠ '"' ∧ c ≠ '\'' := by
  induction l with
  | nil => simp
  | cons d rest ih =>
    intro c hc
    rw [escaped] at h
    by_cases hd : d = '&'
    · simp only [hd, if_true, Bool.and_eq_true] at h
      rcases List.mem_cons.mp hc with rfl | hc
      · subst hd; decide
      · exact ih h.2 c hc
    · simp only [hd, if_false, Bool.and_eq_true, bne_iff_ne, ne_eq] at h
      rcases List.mem_cons.mp hc with rfl | hc
      · exact ⟨h.1.1.1.1, h.1.1.1.2, h.1.1.2, h.1.2⟩
      · exact ih h.2 c hc
theorem foldl_append_waypoint (env : Env) (messages : List Message) (bf : String) :
    messages.foldl (fun bf e => bf ++ waypoint env e) bf
      = bf ++ concatAll (messages.map (waypoint env)) := by
  induction messages generalizing bf with
  | nil => simp [concatAll]
  | cons e rest ih =>
    simp only [List.foldl_cons, List.map_cons, concatAll]
    rw [ih, String.append_assoc]

theorem renderGpx_eq (env : Env) (messages : List Message) :
    renderGpx env messages
      = gpxHeader ++ concatAll (messages.map (waypoint env)) ++ gpxFooter := by
  unfold renderGpx
  rw [foldl_append_waypoint]

/-- C7: the exported document is the fixed header, followed by exactly one waypoint
per record in the order of the given collection (the i-th waypoint is the one built
from the i-th record; nothing is sorted, dropped or duplicated), followed by the fixed
footer; for the empty collection it is the header immediately followed by the footer.
When the export is requested and its file operations succeed, this document is what
the export file holds. -/
theorem renderGpx_one_waypoint_per_record (env : Env) (messages : List Message) :
    renderGpx env messages
      = gpxHeader ++ concatAll (messages.map (waypoint env)) ++ gpxFooter ∧
    renderGpx env [] = gpxHeader ++ gpxFooter ∧
    (messages.map (waypoint env)).length = messages.length ∧
    (∀ i : Nat, (messages.map (waypoint env))[i]? = (messages[i]?).map (waypoint env)) ∧
    (∀ (cfg : Config) (fs : FS), cfg.printgpx.length > 0 →
      env.createFails cfg.printgpx = false → env.writeFails cfg.printgpx = none →
      exportGpx env cfg messages fs
        = (fs.store cfg.printgpx
            (gpxHeader ++ concatAll (messages.map (waypoint env)) ++ gpxFooter), none)) := by
  have h1 := renderGpx_eq env messages
  refine ⟨h1, ?_, by simp, ?_, ?_⟩
  · simp [renderGpx]
  · intro i
    simp
  · intro cfg fs hp hc hw
    simp only [exportGpx, hp, if_true, hc, hw, h1]
    simp

/-- Witness for C7: the export of the spec's example scenario, on the demo world. -/
theorem renderGpx_one_waypoint_per_record_witness :
    exportGpx demoEnv exampleCfg [recB2, recA1] demoFS
      = (demoFS.store "out.gpx"
          (gpxHeader ++ concatAll [waypoint demoEnv recB2, waypoint demoEnv recA1]
            ++ gpxFooter), none) :=
  (renderGpx_one_waypoint_per_record demoEnv [recB2, recA1]).2.2.2.2 exampleCfg demoFS
    (by decide) rfl rfl

theorem length_pos_iff_ne_empty (s : String) : s.length > 0 ↔ s ≠ "" := by
  obtain ⟨data⟩ := s
  cases data with
  | nil => simp
  | cons c rest =>
    simp only [String.length, List.length_cons, gt_iff_lt, Nat.zero_lt_succ, ne_eq, true_iff]
    intro h
    have := congrArg String.data h
    simp at this

theorem waypoint_eq_renderWpt (env : Env) (e : Message) : waypoint env e = renderWpt env e := by
  unfold waypoint renderWpt wptChildren wptOpen
  by_cases h : e.MessageContent = ""
  · have h2 : ¬ e.MessageContent.length > 0 := by
      rw [length_pos_iff_ne_empty]; simpa using h
    rw [if_neg h2, if_pos h]
    apply String.ext
    simp [String.data_append, concatAll, renderChild]
  · have h2 : e.MessageContent.length > 0 := (length_pos_iff_ne_empty _).mpr h
    rw [if_pos h2, if_neg h]
    apply String.ext
    simp [String.data_append, concatAll, renderChild]
theorem escapeChar_eq_entityOf (c : Char) : escapeChar c = entityOf c := by
  unfold escapeChar entityOf
  by_cases h1 : c = '&'
  · subst h1; decide
  · by_cases h2 : c = '\''
    · subst h2; decide
    · by_cases h3 : c = '<'
      · subst h3; decide
      · by_cases h4 : c = '>'
        · subst h4; decide
        · simp [h1, h2, h3, h4]

/-- C6: the waypoint of a record is the `wpt` element with the children `name` and
`time`, and it has a `cmt` child if and only if `MessageContent` is non-empty; with an
empty `MessageContent` no `cmt` element is written at all. The text of the `cmt`
child is `MessageContent` with every angle bracket, ampersand and quote character
replaced by its entity, so it holds no raw `<`, `>`, `"` or `'`, and every `&` in it
starts an entity. -/
theorem waypoint_cmt_iff_content (env : Env) (e : Message) :
    waypoint env e = renderWpt env e ∧
    ((∃ text, ("cmt", text) ∈ wptChildren env e) ↔ e.MessageContent ≠ "") ∧
    (e.MessageContent = "" →
      wptChildren env e = [("name", e.Id), ("time", env.rfc3339 e.UnixTime)]) ∧
    (e.MessageContent ≠ "" →
      wptChildren env e = [("name", e.Id), ("time", env.rfc3339 e.UnixTime),
        ("cmt", htmlEscapeString e.MessageContent)]) ∧
    (htmlEscapeString e.MessageContent).data = e.MessageContent.data.flatMap entityOf ∧
    (∀ c ∈ (htmlEscapeString e.MessageContent).data,
      c ≠ '<' ∧ c ≠ '>' ∧ c ≠ '"' ∧ c ≠ '\'') ∧
    escaped (htmlEscapeString e.MessageContent).data = true := by
  have hesc : escaped (htmlEscapeString e.MessageContent).data = true :=
    escaped_flatMap e.MessageContent.data
  refine ⟨waypoint_eq_renderWpt env e, ?_, ?_, ?_, ?_, escaped_no_raw _ hesc, hesc⟩
  · unfold wptChildren
    by_cases h : e.MessageContent = ""
    · simp [h]
    · simp only [h, if_false, ne_eq, not_false_eq_true, iff_true]
      exact ⟨htmlEscapeString e.MessageContent, by simp⟩
  · intro h
    simp [wptChildren, h]
  · intro h
    simp [wptChildren, h]
  · show e.MessageContent.data.flatMap escapeChar = _
    congr 1
    funext c
    exact escapeChar_eq_entityOf c

/-- Witness for C6: the two records of the spec's example scenario, on the demo
world. `B2` carries the comment `hi`, `A1` carries none. -/
theorem waypoint_cmt_iff_content_witness :
    wptChildren demoEnv recA1 = [("name", "A1"), ("time", "1970-01-01T00:00:00Z")] ∧
    wptChildren demoEnv recB2
      = [("name", "B2"), ("time", "1970-01-01T00:00:00Z"), ("cmt", htmlEscapeString "hi")] ∧
    htmlEscapeString "hi" = "hi" ∧
    htmlEscapeString recC3.MessageContent = "a&lt;b &amp; &#34;c&#34;" :=
  ⟨(waypoint_cmt_iff_content demoEnv recA1).2.2.1 rfl,
   (waypoint_cmt_iff_content demoEnv recB2).2.2.2.1 (by decide), by decide, by decide⟩

/-! ### The exported document read as XML (C10) -/

theorem wellFormed_samples :
    wellFormed "<a b=\"1\"><c/>x &amp; y &#60; ]]&gt;</a>\n" = true ∧
    wellFormed "<?xml version=\"1.0\"?>\n<a b=\"x>y\" ></a >" = true ∧
    wellFormed "" = false ∧
    wellFormed "<a>" = false ∧
    wellFormed "<a><b></a></b>" = false ∧
    wellFormed "<a></a><b></b>" = false ∧
    wellFormed "<a></a>x" = false ∧
    wellFormed "<a>&nbsp;</a>" = false ∧
    wellFormed "<a>&#1;</a>" = false ∧
    wellFormed "<a>&amp</a>" = false ∧
    wellFormed "<a>]]></a>" = false ∧
    wellFormed "<a>\x01</a>" = false ∧
    wellFormed "<a b=\"1\" b=\"2\"></a>" = false ∧
    wellFormed "<a b=\"1\"c=\"2\"></a>" = false ∧
    wellFormed "<a b=\"<\"></a>" = false ∧
    wellFormed "<a b=1></a>" = false ∧
    wellFormed "<1a></1a>" = false ∧
    wellFormed " <?xml version=\"1.0\"?><a></a>" = false ∧
    wellFormed "<?xml encoding=\"UTF-8\"?><a></a>" = false ∧
    wellFormed "<a><!-- c --></a>" = false := by
  decide

theorem xmlRun_append (s : XmlState) (a b : List Char) :
    xmlRun s (a ++ b) = (xmlRun s a).bind (fun next => xmlRun next b) := by
  induction a generalizing s with
  | nil => rfl
  | cons c rest ih =>
    simp only [List.cons_append, xmlRun]
    cases xmlStep s c with
    | none => rfl
    | some next => exact ih next

theorem xmlRun_text (t : List Char)
    (h : ∀ c ∈ t, xmlChar c = true ∧ c ≠ '<' ∧ c ≠ '&') :
    ∀ (buf : List Char) (evs : List XmlEvent) (rest : List Char),
      xmlRun ⟨.text buf, evs⟩ (t ++ rest) = xmlRun ⟨.text (buf ++ t), evs⟩ rest := by
  induction t with
  | nil => intro buf evs rest; simp
  | cons c t ih =>
    intro buf evs rest
    obtain ⟨h1, h2, h3⟩ := h c (by simp)
    have step : xmlStep ⟨.text buf, evs⟩ c = some ⟨.text (buf ++ [c]), evs⟩ := by
      simp [xmlStep, h1, h2, h3]
    rw [List.cons_append, xmlRun, step]
    dsimp only
    rw [ih (fun d hd => h d (by simp [hd])), List.append_assoc]
    rfl

theorem xmlRun_attrValue (t : List Char)
    (h : ∀ c ∈ t, xmlChar c = true ∧ c ≠ '<' ∧ c ≠ '&' ∧ c ≠ '"') :
    ∀ (head : TagHead) (aname value : List Char) (evs : List XmlEvent) (rest : List Char),
      xmlRun ⟨.attrValue head aname value, evs⟩ (t ++ rest)
        = xmlRun ⟨.attrValue head aname (value ++ t), evs⟩ rest := by
  induction t with
  | nil => intro head aname value evs rest; simp
  | cons c t ih =>
    intro head aname value evs rest
    obtain ⟨h1, h2, h3, h4⟩ := h c (by simp)
    have step : xmlStep ⟨.attrValue head aname value, evs⟩ c
        = some ⟨.attrValue head aname (value ++ [c]), evs⟩ := by
      simp [xmlStep, h1, h2, h3, h4]
    rw [List.cons_append, xmlRun, step]
    dsimp only
    rw [ih (fun d hd => h d (by simp [hd])), List.append_assoc]
    rfl

theorem xmlRun_escapeChar (c : Char) (hc : xmlChar c = true) (buf : List Char)
    (evs : List XmlEvent) (rest : List Char) :
    xmlRun ⟨.text buf, evs⟩ (escapeChar c ++ rest)
      = xmlRun ⟨.text (buf ++ escapeChar c), evs⟩ rest := by
  unfold escapeChar
  split_ifs with h1 h2 h3 h4 h5
  · rfl
  · rfl
  · rfl
  · rfl
  · rfl
  · have step : xmlStep ⟨.text buf, evs⟩ c = some ⟨.text (buf ++ [c]), evs⟩ := by
      simp [xmlStep, h1, h3, hc]
    rw [List.cons_append, xmlRun, step]
    rfl

theorem xmlRun_escaped (t : List Char) (h : ∀ c ∈ t, xmlChar c = true) :
    ∀ (buf : List Char) (evs : List XmlEvent) (rest : List Char),
      xmlRun ⟨.text buf, evs⟩ (t.flatMap escapeChar ++ rest)
        = xmlRun ⟨.text (buf ++ t.flatMap escapeChar), evs⟩ rest := by
  induction t with
  | nil => intro buf evs rest; simp
  | cons c t ih =>
    intro buf evs rest
    rw [List.flatMap_cons, List.append_assoc, xmlRun_escapeChar c (h c (by simp)),
      ih (fun d hd => h d (by simp [hd])), List.append_assoc]

theorem hasCDataEnd_of_no_gt (l : List Char) (h : '>' ∉ l) : hasCDataEnd l = false := by
  induction l with
  | nil => rfl
  | cons c rest ih =>
    have hrest : '>' ∉ rest := fun hm => h (List.mem_cons_of_mem _ hm)
    rw [hasCDataEnd, ih hrest, Bool.or_false]
    cases rest with
    | nil => simp [List.isPrefixOf]
    | cons d rest2 =>
      cases rest2 with
      | nil => simp [List.isPrefixOf]
      | cons f rest3 =>
        have hf : f ≠ '>' := fun hf => h (by simp [hf])
        have hf2 : ('>' == f) = false := by
          simpa using fun hx : '>' = f => hf hx.symm
        simp [List.isPrefixOf, hf2]

theorem hasCDataEnd_htmlEscapeString (s : String) :
    hasCDataEnd (s.data.flatMap escapeChar) = false :=
  hasCDataEnd_of_no_gt _ (fun h => (escaped_no_raw _ (escaped_flatMap s.data) '>' h).2.1 rfl)

theorem addText_eq (evs : List XmlEvent) (buf : List Char) (h : hasCDataEnd buf = false) :
    addText evs buf = some (evs ++ textEvents ⟨buf⟩) := by
  unfold addText textEvents
  by_cases hb : buf = []
  · subst hb
    simp
  · have hs : (⟨buf⟩ : String) ≠ "" := fun hx => hb (congrArg String.data hx)
    simp [hb, h, hs]

theorem xmlRun_lt (buf : List Char) (evs : List XmlEvent) (rest : List Char)
    (h : hasCDataEnd buf = false) :
    xmlRun ⟨.text buf, evs⟩ ('<' :: rest)
      = xmlRun ⟨.lt (evs.isEmpty && buf.isEmpty), evs ++ textEvents ⟨buf⟩⟩ rest := by
  rw [xmlRun]
  simp only [xmlStep, if_true, addText_eq evs buf h, Option.map_some']

theorem xmlRun_wptOpen (fresh : Bool) (evs : List XmlEvent) (rest : List Char) :
    xmlRun ⟨.lt fresh, evs⟩ ("wpt lat=\"".data ++ rest)
      = xmlRun ⟨.attrValue ⟨"wpt".data, [], false⟩ "lat".data [], evs⟩ rest := by
  rfl

theorem xmlRun_lon (value : List Char) (evs : List XmlEvent) (rest : List Char) :
    xmlRun ⟨.attrValue ⟨"wpt".data, [], false⟩ "lat".data value, evs⟩
        ("\" lon=\"".data ++ rest)
      = xmlRun ⟨.attrValue ⟨"wpt".data, [("lat", ⟨value⟩)], false⟩ "lon".data [], evs⟩ rest := by
  rfl

theorem xmlRun_name (lat : String) (value : List Char) (evs : List XmlEvent)
    (rest : List Char) :
    xmlRun ⟨.attrValue ⟨"wpt".data, [("lat", lat)], false⟩ "lon".data value, evs⟩
        ("\"><name>".data ++ rest)
      = xmlRun ⟨.text [], evs ++ [.start "wpt" [("lat", lat), ("lon", ⟨value⟩)]]
          ++ [.start "name" []]⟩ rest := by
  rfl

theorem xmlRun_time (fresh : Bool) (evs : List XmlEvent) (rest : List Char) :
    xmlRun ⟨.lt fresh, evs⟩ ("/name><time>".data ++ rest)
      = xmlRun ⟨.text [], evs ++ [.stop "name"] ++ [.start "time" []]⟩ rest := by
  rfl

theorem xmlRun_cmt (fresh : Bool) (evs : List XmlEvent) (rest : List Char) :
    xmlRun ⟨.lt fresh, evs⟩ ("/time><cmt>".data ++ rest)
      = xmlRun ⟨.text [], evs ++ [.stop "time"] ++ [.start "cmt" []]⟩ rest := by
  rfl

theorem xmlRun_end_cmt (fresh : Bool) (evs : List XmlEvent) (rest : List Char) :
    xmlRun ⟨.lt fresh, evs⟩ ("/cmt></wpt>\n".data ++ rest)
      = xmlRun ⟨.text ['\n'], evs ++ [.stop "cmt"] ++ [.stop "wpt"]⟩ rest := by
  rfl

theorem xmlRun_end_time (fresh : Bool) (evs : List XmlEvent) (rest : List Char) :
    xmlRun ⟨.lt fresh, evs⟩ ("/time></wpt>\n".data ++ rest)
      = xmlRun ⟨.text ['\n'], evs ++ [.stop "time"] ++ [.stop "wpt"]⟩ rest := by
  rfl

theorem xmlRun_gpxFooter (evs : List XmlEvent) :
    xmlRun ⟨.text ['\n'], evs⟩ gpxFooter.data
      = some ⟨.text ['\n'], evs ++ [.chars "\n"] ++ [.stop "gpx"]⟩ := by
  rfl

set_option maxRecDepth 100000 in
theorem xmlRun_gpxHeader :
    xmlRun xmlInit gpxHeader.data
      = some ⟨.text ['\n'], [gpxOpenEvents[0], gpxOpenEvents[1], gpxOpenEvents[2]]⟩ := by
  decide

theorem plainText_spec (s : String) (h : plainText s = true) :
    (∀ c ∈ s.data, xmlChar c = true ∧ c ≠ '<' ∧ c ≠ '&') ∧ hasCDataEnd s.data = false := by
  unfold plainText at h
  simp only [Bool.and_eq_true, List.all_eq_true, Bool.not_eq_true', bne_iff_ne, ne_eq] at h
  exact ⟨fun c hc => ⟨(h.1 c hc).1.1, (h.1 c hc).1.2, (h.1 c hc).2⟩, h.2⟩

theorem attrText_spec (s : String) (h : attrText s = true) :
    ∀ c ∈ s.data, xmlChar c = true ∧ c ≠ '<' ∧ c ≠ '&' ∧ c ≠ '"' := by
  unfold attrText at h
  simp only [Bool.and_eq_true, List.all_eq_true, bne_iff_ne, ne_eq] at h
  exact fun c hc => ⟨(h c hc).1.1.1, (h c hc).1.1.2, (h c hc).1.2, (h c hc).2⟩

theorem mk_data (s : String) : (⟨s.data⟩ : String) = s := rfl

theorem escapeChar_ne_nil (c : Char) : escapeChar c ≠ [] := by
  unfold escapeChar
  split_ifs <;> simp

theorem htmlEscapeString_ne_empty (s : String) (h : s ≠ "") : htmlEscapeString s ≠ "" := by
  obtain ⟨data⟩ := s
  cases data with
  | nil => exact absurd rfl h
  | cons c rest =>
    intro hx
    have hd := congrArg String.data hx
    simp only [htmlEscapeString, List.flatMap_cons] at hd
    have hnil : escapeChar c = [] := (List.append_eq_nil.mp hd).1
    exact escapeChar_ne_nil c hnil

theorem xmlRun_waypoint (env : Env) (e : Message) (evs : List XmlEvent) (rest : List Char)
    (hlat : attrText (env.float6 e.Latitude) = true)
    (hlon : attrText (env.float6 e.Longitude) = true)
    (ht : plainText (env.rfc3339 e.UnixTime) = true)
    (hid : plainText e.Id = true)
    (hmc : ∀ c ∈ e.MessageContent.data, xmlChar c = true) :
    xmlRun ⟨.text ['\n'], evs⟩ ((waypoint env e).data ++ rest)
      = xmlRun ⟨.text ['\n'], evs ++ .chars "\n" :: wptElement env e⟩ rest := by
  have hnl : hasCDataEnd ['\n'] = false := by decide
  have hnl2 : textEvents "\n" = [.chars "\n"] := by decide
  have hF := attrText_spec _ hlat
  have hG := attrText_spec _ hlon
  obtain ⟨hT, hT2⟩ := plainText_spec _ ht
  obtain ⟨hI, hI2⟩ := plainText_spec _ hid
  have hE2 := hasCDataEnd_htmlEscapeString e.MessageContent
  unfold waypoint wptOpen
  split
  · rename_i hlen
    have hne : e.MessageContent ≠ "" := (length_pos_iff_ne_empty _).mp hlen
    simp only [String.data_append, List.append_assoc, htmlEscapeString]
    show xmlRun ⟨.text ['\n'], evs⟩ ('<' :: ("wpt lat=\"".data ++ _)) = _
    rw [xmlRun_lt _ _ _ hnl, xmlRun_wptOpen, xmlRun_attrValue _ hF, xmlRun_lon,
      xmlRun_attrValue _ hG, xmlRun_name, xmlRun_text _ hI]
    simp only [List.nil_append]
    show xmlRun _ ('<' :: ("/name><time>".data ++ _)) = _
    rw [xmlRun_lt _ _ _ hI2, xmlRun_time, xmlRun_text _ hT]
    simp only [List.nil_append]
    show xmlRun _ ('<' :: ("/time><cmt>".data ++ _)) = _
    rw [xmlRun_lt _ _ _ hT2, xmlRun_cmt, xmlRun_escaped _ hmc]
    simp only [List.nil_append]
    show xmlRun _ ('<' :: ("/cmt></wpt>\n".data ++ _)) = _
    rw [xmlRun_lt _ _ _ hE2, xmlRun_end_cmt]
    congr 2
    have hne2 : (⟨e.MessageContent.data.flatMap escapeChar⟩ : String) ≠ "" :=
      htmlEscapeString_ne_empty e.MessageContent hne
    simp [wptElement, hne, hne2, mk_data, htmlEscapeString, hnl2, textEvents]
  · rename_i hlen
    have hempty : e.MessageContent = "" := by
      by_contra hne
      exact hlen ((length_pos_iff_ne_empty _).mpr hne)
    simp only [String.data_append, List.append_assoc]
    show xmlRun ⟨.text ['\n'], evs⟩ ('<' :: ("wpt lat=\"".data ++ _)) = _
    rw [xmlRun_lt _ _ _ hnl, xmlRun_wptOpen, xmlRun_attrValue _ hF, xmlRun_lon,
      xmlRun_attrValue _ hG, xmlRun_name, xmlRun_text _ hI]
    simp only [List.nil_append]
    show xmlRun _ ('<' :: ("/name><time>".data ++ _)) = _
    rw [xmlRun_lt _ _ _ hI2, xmlRun_time, xmlRun_text _ hT]
    simp only [List.nil_append]
    show xmlRun _ ('<' :: ("/time></wpt>\n".data ++ _)) = _
    rw [xmlRun_lt _ _ _ hT2, xmlRun_end_time]
    congr 2
    simp [wptElement, hempty, mk_data, hnl2]

theorem xmlRun_waypoints (env : Env) (messages : List Message)
    (hf : ∀ x, attrText (env.float6 x) = true)
    (ht : ∀ t, plainText (env.rfc3339 t) = true) :
    (∀ e ∈ messages, plainText e.Id = true) →
    (∀ e ∈ messages, ∀ c ∈ e.MessageContent.data, xmlChar c = true) →
    ∀ (evs : List XmlEvent) (rest : List Char),
      xmlRun ⟨.text ['\n'], evs⟩ ((concatAll (messages.map (waypoint env))).data ++ rest)
        = xmlRun ⟨.text ['\n'],
            evs ++ messages.flatMap (fun e => .chars "\n" :: wptElement env e)⟩ rest := by
  induction messages with
  | nil =>
    intro _ _ evs rest
    simp [concatAll]
  | cons e tail ih =>
    intro hid hmc evs rest
    simp only [List.map_cons, concatAll, String.data_append, List.append_assoc]
    rw [xmlRun_waypoint env e evs _ (hf _) (hf _) (ht _) (hid e (by simp)) (hmc e (by simp)),
      ih (fun x hx => hid x (by simp [hx])) (fun x hx => hmc x (by simp [hx]))]
    simp

theorem flatMap_shift (x : XmlEvent) (f : Message → List XmlEvent) (l : List Message) :
    l.flatMap (fun e => x :: f e) ++ [x] = x :: l.flatMap (fun e => f e ++ [x]) := by
  induction l with
  | nil => rfl
  | cons e tail ih =>
    rw [List.flatMap_cons, List.flatMap_cons, List.append_assoc, ih]
    simp

theorem nested_wptEvents (env : Env) (e : Message) (top : String) (stack : List String)
    (rootDone : Bool) (rest : List XmlEvent) :
    nested (top :: stack) rootDone (wptEvents env e ++ rest)
      = nested (top :: stack) rootDone rest := by
  unfold wptEvents wptElement textEvents
  by_cases h1 : e.Id = "" <;> by_cases h2 : env.rfc3339 e.UnixTime = "" <;>
    by_cases h3 : e.MessageContent = "" <;>
    simp [nested, h1, h2, h3]

theorem nested_waypoints (env : Env) (messages : List Message) (top : String)
    (stack : List String) (rootDone : Bool) (rest : List XmlEvent) :
    nested (top :: stack) rootDone (messages.flatMap (wptEvents env) ++ rest)
      = nested (top :: stack) rootDone rest := by
  induction messages with
  | nil => rfl
  | cons e tail ih =>
    rw [List.flatMap_cons, List.append_assoc, nested_wptEvents, ih]

theorem xmlEvents_renderGpx (env : Env) (messages : List Message)
    (hf : ∀ x, attrText (env.float6 x) = true)
    (ht : ∀ t, plainText (env.rfc3339 t) = true)
    (hid : ∀ e ∈ messages, plainText e.Id = true)
    (hmc : ∀ e ∈ messages, ∀ c ∈ e.MessageContent.data, xmlChar c = true) :
    xmlEvents (renderGpx env messages)
      = some (gpxOpenEvents ++ messages.flatMap (wptEvents env) ++ gpxCloseEvents) := by
  have hrun : xmlRun xmlInit (renderGpx env messages).data
      = some ⟨.text ['\n'], [gpxOpenEvents[0], gpxOpenEvents[1], gpxOpenEvents[2]]
          ++ messages.flatMap (fun e => .chars "\n" :: wptElement env e)
          ++ [.chars "\n"] ++ [.stop "gpx"]⟩ := by
    rw [renderGpx_eq]
    simp only [String.data_append, List.append_assoc]
    rw [xmlRun_append, xmlRun_gpxHeader]
    simp only [Option.bind]
    rw [xmlRun_waypoints env messages hf ht hid hmc, xmlRun_gpxFooter]
    simp
  unfold xmlEvents
  rw [hrun]
  simp only
  rw [addText_eq _ _ (by decide)]
  have hshift := flatMap_shift (.chars "\n") (wptElement env) messages
  have hw : (fun e => wptElement env e ++ [XmlEvent.chars "\n"]) = wptEvents env := rfl
  rw [hw] at hshift
  have hnl2 : textEvents ⟨['\n']⟩ = [.chars "\n"] := by decide
  rw [hnl2]
  simp only [gpxOpenEvents, gpxCloseEvents, List.append_assoc]
  simp only [List.getElem_cons_zero, List.getElem_cons_succ, List.cons_append, List.nil_append,
    Option.some.injEq, List.cons.injEq, true_and]
  have hsplit : ∀ (a : List XmlEvent) (x s y : XmlEvent),
      a ++ [x, s, y] = (a ++ [x]) ++ [s, y] := by
    intro a x s y
    simp
  rw [hsplit, hshift]
  rfl

theorem wellFormed_renderGpx (env : Env) (messages : List Message)
    (hf : ∀ x, attrText (env.float6 x) = true)
    (ht : ∀ t, plainText (env.rfc3339 t) = true)
    (hid : ∀ e ∈ messages, plainText e.Id = true)
    (hmc : ∀ e ∈ messages, ∀ c ∈ e.MessageContent.data, xmlChar c = true) :
    wellFormed (renderGpx env messages) = true := by
  unfold wellFormed
  rw [xmlEvents_renderGpx env messages hf ht hid hmc]
  show nested [] false
    ([gpxOpenEvents[1], gpxOpenEvents[2], gpxOpenEvents[3]]
      ++ messages.flatMap (wptEvents env) ++ gpxCloseEvents) = true
  show nested ["gpx"] false (messages.flatMap (wptEvents env) ++ gpxCloseEvents) = true
  rw [nested_waypoints]
  decide

set_option maxRecDepth 100000 in
theorem export_conditions_matter :
    plainText recCData.Id = false ∧
    wellFormed (renderGpx demoEnv [recCData]) = false ∧
    recControl.MessageContent.data.all xmlChar = false ∧
    htmlEscapeString recControl.MessageContent = recControl.MessageContent ∧
    wellFormed (renderGpx demoEnv [recControl]) = false := by
  decide

set_option maxRecDepth 100000 in
/-- Counterexample to C10 as stated: the `%v` verb writes the identifier as it is. On
the demo world the record whose `Id` is `<b>&` yields a waypoint whose `name` element
holds a raw `<` and a raw `&`: seven tags instead of the six of `wpt`, `name` and
`time`, a name text that is not escaped, and a document that is not well-formed. The
record whose `Id` is `x</name><cmt>injected</cmt><name>y` and whose `MessageContent` is
empty yields a well-formed document in which the record has two `name` children and a
`cmt` child that no field of it called for. -/
theorem name_text_is_not_escaped :
    waypoint demoEnv recMarkup
      = "<wpt lat=\"0.000000\" lon=\"0.000000\"><name><b>&</name><time>1970-01-01T00:00:00Z</time></wpt>\n" ∧
    charCount '<' (waypoint demoEnv recMarkup) = 7 ∧
    tagsOfRecord recMarkup = 6 ∧
    escaped recMarkup.Id.data = false ∧
    wellFormed (renderGpx demoEnv [recMarkup]) = false ∧
    waypoint demoEnv recInject
      = "<wpt lat=\"0.000000\" lon=\"0.000000\"><name>x</name><cmt>injected</cmt><name>y</name><time>1970-01-01T00:00:00Z</time></wpt>\n" ∧
    recInject.MessageContent = "" ∧
    wellFormed (renderGpx demoEnv [recInject]) = true ∧
    xmlEvents (renderGpx demoEnv [recInject])
      = some (gpxOpenEvents
          ++ [.start "wpt" [("lat", "0.000000"), ("lon", "0.000000")],
              .start "name" [], .chars "x", .stop "name",
              .start "cmt" [], .chars "injected", .stop "cmt",
              .start "name" [], .chars "y", .stop "name",
              .start "time" [], .chars "1970-01-01T00:00:00Z", .stop "time",
              .stop "wpt", .chars "\n"]
          ++ gpxCloseEvents) := by
  decide

/-- C10, amended: for every record, the text of the `name` element is the `Id` as it
is, written by `%v` without escaping, and the text of the `cmt` element is the escaped
`MessageContent`. For every collection of records whose `Id` holds no `<`, no `&` and
no `]]>`, and whose `Id` and `MessageContent` hold only characters that XML allows
(and with renderings of the coordinates that hold only such characters and no `<`, `&`
or `"`, and of the time that hold only such characters and no `<`, `&` or `]]>`), the
exported document is well-formed, and read as XML it is exactly: the XML declaration, the root
element `gpx`, and in it for each record, in the order of the collection, one `wpt`
element with the attributes `lat` and `lon` and the children `name` (its text the `Id`
as written), `time`, and `cmt` exactly when `MessageContent` is non-empty (its text the
escaped `MessageContent`), with a line break after each and nothing else. When the
export is requested and its file operations succeed, this is the document the export
file holds. -/
theorem export_well_formed (env : Env) (messages : List Message)
    (hf : ∀ x, attrText (env.float6 x) = true)
    (ht : ∀ t, plainText (env.rfc3339 t) = true)
    (hid : ∀ e ∈ messages, plainText e.Id = true)
    (hmc : ∀ e ∈ messages, ∀ c ∈ e.MessageContent.data, xmlChar c = true) :
    (∀ e : Message, waypoint env e = renderWpt env e ∧
      (wptChildren env e).head? = some ("name", e.Id) ∧
      (htmlEscapeString e.MessageContent).data = e.MessageContent.data.flatMap entityOf ∧
      escaped (htmlEscapeString e.MessageContent).data = true) ∧
    xmlEvents (renderGpx env messages)
      = some (gpxOpenEvents ++ messages.flatMap (wptEvents env) ++ gpxCloseEvents) ∧
    wellFormed (renderGpx env messages) = true ∧
    (∀ (cfg : Config) (fs : FS), cfg.printgpx.length > 0 →
      env.createFails cfg.printgpx = false → env.writeFails cfg.printgpx = none →
      ∃ doc, (exportGpx env cfg messages fs).1 cfg.printgpx = some doc ∧
        (exportGpx env cfg messages fs).2 = none ∧
        xmlEvents doc
          = some (gpxOpenEvents ++ messages.flatMap (wptEvents env) ++ gpxCloseEvents) ∧
        wellFormed doc = true) := by
  have hev := xmlEvents_renderGpx env messages hf ht hid hmc
  have hwf := wellFormed_renderGpx env messages hf ht hid hmc
  refine ⟨?_, hev, hwf, ?_⟩
  · intro e
    refine ⟨waypoint_eq_renderWpt env e, by simp [wptChildren], ?_, escaped_flatMap _⟩
    show e.MessageContent.data.flatMap escapeChar = _
    congr 1
    funext c
    exact escapeChar_eq_entityOf c
  · intro cfg fs hp hc hw
    refine ⟨renderGpx env messages, ?_, ?_, hev, hwf⟩
    · simp [exportGpx, hp, hc, hw, FS.store]
    · simp [exportGpx, hp, hc, hw]

set_option maxRecDepth 100000 in
/-- Witness for C10 amended: the three records of the demo world, one of them with
the annotation `a<b & "c"`, read back from the exported document. -/
theorem export_well_formed_witness :
    xmlEvents (renderGpx demoEnv [recB2, recA1, recC3])
      = some (gpxOpenEvents
          ++ [recB2, recA1, recC3].flatMap (wptEvents demoEnv) ++ gpxCloseEvents) ∧
    wellFormed (renderGpx demoEnv [recB2, recA1, recC3]) = true ∧
    wptEvents demoEnv recC3
      = [.start "wpt" [("lat", "0.000000"), ("lon", "0.000000")],
         .start "name" [], .chars "C3", .stop "name",
         .start "time" [], .chars "1970-01-01T00:00:00Z", .stop "time",
         .start "cmt" [], .chars "a&lt;b &amp; &#34;c&#34;", .stop "cmt",
         .stop "wpt", .chars "\n"] :=
  ⟨(export_well_formed demoEnv [recB2, recA1, recC3]
      (fun _ => (by decide : attrText "0.000000" = true))
      (fun _ => (by decide : plainText "1970-01-01T00:00:00Z" = true))
      (by decide) (by decide)).2.1,
   (export_well_formed demoEnv [recB2, recA1, recC3]
      (fun _ => (by decide : attrText "0.000000" = true))
      (fun _ => (by decide : plainText "1970-01-01T00:00:00Z" = true))
      (by decide) (by decide)).2.2.1,
   by decide⟩

/-! ### The ordering step (C3): slices, swaps and rearrangements -/

theorem Less_iff (data : List Message) (i j : Nat) :
    Less data i j = true ↔ keyAt data i < keyAt data j := by
  simp [Less, keyAt]

theorem Less_false_iff (data : List Message) (i j : Nat) :
    Less data i j = false ↔ keyAt data j ≤ keyAt data i := by
  simp [Less, keyAt]

theorem length_Swap (data : List Message) (i j : Nat) :
    (Swap data i j).length = data.length := by
  simp [Swap]

theorem msgAt_Swap (data : List Message) (i j k : Nat)
    (hi : i < data.length) (hj : j < data.length) :
    msgAt (Swap data i j) k = msgAt data (Equiv.swap i j k) := by
  unfold Swap msgAt
  rw [Equiv.swap_apply_def]
  simp only [List.getD_eq_getElem?_getD, List.getElem?_set, List.length_set]
  by_cases h1 : k = j
  · subst h1
    simp only [hj, if_true]
    by_cases h2 : k = i
    · subst h2; simp
    · simp [h2]
  · have h1' : ¬ j = k := fun h => h1 h.symm
    simp only [h1', if_false, h1]
    by_cases h2 : k = i
    · subst h2; simp [hi]
    · have h2' : ¬ i = k := fun h => h2 h.symm
      simp [h2, h2']

theorem PermOn.refl (a b : Nat) (d : List Message) : PermOn a b d d :=
  ⟨rfl, Equiv.refl _, fun _ _ => rfl, fun _ => rfl⟩

theorem PermOn.trans {a b : Nat} {d1 d2 d3 : List Message}
    (h12 : PermOn a b d1 d2) (h23 : PermOn a b d2 d3) : PermOn a b d1 d3 := by
  obtain ⟨l12, s12, f12, e12⟩ := h12
  obtain ⟨l23, s23, f23, e23⟩ := h23
  refine ⟨l23.trans l12, s23.trans s12, ?_, ?_⟩
  · intro k hk
    simp [Equiv.trans_apply, f23 k hk, f12 k hk]
  · intro k
    simp [Equiv.trans_apply, e23 k, e12]

theorem PermOn.mono {a b a2 b2 : Nat} {d1 d2 : List Message}
    (h : PermOn a b d1 d2) (ha : a2 ≤ a) (hb : b ≤ b2) : PermOn a2 b2 d1 d2 := by
  obtain ⟨l, s, f, e⟩ := h
  exact ⟨l, s, fun k hk => f k (fun hin => hk ⟨ha.trans hin.1, hin.2.trans_le hb⟩), e⟩

theorem PermOn.length_eq {a b : Nat} {d1 d2 : List Message} (h : PermOn a b d1 d2) :
    d2.length = d1.length := h.1

theorem PermOn.swap (a b : Nat) (d : List Message) (i j : Nat)
    (hai : a ≤ i) (hib : i < b) (haj : a ≤ j) (hjb : j < b) (hb : b ≤ d.length) :
    PermOn a b d (Swap d i j) := by
  refine ⟨length_Swap d i j, Equiv.swap i j, ?_, ?_⟩
  · intro k hk
    apply Equiv.swap_apply_of_ne_of_ne
    · rintro rfl; exact hk ⟨hai, hib⟩
    · rintro rfl; exact hk ⟨haj, hjb⟩
  · intro k
    exact msgAt_Swap d i j k (hib.trans_le hb) (hjb.trans_le hb)

theorem PermOn.outside {a b : Nat} {d1 d2 : List Message} (h : PermOn a b d1 d2)
    (k : Nat) (hk : ¬ (a ≤ k ∧ k < b)) : msgAt d2 k = msgAt d1 k := by
  obtain ⟨_, s, f, e⟩ := h
  rw [e k, f k hk]

theorem PermOn.keyAt_outside {a b : Nat} {d1 d2 : List Message} (h : PermOn a b d1 d2)
    (k : Nat) (hk : ¬ (a ≤ k ∧ k < b)) : keyAt d2 k = keyAt d1 k := by
  unfold keyAt
  rw [h.outside k hk]

theorem PermOn.inside {a b : Nat} {d1 d2 : List Message} (h : PermOn a b d1 d2)
    (k : Nat) (hak : a ≤ k) (hkb : k < b) :
    ∃ m, a ≤ m ∧ m < b ∧ msgAt d2 k = msgAt d1 m := by
  obtain ⟨_, s, f, e⟩ := h
  refine ⟨s k, ?_, ?_, e k⟩
  · by_contra hlt
    have hfix := f (s k) (fun hin => hlt hin.1)
    have : s k = k := s.injective hfix
    omega
  · by_contra hlt
    have hfix := f (s k) (fun hin => hlt hin.2)
    have : s k = k := s.injective hfix
    omega

theorem PermOn.forall_key {a b : Nat} {d1 d2 : List Message} (h : PermOn a b d1 d2)
    (P : Int → Prop) (hP : ∀ k, a ≤ k → k < b → P (keyAt d1 k)) :
    ∀ k, a ≤ k → k < b → P (keyAt d2 k) := by
  intro k hak hkb
  obtain ⟨m, ham, hmb, hm⟩ := h.inside k hak hkb
  unfold keyAt
  rw [hm]
  exact hP m ham hmb

theorem PermOn.forall_key_sub {a b a2 b2 : Nat} {d1 d2 : List Message}
    (h : PermOn a2 b2 d1 d2) (ha : a ≤ a2) (hb : b2 ≤ b)
    (P : Int → Prop) (hP : ∀ k, a ≤ k → k < b → P (keyAt d1 k)) :
    ∀ k, a ≤ k → k < b → P (keyAt d2 k) :=
  (h.mono ha hb).forall_key P hP

theorem map_range_msgAt (d : List Message) :
    (List.range d.length).map (msgAt d) = d := by
  apply List.ext_getElem
  · simp
  · intro n h1 h2
    simp [msgAt, List.getD_eq_getElem?_getD, List.getElem?_eq_getElem h2]

theorem PermOn.perm {n : Nat} {d1 d2 : List Message} (h : PermOn 0 n d1 d2)
    (hn : n = d1.length) : d2.Perm d1 := by
  obtain ⟨l, s, f, e⟩ := h
  have hmaps : ∀ k, k < n → s k < n := by
    intro k hk
    by_contra hlt
    have hfix := f (s k) (fun hin => hlt hin.2)
    have : s k = k := s.injective hfix
    omega
  have hmaps_inv : ∀ k, k < n → s.symm k < n := by
    intro k hk
    by_contra hlt
    have hfix := f (s.symm k) (fun hin => hlt hin.2)
    simp at hfix
    omega
  have hperm : ((List.range n).map s).Perm (List.range n) := by
    apply (List.perm_ext_iff_of_nodup _ (List.nodup_range n)).mpr
    · intro x
      simp only [List.mem_map, List.mem_range]
      constructor
      · rintro ⟨k, hk, rfl⟩
        exact hmaps k hk
      · intro hx
        exact ⟨s.symm x, hmaps_inv x hx, by simp⟩
    · exact (List.nodup_range n).map s.injective
  have e2 : d2 = ((List.range n).map s).map (msgAt d1) := by
    rw [List.map_map]
    have : (msgAt d1 ∘ s) = msgAt d2 := by
      funext k; simp [e k]
    rw [this]
    have hl : n = d2.length := by rw [l, hn]
    rw [hl]
    exact (map_range_msgAt d2).symm
  have e1 : d1 = (List.range n).map (msgAt d1) := by
    rw [hn]; exact (map_range_msgAt d1).symm
  rw [e2]
  conv_rhs => rw [e1]
  exact hperm.map _

theorem keyAt_Swap (data : List Message) (i j k : Nat)
    (hi : i < data.length) (hj : j < data.length) :
    keyAt (Swap data i j) k
      = if k = i then keyAt data j else if k = j then keyAt data i else keyAt data k := by
  unfold keyAt
  rw [msgAt_Swap data i j k hi hj, Equiv.swap_apply_def]
  split_ifs <;> rfl

theorem SortedOn.narrow {data : List Message} {a b a2 b2 : Nat} (h : SortedOn data a b)
    (ha : a ≤ a2) (hb : b2 ≤ b) : SortedOn data a2 b2 :=
  fun i j hi hij hj => h i j (ha.trans hi) hij (hj.trans_le hb)

theorem SortedOn.of_empty (data : List Message) (a b : Nat) (h : b ≤ a + 1) :
    SortedOn data a b := by
  intro i j hi hij hj
  have : i = j := by omega
  subst this
  exact le_rfl

theorem SortedOn.of_perm_outside {a b lo hi : Nat} {d1 d2 : List Message}
    (h : PermOn a b d1 d2) (hs : SortedOn d1 lo hi) (hdisj : hi ≤ a ∨ b ≤ lo) :
    SortedOn d2 lo hi := by
  intro i j hi1 hij hj
  rw [h.keyAt_outside i (by omega), h.keyAt_outside j (by omega)]
  exact hs i j hi1 hij hj

theorem insertionInner_spec (a e : Nat) : ∀ (j : Nat) (data : List Message),
    a ≤ j → j < e → e ≤ data.length → SortedOn data a j → SortedOn data j e →
    (∀ x y, a ≤ x → x < j → j < y → y < e → keyAt data x ≤ keyAt data y) →
    PermOn a e data (insertionInner a j data) ∧ SortedOn (insertionInner a j data) a e := by
  intro j
  induction j with
  | zero =>
    intro data ha _ _ _ hs2 _
    have : a = 0 := by omega
    subst this
    exact ⟨PermOn.refl _ _ _, hs2⟩
  | succ j ih =>
    intro data ha he hlen hs1 hs2 hcross
    unfold insertionInner
    by_cases hcond : (decide (j + 1 > a) && Less data (j + 1) j) = true
    · rw [if_pos hcond]
      simp only [Bool.and_eq_true, decide_eq_true_eq] at hcond
      obtain ⟨haj, hless⟩ := hcond
      rw [Less_iff] at hless
      have hj1 : j + 1 < data.length := by omega
      have hj0 : j < data.length := by omega
      have hk := fun k => keyAt_Swap data (j + 1) j k hj1 hj0
      have hp : PermOn a e data (Swap data (j + 1) j) :=
        PermOn.swap a e data (j + 1) j (by omega) he (by omega) (by omega) hlen
      have hlen2 : e ≤ (Swap data (j + 1) j).length := by rw [length_Swap]; exact hlen
      obtain ⟨hp2, hsorted⟩ := ih (Swap data (j + 1) j) (by omega) (by omega) hlen2
        (by
          intro x y hx hxy hy
          rw [hk x, hk y, if_neg (by omega), if_neg (by omega), if_neg (by omega),
            if_neg (by omega)]
          exact hs1 x y hx hxy (by omega))
        (by
          intro x y hx hxy hy
          rw [hk x, hk y]
          by_cases hx1 : x = j
          · subst hx1
            rw [if_neg (by omega), if_pos rfl]
            by_cases hy1 : y = x
            · subst hy1
              rw [if_neg (by omega), if_pos rfl]
            · by_cases hy2 : y = x + 1
              · subst hy2
                rw [if_pos rfl]
                exact le_of_lt hless
              · rw [if_neg hy2, if_neg hy1]
                exact hs2 (x + 1) y le_rfl (by omega) hy
          · by_cases hx2 : x = j + 1
            · subst hx2
              rw [if_pos rfl]
              by_cases hy2 : y = j + 1
              · subst hy2
                rw [if_pos rfl]
              · rw [if_neg hy2, if_neg (by omega)]
                exact hcross j y (by omega) (by omega) (by omega) hy
            · rw [if_neg hx2, if_neg hx1, if_neg (by omega), if_neg (by omega)]
              exact hs2 x y (by omega) hxy hy)
        (by
          intro x y hx hxj hjy hy
          rw [hk x, hk y, if_neg (by omega), if_neg (by omega)]
          by_cases hy2 : y = j + 1
          · subst hy2
            rw [if_pos rfl]
            exact hs1 x j hx (by omega) (by omega)
          · rw [if_neg hy2, if_neg (by omega)]
            exact hcross x y hx (by omega) (by omega) hy)
      exact ⟨hp.trans hp2, hsorted⟩
    · rw [if_neg hcond]
      refine ⟨PermOn.refl _ _ _, ?_⟩
      simp only [Bool.and_eq_true, decide_eq_true_eq, not_and, Bool.not_eq_true] at hcond
      by_cases haj : j + 1 > a
      · have hle := (Less_false_iff _ _ _).mp (hcond haj)
        intro x y hx hxy hy
        by_cases hy1 : y < j + 1
        · exact hs1 x y hx hxy hy1
        · by_cases hx1 : j + 1 ≤ x
          · exact hs2 x y hx1 hxy hy
          · by_cases hy2 : y = j + 1
            · subst hy2
              exact le_trans (hs1 x j hx (by omega) (by omega)) hle
            · exact hcross x y hx (by omega) (by omega) hy
      · have : a = j + 1 := by omega
        subst this
        exact hs2

theorem insertionOuter_spec (a b : Nat) : ∀ (fuel i : Nat) (data : List Message),
    a < i → b ≤ data.length → b - i ≤ fuel → SortedOn data a i →
    PermOn a b data (insertionOuter a b fuel i data) ∧
      SortedOn (insertionOuter a b fuel i data) a b := by
  intro fuel
  induction fuel with
  | zero =>
    intro i data _ _ hf hs
    exact ⟨PermOn.refl _ _ _, hs.narrow le_rfl (by omega)⟩
  | succ fuel ih =>
    intro i data hai hlen hf hs
    unfold insertionOuter
    by_cases hib : i < b
    · rw [if_pos hib]
      obtain ⟨hp, hsorted⟩ := insertionInner_spec a (i + 1) i data (by omega) (by omega)
        (by omega) hs (SortedOn.of_empty _ _ _ (by omega)) (by intro x y _ _ h1 h2; omega)
      have hp1 : PermOn a b data (insertionInner a i data) := hp.mono le_rfl (by omega)
      obtain ⟨hp2, hs2⟩ := ih (i + 1) (insertionInner a i data) (by omega)
        (by rw [hp.length_eq]; exact hlen) (by omega) hsorted
      exact ⟨hp1.trans hp2, hs2⟩
    · rw [if_neg hib]
      exact ⟨PermOn.refl _ _ _, hs.narrow le_rfl (by omega)⟩

theorem insertionSort_spec (data : List Message) (a b : Nat) (hlen : b ≤ data.length) :
    PermOn a b data (insertionSort data a b) ∧ SortedOn (insertionSort data a b) a b :=
  insertionOuter_spec a b (b - a) (a + 1) data (by omega) hlen (by omega)
    (SortedOn.of_empty _ _ _ le_rfl)

theorem scanLess_spec (data : List Message) (a j : Nat) : ∀ (fuel i : Nat),
    j + 1 - i ≤ fuel →
    i ≤ scanLess data a j fuel i ∧
    (i ≤ j + 1 → scanLess data a j fuel i ≤ j + 1) ∧
    (∀ k, i ≤ k → k < scanLess data a j fuel i → keyAt data k < keyAt data a) ∧
    (scanLess data a j fuel i ≤ j → keyAt data a ≤ keyAt data (scanLess data a j fuel i)) := by
  intro fuel
  induction fuel with
  | zero =>
    intro i hf
    simp only [scanLess]
    exact ⟨le_rfl, fun h => h, fun k h1 h2 => by omega, fun h => by omega⟩
  | succ fuel ih =>
    intro i hf
    unfold scanLess
    by_cases hcond : (decide (i ≤ j) && Less data i a) = true
    · rw [if_pos hcond]
      simp only [Bool.and_eq_true, decide_eq_true_eq] at hcond
      obtain ⟨hij, hless⟩ := hcond
      rw [Less_iff] at hless
      obtain ⟨h1, h2, h3, h4⟩ := ih (i + 1) (by omega)
      refine ⟨by omega, fun _ => h2 (by omega), ?_, h4⟩
      intro k hk1 hk2
      by_cases hki : k = i
      · subst hki; exact hless
      · exact h3 k (by omega) hk2
    · rw [if_neg hcond]
      simp only [Bool.and_eq_true, decide_eq_true_eq, not_and, Bool.not_eq_true] at hcond
      exact ⟨le_rfl, fun h => h, fun k h1 h2 => by omega,
        fun h => (Less_false_iff _ _ _).mp (hcond h)⟩

theorem scanNotLess_spec (data : List Message) (a i : Nat) (hi : 0 < i) : ∀ (j : Nat),
    scanNotLess data a i j ≤ j ∧
    (i ≤ j + 1 → i ≤ scanNotLess data a i j + 1) ∧
    (∀ k, scanNotLess data a i j < k → k ≤ j → keyAt data a ≤ keyAt data k) ∧
    (i ≤ scanNotLess data a i j →
      keyAt data (scanNotLess data a i j) < keyAt data a) := by
  intro j
  induction j with
  | zero =>
    simp only [scanNotLess]
    exact ⟨le_rfl, fun h => h, fun k h1 h2 => by omega, fun h => by omega⟩
  | succ j ih =>
    unfold scanNotLess
    by_cases hcond : (decide (i ≤ j + 1) && !Less data (j + 1) a) = true
    · rw [if_pos hcond]
      simp only [Bool.and_eq_true, decide_eq_true_eq, Bool.not_eq_true'] at hcond
      obtain ⟨hij, hless⟩ := hcond
      rw [Less_false_iff] at hless
      obtain ⟨h1, h2, h3, h4⟩ := ih
      refine ⟨by omega, fun _ => h2 (by omega), ?_, h4⟩
      intro k hk1 hk2
      by_cases hkj : k = j + 1
      · subst hkj; exact hless
      · exact h3 k hk1 (by omega)
    · rw [if_neg hcond]
      simp only [Bool.and_eq_true, decide_eq_true_eq, not_and, Bool.not_eq_true,
        Bool.not_eq_false', Bool.not_eq_true'] at hcond
      refine ⟨le_rfl, fun h => by omega, fun k h1 h2 => by omega, fun h => ?_⟩
      have := hcond h
      simp only [Bool.not_eq_false] at this
      exact (Less_iff _ _ _).mp this

theorem partitionLoop_spec (a b : Nat) (p : Int) : ∀ (fuel i j : Nat) (d : List Message),
    b ≤ d.length → a + 1 ≤ i → i ≤ j + 1 → j < b → keyAt d a = p →
    (∀ k, a + 1 ≤ k → k < i → keyAt d k < p) →
    (∀ k, j < k → k < b → p ≤ keyAt d k) →
    j + 1 - i ≤ fuel →
    PermOn (a + 1) b d (partitionLoop a fuel i j d).1 ∧
    a ≤ (partitionLoop a fuel i j d).2 ∧ (partitionLoop a fuel i j d).2 < b ∧
    (∀ k, a + 1 ≤ k → k ≤ (partitionLoop a fuel i j d).2 →
      keyAt (partitionLoop a fuel i j d).1 k < p) ∧
    (∀ k, (partitionLoop a fuel i j d).2 < k → k < b →
      p ≤ keyAt (partitionLoop a fuel i j d).1 k) := by
  intro fuel
  induction fuel with
  | zero =>
    intro i j d hlen hai hij hjb hp hleft hright hf
    simp only [partitionLoop]
    exact ⟨PermOn.refl _ _ _, by omega, hjb, fun k h1 h2 => hleft k h1 (by omega), hright⟩
  | succ fuel ih =>
    intro i j d hlen hai hij hjb hp hleft hright hf
    unfold partitionLoop
    dsimp only
    obtain ⟨s1, s2, s3, s4⟩ := scanLess_spec d a j (j + 1 - i) i le_rfl
    generalize scanLess d a j (j + 1 - i) i = i2 at s1 s2 s3 s4 ⊢
    obtain ⟨t1, t2, t3, t4⟩ := scanNotLess_spec d a i2 (by omega) j
    generalize scanNotLess d a i2 j = j2 at t1 t2 t3 t4 ⊢
    have s2' := s2 hij
    have t2' := t2 s2'
    rw [hp] at s3 s4 t3 t4
    by_cases hgt : i2 > j2
    · rw [if_pos hgt]
      refine ⟨PermOn.refl _ _ _, by omega, by omega, ?_, ?_⟩
      · intro k h1 h2
        by_cases hk : k < i
        · exact hleft k h1 hk
        · exact s3 k (by omega) (by omega)
      · intro k h1 h2
        by_cases hk : k ≤ j
        · exact t3 k h1 hk
        · exact hright k (by omega) h2
    · rw [if_neg hgt]
      have hle : i2 ≤ j2 := by omega
      have hk1 := s4 (by omega)
      have hk2 := t4 hle
      have hne : i2 ≠ j2 := by
        rintro rfl
        exact absurd hk2 (not_lt.mpr hk1)
      have hi2 : i2 < d.length := by omega
      have hj2 : j2 < d.length := by omega
      have hk := fun k => keyAt_Swap d i2 j2 k hi2 hj2
      have hp1 : PermOn (a + 1) b d (Swap d i2 j2) :=
        PermOn.swap (a + 1) b d i2 j2 (by omega) (by omega) (by omega) (by omega) hlen
      obtain ⟨r1, r2, r3, r4, r5⟩ := ih (i2 + 1) (j2 - 1) (Swap d i2 j2)
        (by rw [length_Swap]; exact hlen) (by omega) (by omega) (by omega)
        (by rw [hk a, if_neg (by omega), if_neg (by omega)]; exact hp)
        (by
          intro k h1 h2
          rw [hk k]
          by_cases hki : k = i2
          · rw [if_pos hki]; exact hk2
          · rw [if_neg hki, if_neg (by omega)]
            by_cases hk3 : k < i
            · exact hleft k h1 hk3
            · exact s3 k (by omega) (by omega))
        (by
          intro k h1 h2
          rw [hk k]
          by_cases hkj : k = j2
          · rw [if_neg (by omega), if_pos hkj]; exact hk1
          · rw [if_neg (by omega), if_neg hkj]
            by_cases hk3 : k ≤ j
            · exact t3 k (by omega) hk3
            · exact hright k (by omega) h2)
        (by omega)
      exact ⟨hp1.trans r1, r2, r3, r4, r5⟩

theorem partition_spec (data : List Message) (a b pivot : Nat)
    (hab : a < b) (hpa : a ≤ pivot) (hpb : pivot < b) (hlen : b ≤ data.length) :
    PermOn a b data (partition data a b pivot).1 ∧
    a ≤ (partition data a b pivot).2.1 ∧ (partition data a b pivot).2.1 < b ∧
    (∀ k, a ≤ k → k < (partition data a b pivot).2.1 →
      keyAt (partition data a b pivot).1 k
        < keyAt (partition data a b pivot).1 (partition data a b pivot).2.1) ∧
    (∀ k, (partition data a b pivot).2.1 < k → k < b →
      keyAt (partition data a b pivot).1 (partition data a b pivot).2.1
        ≤ keyAt (partition data a b pivot).1 k) := by
  unfold partition
  dsimp only
  have hp0 : PermOn a b data (Swap data a pivot) :=
    PermOn.swap a b data a pivot le_rfl hab hpa hpb hlen
  have hlen1 : b ≤ (Swap data a pivot).length := by rw [length_Swap]; exact hlen
  generalize Swap data a pivot = d1 at hp0 hlen1 ⊢
  obtain ⟨s1, s2, s3, s4⟩ := scanLess_spec d1 a (b - 1) (b - 1 + 1 - (a + 1)) (a + 1) le_rfl
  generalize scanLess d1 a (b - 1) (b - 1 + 1 - (a + 1)) (a + 1) = i at s1 s2 s3 s4 ⊢
  obtain ⟨t1, t2, t3, t4⟩ := scanNotLess_spec d1 a i (by omega) (b - 1)
  generalize scanNotLess d1 a i (b - 1) = j at t1 t2 t3 t4 ⊢
  have s2' := s2 (by omega)
  have t2' := t2 s2'
  by_cases hgt : i > j
  · rw [if_pos hgt]
    dsimp only
    have hja : j < d1.length := by omega
    have haa : a < d1.length := by omega
    have hk := fun k => keyAt_Swap d1 j a k hja haa
    refine ⟨hp0.trans (PermOn.swap a b d1 j a (by omega) (by omega) le_rfl hab hlen1),
      by omega, by omega, ?_, ?_⟩
    · intro k h1 h2
      rw [hk k, hk j, if_neg (by omega), if_pos rfl]
      by_cases hka : k = a
      · rw [if_pos hka]
        exact s3 j (by omega) (by omega)
      · rw [if_neg hka]
        exact s3 k (by omega) (by omega)
    · intro k h1 h2
      rw [hk k, hk j, if_pos rfl, if_neg (by omega), if_neg (by omega)]
      exact t3 k h1 (by omega)
  · rw [if_neg hgt]
    dsimp only
    have hle : i ≤ j := by omega
    have hk1 := s4 (by omega)
    have hk2 := t4 hle
    have hne : i ≠ j := by
      rintro rfl
      exact absurd hk2 (not_lt.mpr hk1)
    have hi2 : i < d1.length := by omega
    have hj2 : j < d1.length := by omega
    have hk := fun k => keyAt_Swap d1 i j k hi2 hj2
    have hp1 : PermOn a b d1 (Swap d1 i j) :=
      PermOn.swap a b d1 i j (by omega) (by omega) (by omega) (by omega) hlen1
    obtain ⟨r1, r2, r3, r4, r5⟩ := partitionLoop_spec a b (keyAt d1 a) (b - a) (i + 1) (j - 1)
      (Swap d1 i j) (by rw [length_Swap]; exact hlen1) (by omega) (by omega) (by omega)
      (by rw [hk a, if_neg (by omega), if_neg (by omega)])
      (by
        intro k h1 h2
        rw [hk k]
        by_cases hki : k = i
        · rw [if_pos hki]; exact hk2
        · rw [if_neg hki, if_neg (by omega)]
          exact s3 k (by omega) (by omega))
      (by
        intro k h1 h2
        rw [hk k]
        by_cases hkj : k = j
        · rw [if_neg (by omega), if_pos hkj]; exact hk1
        · rw [if_neg (by omega), if_neg hkj]
          exact t3 k (by omega) (by omega))
      (by omega)
    have hlen3 : b ≤ (partitionLoop a (b - a) (i + 1) (j - 1) (Swap d1 i j)).1.length := by
      rw [r1.length_eq, length_Swap]; exact hlen1
    have hpa3 : keyAt (partitionLoop a (b - a) (i + 1) (j - 1) (Swap d1 i j)).1 a
        = keyAt d1 a := by
      rw [r1.keyAt_outside a (by omega), hk a, if_neg (by omega), if_neg (by omega)]
    generalize partitionLoop a (b - a) (i + 1) (j - 1) (Swap d1 i j) = res at r1 r2 r3 r4 r5 hlen3 hpa3 ⊢
    obtain ⟨d3, j3⟩ := res
    dsimp only at r1 r2 r3 r4 r5 hlen3 hpa3 ⊢
    have hj3 : j3 < d3.length := by omega
    have ha3 : a < d3.length := by omega
    have hk3 := fun k => keyAt_Swap d3 j3 a k hj3 ha3
    refine ⟨(hp0.trans hp1).trans ((r1.mono (by omega) le_rfl).trans
      (PermOn.swap a b d3 j3 a r2 r3 le_rfl hab hlen3)), r2, r3, ?_, ?_⟩
    · intro k h1 h2
      rw [hk3 k, hk3 j3, if_neg (by omega), if_pos rfl, hpa3]
      by_cases hka : k = a
      · rw [if_pos hka]
        exact r4 j3 (by omega) le_rfl
      · rw [if_neg hka]
        exact r4 k (by omega) (by omega)
    · intro k h1 h2
      rw [hk3 k, hk3 j3, if_pos rfl, if_neg (by omega), if_neg (by omega), hpa3]
      exact r5 k h1 h2

theorem scanNotGreater_spec (data : List Message) (a j : Nat) : ∀ (fuel i : Nat),
    j + 1 - i ≤ fuel →
    i ≤ scanNotGreater data a j fuel i ∧
    (i ≤ j + 1 → scanNotGreater data a j fuel i ≤ j + 1) ∧
    (∀ k, i ≤ k → k < scanNotGreater data a j fuel i → keyAt data k ≤ keyAt data a) ∧
    (scanNotGreater data a j fuel i ≤ j →
      keyAt data a < keyAt data (scanNotGreater data a j fuel i)) := by
  intro fuel
  induction fuel with
  | zero =>
    intro i hf
    simp only [scanNotGreater]
    exact ⟨le_rfl, fun h => h, fun k h1 h2 => by omega, fun h => by omega⟩
  | succ fuel ih =>
    intro i hf
    unfold scanNotGreater
    by_cases hcond : (decide (i ≤ j) && !Less data a i) = true
    · rw [if_pos hcond]
      simp only [Bool.and_eq_true, decide_eq_true_eq, Bool.not_eq_true'] at hcond
      obtain ⟨hij, hless⟩ := hcond
      rw [Less_false_iff] at hless
      obtain ⟨h1, h2, h3, h4⟩ := ih (i + 1) (by omega)
      refine ⟨by omega, fun _ => h2 (by omega), ?_, h4⟩
      intro k hk1 hk2
      by_cases hki : k = i
      · subst hki; exact hless
      · exact h3 k (by omega) hk2
    · rw [if_neg hcond]
      simp only [Bool.and_eq_true, decide_eq_true_eq, not_and, Bool.not_eq_true,
        Bool.not_eq_false', Bool.not_eq_true'] at hcond
      refine ⟨le_rfl, fun h => h, fun k h1 h2 => by omega, fun h => ?_⟩
      have := hcond h
      simp only [Bool.not_eq_false] at this
      exact (Less_iff _ _ _).mp this

theorem scanGreater_spec (data : List Message) (a i : Nat) (hi : 0 < i) : ∀ (j : Nat),
    scanGreater data a i j ≤ j ∧
    (i ≤ j + 1 → i ≤ scanGreater data a i j + 1) ∧
    (∀ k, scanGreater data a i j < k → k ≤ j → keyAt data a < keyAt data k) ∧
    (i ≤ scanGreater data a i j →
      keyAt data (scanGreater data a i j) ≤ keyAt data a) := by
  intro j
  induction j with
  | zero =>
    simp only [scanGreater]
    exact ⟨le_rfl, fun h => h, fun k h1 h2 => by omega, fun h => by omega⟩
  | succ j ih =>
    unfold scanGreater
    by_cases hcond : (decide (i ≤ j + 1) && Less data a (j + 1)) = true
    · rw [if_pos hcond]
      simp only [Bool.and_eq_true, decide_eq_true_eq] at hcond
      obtain ⟨hij, hless⟩ := hcond
      rw [Less_iff] at hless
      obtain ⟨h1, h2, h3, h4⟩ := ih
      refine ⟨by omega, fun _ => h2 (by omega), ?_, h4⟩
      intro k hk1 hk2
      by_cases hkj : k = j + 1
      · subst hkj; exact hless
      · exact h3 k hk1 (by omega)
    · rw [if_neg hcond]
      simp only [Bool.and_eq_true, decide_eq_true_eq, not_and, Bool.not_eq_true] at hcond
      exact ⟨le_rfl, fun h => by omega, fun k h1 h2 => by omega,
        fun h => (Less_false_iff _ _ _).mp (hcond h)⟩

theorem partitionEqualLoop_spec (a b : Nat) (p : Int) :
    ∀ (fuel i j : Nat) (d : List Message),
    b ≤ d.length → a + 1 ≤ i → i ≤ j + 1 → j < b → keyAt d a = p →
    (∀ k, a + 1 ≤ k → k < i → keyAt d k ≤ p) →
    (∀ k, j < k → k < b → p < keyAt d k) →
    j + 1 - i ≤ fuel →
    PermOn (a + 1) b d (partitionEqualLoop a fuel i j d).1 ∧
    a + 1 ≤ (partitionEqualLoop a fuel i j d).2 ∧ (partitionEqualLoop a fuel i j d).2 ≤ b ∧
    (∀ k, a + 1 ≤ k → k < (partitionEqualLoop a fuel i j d).2 →
      keyAt (partitionEqualLoop a fuel i j d).1 k ≤ p) ∧
    (∀ k, (partitionEqualLoop a fuel i j d).2 ≤ k → k < b →
      p < keyAt (partitionEqualLoop a fuel i j d).1 k) := by
  intro fuel
  induction fuel with
  | zero =>
    intro i j d hlen hai hij hjb hp hleft hright hf
    simp only [partitionEqualLoop]
    exact ⟨PermOn.refl _ _ _, hai, by omega, hleft, fun k h1 h2 => hright k (by omega) h2⟩
  | succ fuel ih =>
    intro i j d hlen hai hij hjb hp hleft hright hf
    unfold partitionEqualLoop
    dsimp only
    obtain ⟨s1, s2, s3, s4⟩ := scanNotGreater_spec d a j (j + 1 - i) i le_rfl
    generalize scanNotGreater d a j (j + 1 - i) i = i2 at s1 s2 s3 s4 ⊢
    obtain ⟨t1, t2, t3, t4⟩ := scanGreater_spec d a i2 (by omega) j
    generalize scanGreater d a i2 j = j2 at t1 t2 t3 t4 ⊢
    have s2' := s2 hij
    have t2' := t2 s2'
    rw [hp] at s3 s4 t3 t4
    by_cases hgt : i2 > j2
    · rw [if_pos hgt]
      refine ⟨PermOn.refl _ _ _, by omega, by omega, ?_, ?_⟩
      · intro k h1 h2
        by_cases hk : k < i
        · exact hleft k h1 hk
        · exact s3 k (by omega) (by omega)
      · intro k h1 h2
        by_cases hk : k ≤ j
        · exact t3 k (by omega) hk
        · exact hright k (by omega) h2
    · rw [if_neg hgt]
      have hle : i2 ≤ j2 := by omega
      have hk1 := s4 (by omega)
      have hk2 := t4 hle
      have hne : i2 ≠ j2 := by
        rintro rfl
        exact absurd hk1 (not_lt.mpr hk2)
      have hi2 : i2 < d.length := by omega
      have hj2 : j2 < d.length := by omega
      have hk := fun k => keyAt_Swap d i2 j2 k hi2 hj2
      have hp1 : PermOn (a + 1) b d (Swap d i2 j2) :=
        PermOn.swap (a + 1) b d i2 j2 (by omega) (by omega) (by omega) (by omega) hlen
      obtain ⟨r1, r2, r3, r4, r5⟩ := ih (i2 + 1) (j2 - 1) (Swap d i2 j2)
        (by rw [length_Swap]; exact hlen) (by omega) (by omega) (by omega)
        (by rw [hk a, if_neg (by omega), if_neg (by omega)]; exact hp)
        (by
          intro k h1 h2
          rw [hk k]
          by_cases hki : k = i2
          · rw [if_pos hki]; exact hk2
          · rw [if_neg hki, if_neg (by omega)]
            by_cases hk3 : k < i
            · exact hleft k h1 hk3
            · exact s3 k (by omega) (by omega))
        (by
          intro k h1 h2
          rw [hk k]
          by_cases hkj : k = j2
          · rw [if_neg (by omega), if_pos hkj]; exact hk1
          · rw [if_neg (by omega), if_neg hkj]
            by_cases hk3 : k ≤ j
            · exact t3 k (by omega) hk3
            · exact hright k (by omega) h2)
        (by omega)
      exact ⟨hp1.trans r1, r2, r3, r4, r5⟩

theorem partitionEqual_spec (data : List Message) (a b pivot : Nat)
    (hab : a < b) (hpa : a ≤ pivot) (hpb : pivot < b) (hlen : b ≤ data.length) :
    PermOn a b data (partitionEqual data a b pivot).1 ∧
    a + 1 ≤ (partitionEqual data a b pivot).2 ∧ (partitionEqual data a b pivot).2 ≤ b ∧
    (∀ k, a ≤ k → k < (partitionEqual data a b pivot).2 →
      keyAt (partitionEqual data a b pivot).1 k ≤ keyAt data pivot) ∧
    (∀ k, (partitionEqual data a b pivot).2 ≤ k → k < b →
      keyAt data pivot < keyAt (partitionEqual data a b pivot).1 k) := by
  unfold partitionEqual
  dsimp only
  have hp0 : PermOn a b data (Swap data a pivot) :=
    PermOn.swap a b data a pivot le_rfl hab hpa hpb hlen
  have hlen1 : b ≤ (Swap data a pivot).length := by rw [length_Swap]; exact hlen
  have hkey : keyAt (Swap data a pivot) a = keyAt data pivot := by
    rw [keyAt_Swap data a pivot a (by omega) (by omega), if_pos rfl]
  generalize Swap data a pivot = d1 at hp0 hlen1 hkey ⊢
  obtain ⟨r1, r2, r3, r4, r5⟩ := partitionEqualLoop_spec a b (keyAt data pivot) (b - a)
    (a + 1) (b - 1) d1 hlen1 le_rfl (by omega) (by omega) hkey
    (by intro k h1 h2; omega) (by intro k h1 h2; omega) (by omega)
  refine ⟨hp0.trans (r1.mono (by omega) le_rfl), r2, r3, ?_, r5⟩
  intro k h1 h2
  by_cases hka : k = a
  · subst hka
    rw [r1.keyAt_outside k (by omega), hkey]
  · exact r4 k (by omega) h2

theorem order2_mem (data : List Message) (a b swaps : Nat) :
    ((order2 data a b swaps).1 = a ∧ (order2 data a b swaps).2.1 = b)
      ∨ ((order2 data a b swaps).1 = b ∧ (order2 data a b swaps).2.1 = a) := by
  unfold order2
  split_ifs
  · exact Or.inr ⟨rfl, rfl⟩
  · exact Or.inl ⟨rfl, rfl⟩

theorem median_mem (data : List Message) (a b c swaps : Nat) :
    (median data a b c swaps).1 = a ∨ (median data a b c swaps).1 = b
      ∨ (median data a b c swaps).1 = c := by
  unfold median
  have h1 := order2_mem data a b swaps
  generalize order2 data a b swaps = r1 at h1 ⊢
  obtain ⟨x1, y1, s1⟩ := r1
  dsimp only at h1 ⊢
  have h2 := order2_mem data y1 c s1
  generalize order2 data y1 c s1 = r2 at h2 ⊢
  obtain ⟨x2, y2, s2⟩ := r2
  dsimp only at h2 ⊢
  have h3 := order2_mem data x1 x2 s2
  generalize order2 data x1 x2 s2 = r3 at h3 ⊢
  obtain ⟨x3, y3, s3⟩ := r3
  dsimp only at h3 ⊢
  rcases h1 with ⟨rfl, rfl⟩ | ⟨rfl, rfl⟩ <;> rcases h2 with ⟨rfl, rfl⟩ | ⟨rfl, rfl⟩ <;>
    rcases h3 with ⟨rfl, rfl⟩ | ⟨rfl, rfl⟩ <;> simp

theorem medianAdjacent_mem (data : List Message) (a swaps : Nat) :
    a - 1 ≤ (medianAdjacent data a swaps).1 ∧ (medianAdjacent data a swaps).1 ≤ a + 1 := by
  unfold medianAdjacent
  rcases median_mem data (a - 1) a (a + 1) swaps with h | h | h <;> rw [h] <;> omega

theorem choosePivot_mem (data : List Message) (a b : Nat) (h : 8 ≤ b - a) :
    a ≤ (choosePivot data a b).1 ∧ (choosePivot data a b).1 < b := by
  have key : ∀ (r : Nat × Nat), a ≤ r.1 → r.1 < b →
      a ≤ (if r.2 = 0 then (r.1, SortedHint.increasingHint)
            else if r.2 = 12 then (r.1, SortedHint.decreasingHint)
            else (r.1, SortedHint.unknownHint)).1 ∧
      (if r.2 = 0 then (r.1, SortedHint.increasingHint)
            else if r.2 = 12 then (r.1, SortedHint.decreasingHint)
            else (r.1, SortedHint.unknownHint)).1 < b := by
    intro r h1 h2
    split_ifs <;> exact ⟨h1, h2⟩
  unfold choosePivot
  dsimp only
  rw [if_pos h]
  by_cases h50 : b - a ≥ 50
  · rw [if_pos h50]
    obtain ⟨i1, i2⟩ := medianAdjacent_mem data (a + (b - a) / 4 * 1) 0
    generalize medianAdjacent data (a + (b - a) / 4 * 1) 0 = r1 at i1 i2 ⊢
    obtain ⟨i, s1⟩ := r1
    dsimp only at i1 i2 ⊢
    obtain ⟨j1, j2⟩ := medianAdjacent_mem data (a + (b - a) / 4 * 2) s1
    generalize medianAdjacent data (a + (b - a) / 4 * 2) s1 = r2 at j1 j2 ⊢
    obtain ⟨j, s2⟩ := r2
    dsimp only at j1 j2 ⊢
    obtain ⟨k1, k2⟩ := medianAdjacent_mem data (a + (b - a) / 4 * 3) s2
    generalize medianAdjacent data (a + (b - a) / 4 * 3) s2 = r3 at k1 k2 ⊢
    obtain ⟨k, s3⟩ := r3
    dsimp only at k1 k2 ⊢
    have hm := median_mem data i j k s3
    apply key
    · rcases hm with h | h | h <;> rw [h] <;> omega
    · rcases hm with h | h | h <;> rw [h] <;> omega
  · rw [if_neg h50]
    have hm := median_mem data (a + (b - a) / 4 * 1) (a + (b - a) / 4 * 2)
      (a + (b - a) / 4 * 3) 0
    apply key
    · rcases hm with h | h | h <;> rw [h] <;> omega
    · rcases hm with h | h | h <;> rw [h] <;> omega

theorem reverseLoop_spec (a b : Nat) : ∀ (fuel i j : Nat) (data : List Message),
    a ≤ i → j < b → b ≤ data.length → PermOn a b data (reverseLoop fuel i j data) := by
  intro fuel
  induction fuel with
  | zero => intro i j data _ _ _; exact PermOn.refl _ _ _
  | succ fuel ih =>
    intro i j data hai hjb hlen
    unfold reverseLoop
    by_cases hij : i < j
    · rw [if_pos hij]
      exact (PermOn.swap a b data i j hai (by omega) (by omega) hjb hlen).trans
        (ih (i + 1) (j - 1) _ (by omega) (by omega) (by rw [length_Swap]; exact hlen))
    · rw [if_neg hij]
      exact PermOn.refl _ _ _

theorem reverseRange_spec (data : List Message) (a b : Nat) (hab : a < b)
    (hlen : b ≤ data.length) : PermOn a b data (reverseRange data a b) :=
  reverseLoop_spec a b (b - a) a (b - 1) data le_rfl (by omega) hlen

theorem bitsLenAux_spec : ∀ (fuel x : Nat), x ≤ fuel → 0 < x →
    2 ^ bitsLenAux fuel x ≤ 2 * x := by
  intro fuel
  induction fuel with
  | zero => intro x h1 h2; omega
  | succ fuel ih =>
    intro x h1 h2
    unfold bitsLenAux
    rw [if_neg (by omega)]
    by_cases hx : x / 2 = 0
    · have : x = 1 := by omega
      subst this
      cases fuel <;> simp [bitsLenAux]
    · have := ih (x / 2) (by omega) (by omega)
      rw [pow_succ]
      omega

theorem nextPowerOfTwo_le (length : Nat) (h : 0 < length) :
    nextPowerOfTwo length ≤ 2 * length := by
  unfold nextPowerOfTwo bitsLen
  rw [Nat.one_shiftLeft]
  exact bitsLenAux_spec length length le_rfl h

theorem nextPowerOfTwo_pos (length : Nat) : 0 < nextPowerOfTwo length := by
  unfold nextPowerOfTwo
  rw [Nat.one_shiftLeft]
  exact Nat.pos_pow_of_pos _ (by omega)

theorem breakPatternsLoop_spec (a b length modulus idx : Nat)
    (hlen : length = b - a) (hmod : 0 < modulus) (hmod2 : modulus ≤ 2 * length)
    (hidx1 : a + 1 ≤ idx) :
    ∀ (n i random : Nat) (data : List Message), idx + (i + n) ≤ b → b ≤ data.length →
      PermOn a b data (breakPatternsLoop a length modulus idx n i random data) := by
  intro n
  induction n with
  | zero => intro i random data _ _; exact PermOn.refl _ _ _
  | succ n ih =>
    intro i random data hi hb
    unfold breakPatternsLoop
    dsimp only
    have hand : xorshiftNext random &&& (modulus - 1) < modulus := by
      have := @Nat.and_le_right (xorshiftNext random) (modulus - 1)
      omega
    generalize xorshiftNext random &&& (modulus - 1) = other at hand ⊢
    have hother : (if other ≥ length then other - length else other) < length := by
      split_ifs <;> omega
    generalize (if other ≥ length then other - length else other) = other2 at hother ⊢
    exact (PermOn.swap a b data (idx + i) (a + other2) (by omega) (by omega) (by omega)
      (by omega) hb).trans
      (ih (i + 1) _ _ (by omega) (by rw [length_Swap]; exact hb))

theorem breakPatterns_eight :
    (breakPatterns (thirteen.take 8) 0 8).map (fun m => m.Id)
      = ["f", "b", "c", "a", "e", "d", "g", "h"] := by
  decide

theorem breakPatterns_spec (data : List Message) (a b : Nat) (hlen : b ≤ data.length) :
    PermOn a b data (breakPatterns data a b) := by
  unfold breakPatterns
  dsimp only
  by_cases h : b - a ≥ 8
  · rw [if_pos h]
    exact breakPatternsLoop_spec a b (b - a) (nextPowerOfTwo (b - a))
      (a + (b - a) / 4 * 2 - 1) rfl (nextPowerOfTwo_pos _)
      (nextPowerOfTwo_le _ (by omega)) (by omega) 3 0 (b - a) data (by omega) hlen
  · rw [if_neg h]
    exact PermOn.refl _ _ _

theorem LowerBounded.of_perm {a b : Nat} {d1 d2 : List Message} (h : PermOn a b d1 d2)
    (hl : LowerBounded d1 a b) : LowerBounded d2 a b := by
  intro ha
  rw [h.keyAt_outside (a - 1) (by omega)]
  exact h.forall_key (fun x => keyAt d1 (a - 1) ≤ x) (hl ha)

theorem LowerBounded.shorten {a b b2 : Nat} {d : List Message} (hl : LowerBounded d a b)
    (hb : b2 ≤ b) : LowerBounded d a b2 :=
  fun ha k h1 h2 => hl ha k h1 (by omega)

theorem scanSorted_spec (data : List Message) (b : Nat) : ∀ (fuel i : Nat),
    b - i ≤ fuel →
    i ≤ scanSorted data b fuel i ∧
    (i ≤ b → scanSorted data b fuel i ≤ b) ∧
    (∀ k, i ≤ k → k < scanSorted data b fuel i → keyAt data (k - 1) ≤ keyAt data k) ∧
    (scanSorted data b fuel i < b →
      keyAt data (scanSorted data b fuel i) < keyAt data (scanSorted data b fuel i - 1)) := by
  intro fuel
  induction fuel with
  | zero =>
    intro i hf
    simp only [scanSorted]
    exact ⟨le_rfl, fun h => h, fun k h1 h2 => by omega, fun h => by omega⟩
  | succ fuel ih =>
    intro i hf
    unfold scanSorted
    by_cases hcond : (decide (i < b) && !Less data i (i - 1)) = true
    · rw [if_pos hcond]
      simp only [Bool.and_eq_true, decide_eq_true_eq, Bool.not_eq_true'] at hcond
      obtain ⟨hib, hless⟩ := hcond
      rw [Less_false_iff] at hless
      obtain ⟨h1, h2, h3, h4⟩ := ih (i + 1) (by omega)
      refine ⟨by omega, fun _ => h2 (by omega), ?_, h4⟩
      intro k hk1 hk2
      by_cases hki : k = i
      · subst hki; exact hless
      · exact h3 k (by omega) hk2
    · rw [if_neg hcond]
      simp only [Bool.and_eq_true, decide_eq_true_eq, not_and, Bool.not_eq_true,
        Bool.not_eq_false', Bool.not_eq_true'] at hcond
      refine ⟨le_rfl, fun h => h, fun k h1 h2 => by omega, fun h => ?_⟩
      have := hcond h
      simp only [Bool.not_eq_false] at this
      exact (Less_iff _ _ _).mp this

theorem SortedOn.extend {data : List Message} {a i : Nat} (hs : SortedOn data a i)
    (hai : a < i) : ∀ (n : Nat),
    (∀ k, i ≤ k → k < i + n → keyAt data (k - 1) ≤ keyAt data k) →
    SortedOn data a (i + n) := by
  intro n
  induction n with
  | zero => intro _; exact hs
  | succ n ih =>
    intro hadj
    have hprev := ih (fun k h1 h2 => hadj k h1 (by omega))
    intro x y hx hxy hy
    by_cases hy1 : y < i + n
    · exact hprev x y hx hxy hy1
    · have hyeq : y = i + n := by omega
      subst hyeq
      by_cases hxy2 : x = i + n
      · subst hxy2; exact le_rfl
      · have h1 := hadj (i + n) (by omega) (by omega)
        by_cases hn : n = 0
        · subst hn
          exact le_trans (hs x (i + 0 - 1) hx (by omega) (by omega)) h1
        · exact le_trans (hprev x (i + n - 1) hx (by omega) (by omega)) h1

theorem shiftSmallerLeft_eq (a e : Nat) : ∀ (j : Nat) (data : List Message),
    a ≤ j → j < e → e ≤ data.length → LowerBounded data a e →
    shiftSmallerLeft j data = insertionInner a j data := by
  intro j
  induction j with
  | zero => intro data _ _ _ _; rfl
  | succ j ih =>
    intro data haj hje hlen hl
    unfold shiftSmallerLeft insertionInner
    by_cases hless : Less data (j + 1) j = true
    · have hja : j + 1 > a := by
        by_contra hle
        have hae : a = j + 1 := by omega
        have hb := hl (by omega) a le_rfl (by omega)
        rw [hae] at hb
        have := (Less_iff _ _ _).mp hless
        simp only [Nat.add_sub_cancel] at hb
        exact absurd this (not_lt.mpr hb)
      simp only [hless, Bool.not_true, Bool.false_eq_true, if_false, hja, decide_True,
        Bool.and_self, if_true]
      exact ih _ (by omega) (by omega) (by rw [length_Swap]; exact hlen)
        (LowerBounded.of_perm
          (PermOn.swap a e data (j + 1) j (by omega) hje (by omega) (by omega) hlen) hl)
    · simp only [hless, Bool.not_eq_true] at *
      simp [hless]

theorem shiftGreaterRight_spec (b : Nat) : ∀ (fuel j : Nat) (data : List Message),
    1 ≤ j → b ≤ data.length → PermOn (j - 1) b data (shiftGreaterRight b fuel j data) := by
  intro fuel
  induction fuel with
  | zero => intro j data _ _; exact PermOn.refl _ _ _
  | succ fuel ih =>
    intro j data hj hlen
    unfold shiftGreaterRight
    by_cases hjb : j < b
    · rw [if_pos hjb]
      by_cases hless : (!Less data j (j - 1)) = true
      · rw [if_pos hless]
        exact PermOn.refl _ _ _
      · rw [if_neg hless]
        have h1 := PermOn.swap (j - 1) b data j (j - 1) (by omega) hjb le_rfl (by omega) hlen
        have h2 := ih (j + 1) (Swap data j (j - 1)) (by omega)
          (by rw [length_Swap]; exact hlen)
        exact h1.trans (h2.mono (by omega) le_rfl)
    · rw [if_neg hjb]
      exact PermOn.refl _ _ _

theorem partialInsertionLoop_spec (a b : Nat) : ∀ (steps i : Nat) (data : List Message),
    a < i → i ≤ b → b ≤ data.length → LowerBounded data a b → SortedOn data a i →
    PermOn a b data (partialInsertionLoop a b steps i data).2 ∧
    ((partialInsertionLoop a b steps i data).1 = true →
      SortedOn (partialInsertionLoop a b steps i data).2 a b) := by
  intro steps
  induction steps with
  | zero =>
    intro i data _ _ _ _ _
    simp only [partialInsertionLoop]
    exact ⟨PermOn.refl _ _ _, fun h => by cases h⟩
  | succ steps ih =>
    intro i data hai hib hlen hl hs
    unfold partialInsertionLoop
    dsimp only
    obtain ⟨s1, s2, s3, s4⟩ := scanSorted_spec data b (b - i) i le_rfl
    have hs2 : SortedOn data a (scanSorted data b (b - i) i) := by
      have := SortedOn.extend hs hai (scanSorted data b (b - i) i - i)
        (fun k h1 h2 => s3 k h1 (by omega))
      rwa [Nat.add_sub_cancel' s1] at this
    have s2' := s2 hib
    generalize scanSorted data b (b - i) i = i2 at s1 s2' s4 hs2 ⊢
    by_cases heq : i2 = b
    · rw [if_pos heq]
      subst heq
      exact ⟨PermOn.refl _ _ _, fun _ => hs2⟩
    · rw [if_neg heq]
      by_cases hshort : b - a < 50
      · rw [if_pos hshort]
        exact ⟨PermOn.refl _ _ _, fun h => by cases h⟩
      · rw [if_neg hshort]
        have hi2b : i2 < b := by omega
        have hp1 : PermOn a b data (Swap data i2 (i2 - 1)) :=
          PermOn.swap a b data i2 (i2 - 1) (by omega) hi2b (by omega) (by omega) hlen
        have hlen1 : b ≤ (Swap data i2 (i2 - 1)).length := by rw [length_Swap]; exact hlen
        have hl1 := LowerBounded.of_perm hp1 hl
        have hs1 : SortedOn (Swap data i2 (i2 - 1)) a (i2 - 1) := by
          intro x y hx hxy hy
          rw [keyAt_Swap data i2 (i2 - 1) x (by omega) (by omega),
            keyAt_Swap data i2 (i2 - 1) y (by omega) (by omega),
            if_neg (by omega), if_neg (by omega), if_neg (by omega), if_neg (by omega)]
          exact hs2 x y hx hxy (by omega)
        generalize Swap data i2 (i2 - 1) = d1 at hp1 hlen1 hl1 hs1 ⊢
        have hstep2 : PermOn a i2 d1 (if i2 - a ≥ 2 then shiftSmallerLeft (i2 - 1) d1 else d1) ∧
            SortedOn (if i2 - a ≥ 2 then shiftSmallerLeft (i2 - 1) d1 else d1) a i2 := by
          by_cases h2 : i2 - a ≥ 2
          · rw [if_pos h2]
            rw [shiftSmallerLeft_eq a i2 (i2 - 1) d1 (by omega) (by omega) (by omega)
              (hl1.shorten (by omega))]
            have := insertionInner_spec a i2 (i2 - 1) d1 (by omega) (by omega) (by omega) hs1
              (SortedOn.of_empty _ _ _ (by omega)) (by intro x y _ _ h3 h4; omega)
            exact this
          · rw [if_neg h2]
            exact ⟨PermOn.refl _ _ _, SortedOn.of_empty _ _ _ (by omega)⟩
        obtain ⟨hp2, hsorted2⟩ := hstep2
        have hlen2 : b ≤ (if i2 - a ≥ 2 then shiftSmallerLeft (i2 - 1) d1 else d1).length := by
          rw [hp2.length_eq]; exact hlen1
        generalize (if i2 - a ≥ 2 then shiftSmallerLeft (i2 - 1) d1 else d1) = d2
          at hp2 hsorted2 hlen2 ⊢
        have hp3 : PermOn i2 b d2
            (if b - i2 ≥ 2 then shiftGreaterRight b (b - (i2 + 1)) (i2 + 1) d2 else d2) := by
          by_cases h3 : b - i2 ≥ 2
          · rw [if_pos h3]
            have := shiftGreaterRight_spec b (b - (i2 + 1)) (i2 + 1) d2 (by omega) hlen2
            simpa using this
          · rw [if_neg h3]
            exact PermOn.refl _ _ _
        generalize (if b - i2 ≥ 2 then shiftGreaterRight b (b - (i2 + 1)) (i2 + 1) d2 else d2)
          = d3 at hp3 ⊢
        have hpall : PermOn a b data d3 :=
          (hp1.trans (hp2.mono le_rfl (by omega))).trans (hp3.mono (by omega) le_rfl)
        have hsorted3 : SortedOn d3 a i2 :=
          SortedOn.of_perm_outside hp3 hsorted2 (Or.inl le_rfl)
        obtain ⟨r1, r2⟩ := ih i2 d3 (by omega) (by omega)
          (by rw [hpall.length_eq]; exact hlen) (LowerBounded.of_perm hpall hl) hsorted3
        exact ⟨hpall.trans r1, r2⟩

theorem partialInsertionSort_spec (data : List Message) (a b : Nat) (hab : a < b)
    (hlen : b ≤ data.length) (hl : LowerBounded data a b) :
    PermOn a b data (partialInsertionSort data a b).2 ∧
    ((partialInsertionSort data a b).1 = true →
      SortedOn (partialInsertionSort data a b).2 a b) :=
  partialInsertionLoop_spec a b 5 (a + 1) data (by omega) (by omega) hlen hl
    (SortedOn.of_empty _ _ _ le_rfl)

theorem siftDownLoop_spec (hi first lo : Nat) : ∀ (fuel root : Nat) (data : List Message),
    hi - root ≤ fuel → lo ≤ root → first + hi ≤ data.length →
    HeapExcept data first lo hi root →
    PermOn (first + lo) (first + hi) data (siftDownLoop hi first fuel root data) ∧
    HeapFrom (siftDownLoop hi first fuel root data) first lo hi := by
  intro fuel
  induction fuel with
  | zero =>
    intro root data hf hlo hlen hheap
    simp only [siftDownLoop]
    refine ⟨PermOn.refl _ _ _, ?_⟩
    intro i c hi1 hc hchi
    by_cases hir : i = root
    · omega
    · exact hheap.1 i c hi1 hir hc hchi
  | succ fuel ih =>
    intro root data hf hlo hlen hheap
    unfold siftDownLoop
    dsimp only
    by_cases hchild : 2 * root + 1 ≥ hi
    · rw [if_pos hchild]
      refine ⟨PermOn.refl _ _ _, ?_⟩
      intro i c hi1 hc hchi
      by_cases hir : i = root
      · omega
      · exact hheap.1 i c hi1 hir hc hchi
    · rw [if_neg hchild]
      have hpick : ∃ c, (c = 2 * root + 1 ∨ c = 2 * root + 2) ∧ c < hi ∧
          (if (decide (2 * root + 1 + 1 < hi) &&
                Less data (first + (2 * root + 1)) (first + (2 * root + 1) + 1)) = true
            then 2 * root + 1 + 1 else 2 * root + 1) = c ∧
          (∀ c2, (c2 = 2 * root + 1 ∨ c2 = 2 * root + 2) → c2 < hi →
            keyAt data (first + c2) ≤ keyAt data (first + c)) := by
        by_cases hcond : (decide (2 * root + 1 + 1 < hi) &&
            Less data (first + (2 * root + 1)) (first + (2 * root + 1) + 1)) = true
        · rw [if_pos hcond]
          simp only [Bool.and_eq_true, decide_eq_true_eq] at hcond
          obtain ⟨h1, h2⟩ := hcond
          rw [Less_iff] at h2
          refine ⟨2 * root + 2, Or.inr rfl, by omega, rfl, ?_⟩
          intro c2 hc2 _
          rcases hc2 with rfl | rfl
          · have e : first + (2 * root + 1) + 1 = first + (2 * root + 2) := by omega
            rw [e] at h2
            exact le_of_lt h2
          · exact le_rfl
        · rw [if_neg hcond]
          simp only [Bool.and_eq_true, decide_eq_true_eq, not_and, Bool.not_eq_true] at hcond
          refine ⟨2 * root + 1, Or.inl rfl, by omega, rfl, ?_⟩
          intro c2 hc2 hc2hi
          rcases hc2 with rfl | rfl
          · exact le_rfl
          · have h2 := (Less_false_iff _ _ _).mp (hcond (by omega))
            have e : first + (2 * root + 1) + 1 = first + (2 * root + 2) := by omega
            rw [e] at h2
            exact h2
      obtain ⟨c, hc, hchi, hceq, hcmax⟩ := hpick
      rw [hceq]
      by_cases hless : (!Less data (first + root) (first + c)) = true
      · rw [if_pos hless]
        simp only [Bool.not_eq_true'] at hless
        rw [Less_false_iff] at hless
        refine ⟨PermOn.refl _ _ _, ?_⟩
        intro i c2 hi1 hc2 hc2hi
        by_cases hir : i = root
        · subst hir
          exact le_trans (hcmax c2 hc2 hc2hi) hless
        · exact hheap.1 i c2 hi1 hir hc2 hc2hi
      · rw [if_neg hless]
        simp only [Bool.not_eq_true', Bool.not_eq_false] at hless
        rw [Less_iff] at hless
        have hr1 : first + root < data.length := by omega
        have hc1 : first + c < data.length := by omega
        have hk := fun k => keyAt_Swap data (first + root) (first + c) k hr1 hc1
        have hkr : keyAt (Swap data (first + root) (first + c)) (first + root)
            = keyAt data (first + c) := by
          rw [hk, if_pos rfl]
        have hkc : keyAt (Swap data (first + root) (first + c)) (first + c)
            = keyAt data (first + root) := by
          rw [hk, if_neg (by omega), if_pos rfl]
        have hko : ∀ x, x ≠ root → x ≠ c →
            keyAt (Swap data (first + root) (first + c)) (first + x)
              = keyAt data (first + x) := by
          intro x h1 h2
          rw [hk, if_neg (by omega), if_neg (by omega)]
        have hp1 : PermOn (first + lo) (first + hi) data
            (Swap data (first + root) (first + c)) :=
          PermOn.swap _ _ data _ _ (by omega) (by omega) (by omega) (by omega) hlen
        obtain ⟨r1, r2⟩ := ih c (Swap data (first + root) (first + c)) (by omega) (by omega)
          (by rw [length_Swap]; exact hlen)
          (by
            constructor
            · intro i c2 hi1 hic hc2 hc2hi
              by_cases hir : i = root
              · rw [hir, hkr]
                by_cases hc2c : c2 = c
                · rw [hc2c, hkc]
                  exact le_of_lt hless
                · rw [hko c2 (by omega) hc2c]
                  exact hcmax c2 (by omega) hc2hi
              · rw [hko i hir hic]
                by_cases hc2r : c2 = root
                · rw [hc2r, hkr]
                  exact hheap.2 i c hi1 (by omega) hc hchi
                · rw [hko c2 hc2r (by omega)]
                  exact hheap.1 i c2 hi1 hir hc2 hc2hi
            · intro i c2 hi1 hci hc2 hc2hi
              have hir : i = root := by omega
              rw [hir, hkr, hko c2 (by omega) (by omega)]
              exact hheap.1 c c2 (by omega) (by omega) hc2 hc2hi)
        exact ⟨hp1.trans r1, r2⟩

theorem siftDown_spec (data : List Message) (lo hi first : Nat)
    (hlen : first + hi ≤ data.length) (hheap : HeapFrom data first (lo + 1) hi) :
    PermOn (first + lo) (first + hi) data (siftDown data lo hi first) ∧
    HeapFrom (siftDown data lo hi first) first lo hi := by
  unfold siftDown
  apply siftDownLoop_spec hi first lo hi lo data (by omega) le_rfl hlen
  constructor
  · intro i c hi1 hir hc hchi
    exact hheap i c (by omega) hc hchi
  · intro i c hi1 hri hc hchi
    omega

theorem heapBuild_spec (hi first : Nat) : ∀ (i : Nat) (data : List Message),
    first + hi ≤ data.length → HeapFrom data first (i + 1) hi →
    PermOn first (first + hi) data (heapBuild hi first i data) ∧
    HeapFrom (heapBuild hi first i data) first 0 hi := by
  intro i
  induction i with
  | zero =>
    intro data hlen hheap
    unfold heapBuild
    have := siftDown_spec data 0 hi first hlen hheap
    simpa using this
  | succ i ih =>
    intro data hlen hheap
    unfold heapBuild
    obtain ⟨h1, h2⟩ := siftDown_spec data (i + 1) hi first hlen hheap
    obtain ⟨h3, h4⟩ := ih (siftDown data (i + 1) hi first)
      (by rw [h1.length_eq]; exact hlen) h2
    exact ⟨(h1.mono (by omega) le_rfl).trans h3, h4⟩

theorem HeapFrom.root_max {data : List Message} {first n : Nat}
    (h : HeapFrom data first 0 n) : ∀ k, k < n →
    keyAt data (first + k) ≤ keyAt data (first + 0) := by
  intro k
  induction k using Nat.strong_induction_on with
  | _ k ih =>
    intro hk
    by_cases hk0 : k = 0
    · subst hk0; exact le_rfl
    · have hpar := h ((k - 1) / 2) k (by omega) (by omega) hk
      exact le_trans hpar (ih ((k - 1) / 2) (by omega) (by omega))

theorem heapPop_spec (first hi : Nat) : ∀ (n : Nat) (data : List Message),
    n ≤ hi → first + hi ≤ data.length → HeapFrom data first 0 n →
    SortedOn data (first + n) (first + hi) →
    (∀ x y, x < n → n ≤ y → y < hi → keyAt data (first + x) ≤ keyAt data (first + y)) →
    PermOn first (first + hi) data (heapPop first n data) ∧
    SortedOn (heapPop first n data) first (first + hi) := by
  intro n
  induction n with
  | zero =>
    intro data _ _ _ hs _
    simp only [heapPop]
    exact ⟨PermOn.refl _ _ _, by simpa using hs⟩
  | succ i ih =>
    intro data hn hlen hheap hs hcross
    unfold heapPop
    have hmax := hheap.root_max
    have h0 : first < data.length := by omega
    have hi1 : first + i < data.length := by omega
    have hk := fun k => keyAt_Swap data first (first + i) k h0 hi1
    have hp1 : PermOn first (first + hi) data (Swap data first (first + i)) :=
      PermOn.swap _ _ data _ _ le_rfl (by omega) (by omega) (by omega) hlen
    have hlen1 : first + hi ≤ (Swap data first (first + i)).length := by
      rw [length_Swap]; exact hlen
    have hheap1 : HeapFrom (Swap data first (first + i)) first (0 + 1) i := by
      intro x c hx hc hci
      rw [hk (first + c), hk (first + x), if_neg (by omega), if_neg (by omega),
        if_neg (by omega), if_neg (by omega)]
      exact hheap x c (by omega) hc (by omega)
    have hkeyi : keyAt (Swap data first (first + i)) (first + i) = keyAt data (first + 0) := by
      rw [hk (first + i)]
      by_cases hi0 : i = 0
      · subst hi0; simp
      · rw [if_neg (by omega), if_pos rfl]; rfl
    have hbelow : ∀ k, first ≤ k → k < first + i →
        keyAt (Swap data first (first + i)) k ≤ keyAt data (first + 0) := by
      intro k hk1 hk2
      rw [hk k]
      by_cases hkf : k = first
      · rw [if_pos hkf]
        exact hmax i (by omega)
      · rw [if_neg hkf, if_neg (by omega)]
        have := hmax (k - first) (by omega)
        rwa [Nat.add_sub_cancel' hk1] at this
    have hsuffix : ∀ k, first + i < k → k < first + hi →
        keyAt (Swap data first (first + i)) k = keyAt data k := by
      intro k hk1 hk2
      rw [hk k, if_neg (by omega), if_neg (by omega)]
    generalize Swap data first (first + i) = d1 at hp1 hlen1 hheap1 hkeyi hbelow hsuffix ⊢
    obtain ⟨hp2, hheap2⟩ := siftDown_spec d1 0 i first (by omega) hheap1
    simp only [Nat.add_zero] at hp2
    have hlen2 : first + hi ≤ (siftDown d1 0 i first).length := by
      rw [hp2.length_eq]; exact hlen1
    have hbelow2 : ∀ k, first ≤ k → k < first + i →
        keyAt (siftDown d1 0 i first) k ≤ keyAt data (first + 0) :=
      hp2.forall_key (fun x => x ≤ keyAt data (first + 0)) hbelow
    have hout2 : ∀ k, first + i ≤ k → keyAt (siftDown d1 0 i first) k = keyAt d1 k :=
      fun k hk1 => hp2.keyAt_outside k (by omega)
    generalize siftDown d1 0 i first = d2 at hp2 hheap2 hlen2 hbelow2 hout2 ⊢
    obtain ⟨r1, r2⟩ := ih d2 (by omega) hlen2 hheap2
      (by
        intro x y hx hxy hy
        rw [hout2 x (by omega), hout2 y (by omega)]
        by_cases hxi : x = first + i
        · subst hxi
          rw [hkeyi]
          by_cases hyi : y = first + i
          · subst hyi; rw [hkeyi]
          · rw [hsuffix y (by omega) hy]
            have := hcross 0 (y - first) (by omega) (by omega) (by omega)
            rwa [Nat.add_sub_cancel' (by omega : first ≤ y)] at this
        · rw [hsuffix x (by omega) (by omega), hsuffix y (by omega) hy]
          exact hs x y (by omega) hxy hy)
      (by
        intro x y hx hxy hy
        have h1 := hbelow2 (first + x) (by omega) (by omega)
        refine le_trans h1 ?_
        rw [hout2 (first + y) (by omega)]
        by_cases hyi : y = i
        · subst hyi; rw [hkeyi]
        · rw [hsuffix (first + y) (by omega) (by omega)]
          exact hcross 0 y (by omega) (by omega) hy)
    exact ⟨(hp1.trans (hp2.mono le_rfl (by omega))).trans r1, r2⟩

theorem heapSort_spec (data : List Message) (a b : Nat) (hab : a ≤ b)
    (hlen : b ≤ data.length) :
    PermOn a b data (heapSort data a b) ∧ SortedOn (heapSort data a b) a b := by
  unfold heapSort
  dsimp only
  have hsum : a + (b - a) = b := by omega
  obtain ⟨h1, h2⟩ := heapBuild_spec (b - a) a ((b - a - 1) / 2) data (by omega)
    (by intro i c hi1 hc hchi; omega)
  obtain ⟨h3, h4⟩ := heapPop_spec a (b - a) (b - a) (heapBuild (b - a) a ((b - a - 1) / 2) data)
    le_rfl (by rw [h1.length_eq]; omega) h2
    (SortedOn.of_empty _ _ _ (by omega)) (by intro x y h5 h6 h7; omega)
  rw [hsum] at h1 h3 h4
  exact ⟨h1.trans h3, h4⟩

theorem SortedOn.glue {data : List Message} {a mid b : Nat} (p : Int)
    (hl : SortedOn data a mid) (hr : SortedOn data (mid + 1) b)
    (hleft : ∀ k, a ≤ k → k < mid → keyAt data k ≤ p) (hmid : keyAt data mid = p)
    (hright : ∀ k, mid < k → k < b → p ≤ keyAt data k) : SortedOn data a b := by
  intro x y hx hxy hy
  by_cases hxm : x < mid
  · by_cases hym : y < mid
    · exact hl x y hx hxy hym
    · by_cases hym2 : y = mid
      · rw [hym2, hmid]; exact hleft x hx hxm
      · exact le_trans (hleft x hx hxm) (hright y (by omega) hy)
  · by_cases hxm2 : x = mid
    · by_cases hym2 : y = mid
      · rw [hxm2, hym2]
      · rw [hxm2, hmid]; exact hright y (by omega) hy
    · exact hr x y (by omega) hxy hy

theorem SortedOn.glue_equal {data : List Message} {a mid b : Nat} (p : Int)
    (hr : SortedOn data mid b)
    (hleft : ∀ k, a ≤ k → k < mid → keyAt data k = p)
    (hright : ∀ k, mid ≤ k → k < b → p ≤ keyAt data k) : SortedOn data a b := by
  intro x y hx hxy hy
  by_cases hxm : x < mid
  · rw [hleft x hx hxm]
    by_cases hym : y < mid
    · rw [hleft y (by omega) hym]
    · exact hright y (by omega) hy
  · exact hr x y (by omega) hxy hy

theorem pdqsort_spec : ∀ (fuel : Nat) (data : List Message) (a b limit : Nat)
    (wasBalanced wasPartitioned : Bool),
    b - a < fuel → a ≤ b → b ≤ data.length → LowerBounded data a b →
    PermOn a b data (pdqsort fuel data a b limit wasBalanced wasPartitioned) ∧
    SortedOn (pdqsort fuel data a b limit wasBalanced wasPartitioned) a b := by
  intro fuel
  induction fuel with
  | zero => intro data a b limit wb wp hf; omega
  | succ fuel ih =>
    intro data a b limit wb wp hf hab hlen hlb
    unfold pdqsort
    dsimp only
    by_cases hsmall : b - a ≤ 12
    · rw [if_pos hsmall]
      exact insertionSort_spec data a b hlen
    rw [if_neg hsmall]
    by_cases hlimit : limit = 0
    · rw [if_pos hlimit]
      exact heapSort_spec data a b hab hlen
    rw [if_neg hlimit]
    -- breakPatterns
    have hp1 : PermOn a b data (if (!wb) = true then breakPatterns data a b else data) := by
      split_ifs
      · exact breakPatterns_spec data a b hlen
      · exact PermOn.refl _ _ _
    generalize (if (!wb) = true then breakPatterns data a b else data) = d1 at hp1 ⊢
    generalize (if (!wb) = true then limit - 1 else limit) = limit1
    have hlen1 : b ≤ d1.length := by rw [hp1.length_eq]; exact hlen
    -- choosePivot
    obtain ⟨hpv1, hpv2⟩ := choosePivot_mem d1 a b (by omega)
    generalize choosePivot d1 a b = cp at hpv1 hpv2 ⊢
    obtain ⟨pivot, hint⟩ := cp
    dsimp only at hpv1 hpv2 ⊢
    -- reverseRange
    have hp2 : PermOn a b d1
        (if hint = SortedHint.decreasingHint then reverseRange d1 a b else d1) := by
      split_ifs
      · exact reverseRange_spec d1 a b (by omega) hlen1
      · exact PermOn.refl _ _ _
    generalize (if hint = SortedHint.decreasingHint then reverseRange d1 a b else d1) = d2
      at hp2 ⊢
    have hpv : a ≤ (if hint = SortedHint.decreasingHint then b - 1 - (pivot - a) else pivot) ∧
        (if hint = SortedHint.decreasingHint then b - 1 - (pivot - a) else pivot) < b := by
      split_ifs <;> omega
    generalize (if hint = SortedHint.decreasingHint then b - 1 - (pivot - a) else pivot) = pivot2
      at hpv ⊢
    generalize (if hint = SortedHint.decreasingHint then SortedHint.increasingHint else hint)
      = hint2
    have hlen2 : b ≤ d2.length := by rw [hp2.length_eq]; exact hlen1
    have hlb2 : LowerBounded d2 a b := LowerBounded.of_perm (hp1.trans hp2) hlb
    -- partialInsertionSort
    have hp3 : PermOn a b d2
          (if (wb && wp && decide (hint2 = SortedHint.increasingHint)) = true
            then partialInsertionSort d2 a b else (false, d2)).2 ∧
        ((if (wb && wp && decide (hint2 = SortedHint.increasingHint)) = true
            then partialInsertionSort d2 a b else (false, d2)).1 = true →
          SortedOn (if (wb && wp && decide (hint2 = SortedHint.increasingHint)) = true
            then partialInsertionSort d2 a b else (false, d2)).2 a b) := by
      split_ifs
      · exact partialInsertionSort_spec d2 a b (by omega) hlen2 hlb2
      · exact ⟨PermOn.refl _ _ _, fun h => by cases h⟩
    generalize (if (wb && wp && decide (hint2 = SortedHint.increasingHint)) = true
            then partialInsertionSort d2 a b else (false, d2)) = res at hp3 ⊢
    obtain ⟨done, d3⟩ := res
    obtain ⟨hp3, hs3⟩ := hp3
    dsimp only at hp3 hs3
    have hp03 : PermOn a b data d3 := (hp1.trans hp2).trans hp3
    cases done with
    | true =>
      dsimp only
      exact ⟨hp03, hs3 rfl⟩
    | false =>
      dsimp only
      have hlen3 : b ≤ d3.length := by rw [hp03.length_eq]; exact hlen
      have hlb3 : LowerBounded d3 a b := LowerBounded.of_perm hp03 hlb
      by_cases hequal : (decide (a > 0) && !Less d3 (a - 1) pivot2) = true
      · rw [if_pos hequal]
        simp only [Bool.and_eq_true, decide_eq_true_eq, Bool.not_eq_true'] at hequal
        obtain ⟨ha0, hle⟩ := hequal
        rw [Less_false_iff] at hle
        have hge := hlb3 ha0 pivot2 hpv.1 hpv.2
        have hpeq : keyAt d3 pivot2 = keyAt d3 (a - 1) := le_antisymm hle hge
        obtain ⟨q1, q2, q3, q4, q5⟩ := partitionEqual_spec d3 a b pivot2 (by omega) hpv.1 hpv.2
          hlen3
        have hlb4 := LowerBounded.of_perm q1 hlb3
        have hout4 : keyAt (partitionEqual d3 a b pivot2).1 (a - 1) = keyAt d3 (a - 1) :=
          q1.keyAt_outside (a - 1) (by omega)
        generalize partitionEqual d3 a b pivot2 = pe at q1 q2 q3 q4 q5 hlb4 hout4 ⊢
        obtain ⟨d4, mid⟩ := pe
        dsimp only at q1 q2 q3 q4 q5 hlb4 hout4 ⊢
        have hlen4 : b ≤ d4.length := by rw [q1.length_eq]; exact hlen3
        have hleft4 : ∀ k, a ≤ k → k < mid → keyAt d4 k = keyAt d3 pivot2 := by
          intro k h1 h2
          apply le_antisymm (q4 k h1 h2)
          rw [hpeq, ← hout4]
          exact hlb4 ha0 k h1 (by omega)
        obtain ⟨r1, r2⟩ := ih d4 mid b limit1 wb wp (by omega) q3 hlen4
          (by
            intro _ k h1 h2
            have := hleft4 (mid - 1) (by omega) (by omega)
            rw [this]
            exact le_of_lt (q5 k h1 h2))
        refine ⟨(hp03.trans q1).trans (r1.mono (by omega) le_rfl), ?_⟩
        apply SortedOn.glue_equal (keyAt d3 pivot2) r2
        · intro k h1 h2
          rw [r1.keyAt_outside k (by omega)]
          exact hleft4 k h1 h2
        · exact r1.forall_key (fun x => keyAt d3 pivot2 ≤ x) (fun k h1 h2 => le_of_lt (q5 k h1 h2))
      · rw [if_neg hequal]
        obtain ⟨q1, q2, q3, q4, q5⟩ := partition_spec d3 a b pivot2 (by omega) hpv.1 hpv.2 hlen3
        have hlb4 := LowerBounded.of_perm q1 hlb3
        generalize partition d3 a b pivot2 = pt at q1 q2 q3 q4 q5 hlb4 ⊢
        obtain ⟨d4, mid, ap⟩ := pt
        dsimp only at q1 q2 q3 q4 q5 hlb4 ⊢
        have hlen4 : b ≤ d4.length := by rw [q1.length_eq]; exact hlen3
        have hp04 : PermOn a b data d4 := hp03.trans q1
        by_cases hside : mid - a < b - mid
        · rw [if_pos hside]
          obtain ⟨r1, r2⟩ := ih d4 a mid limit1 true true (by omega) q2 (by omega)
            (hlb4.shorten (by omega))
          have hlen5 : b ≤ (pdqsort fuel d4 a mid limit1 true true).length := by
            rw [r1.length_eq]; exact hlen4
          have hmid5 : keyAt (pdqsort fuel d4 a mid limit1 true true) mid = keyAt d4 mid :=
            r1.keyAt_outside mid (by omega)
          have hleft5 : ∀ k, a ≤ k → k < mid →
              keyAt (pdqsort fuel d4 a mid limit1 true true) k ≤ keyAt d4 mid :=
            r1.forall_key (fun x => x ≤ keyAt d4 mid) (fun k h1 h2 => le_of_lt (q4 k h1 h2))
          have hright5 : ∀ k, mid < k → k < b →
              keyAt d4 mid ≤ keyAt (pdqsort fuel d4 a mid limit1 true true) k := by
            intro k h1 h2
            rw [r1.keyAt_outside k (by omega)]
            exact q5 k h1 h2
          generalize pdqsort fuel d4 a mid limit1 true true = d5
            at r1 r2 hlen5 hmid5 hleft5 hright5 ⊢
          obtain ⟨t1, t2⟩ := ih d5 (mid + 1) b limit1 (decide (mid - a ≥ (b - a) / 8)) ap
            (by omega) (by omega) hlen5
            (by
              intro _ k h1 h2
              simp only [Nat.add_sub_cancel]
              rw [hmid5]
              exact hright5 k (by omega) h2)
          refine ⟨(hp04.trans (r1.mono le_rfl (by omega))).trans (t1.mono (by omega) le_rfl), ?_⟩
          apply SortedOn.glue (keyAt d4 mid) _ t2
          · intro k h1 h2
            rw [t1.keyAt_outside k (by omega)]
            exact hleft5 k h1 h2
          · rw [t1.keyAt_outside mid (by omega)]
            exact hmid5
          · exact t1.forall_key (fun x => keyAt d4 mid ≤ x)
              (fun k h1 h2 => hright5 k (by omega) h2)
          · exact SortedOn.of_perm_outside t1 r2 (Or.inl (by omega))
        · rw [if_neg hside]
          obtain ⟨r1, r2⟩ := ih d4 (mid + 1) b limit1 true true (by omega) (by omega) hlen4
            (by
              intro _ k h1 h2
              simp only [Nat.add_sub_cancel]
              exact q5 k (by omega) h2)
          have hlen5 : b ≤ (pdqsort fuel d4 (mid + 1) b limit1 true true).length := by
            rw [r1.length_eq]; exact hlen4
          have hmid5 : keyAt (pdqsort fuel d4 (mid + 1) b limit1 true true) mid
              = keyAt d4 mid :=
            r1.keyAt_outside mid (by omega)
          have hleft5 : ∀ k, a ≤ k → k < mid →
              keyAt (pdqsort fuel d4 (mid + 1) b limit1 true true) k ≤ keyAt d4 mid := by
            intro k h1 h2
            rw [r1.keyAt_outside k (by omega)]
            exact le_of_lt (q4 k h1 h2)
          have hright5 : ∀ k, mid + 1 ≤ k → k < b →
              keyAt d4 mid ≤ keyAt (pdqsort fuel d4 (mid + 1) b limit1 true true) k :=
            r1.forall_key (fun x => keyAt d4 mid ≤ x) (fun k h1 h2 => q5 k (by omega) h2)
          have hlb5 : LowerBounded (pdqsort fuel d4 (mid + 1) b limit1 true true) a b :=
            LowerBounded.of_perm (r1.mono (by omega) le_rfl) hlb4
          generalize pdqsort fuel d4 (mid + 1) b limit1 true true = d5
            at r1 r2 hlen5 hmid5 hleft5 hright5 hlb5 ⊢
          obtain ⟨t1, t2⟩ := ih d5 a mid limit1 (decide (b - mid ≥ (b - a) / 8)) ap
            (by omega) q2 (by omega) (hlb5.shorten (by omega))
          refine ⟨(hp04.trans (r1.mono (by omega) le_rfl)).trans (t1.mono le_rfl (by omega)), ?_⟩
          apply SortedOn.glue (keyAt d4 mid) t2
          · exact SortedOn.of_perm_outside t1 r2 (Or.inr (by omega))
          · exact t1.forall_key (fun x => x ≤ keyAt d4 mid) hleft5
          · rw [t1.keyAt_outside mid (by omega)]
            exact hmid5
          · intro k h1 h2
            rw [t1.keyAt_outside k (by omega)]
            exact hright5 k (by omega) h2

theorem SortedOn.pairwise (data : List Message) (h : SortedOn data 0 data.length) :
    data.Pairwise (fun x y => x.UnixTime ≤ y.UnixTime) := by
  rw [List.pairwise_iff_getElem]
  intro i j hi hj hij
  have := h i j (Nat.zero_le _) (le_of_lt hij) hj
  simp only [keyAt, msgAt, List.getD_eq_getElem?_getD, List.getElem?_eq_getElem hi,
    List.getElem?_eq_getElem hj, Option.getD_some] at this
  exact this

theorem sortSort_spec (data : List Message) :
    (sortSort data).Perm data ∧
    (sortSort data).Pairwise (fun x y => x.UnixTime ≤ y.UnixTime) := by
  unfold sortSort
  dsimp only
  by_cases h : data.length ≤ 1
  · rw [if_pos h]
    refine ⟨List.Perm.refl _, ?_⟩
    match data, h with
    | [], _ => exact List.Pairwise.nil
    | [x], _ => exact List.pairwise_singleton _ _
  · rw [if_neg h]
    obtain ⟨h1, h2⟩ := pdqsort_spec (data.length + 1) data 0 data.length (bitsLen data.length)
      true true (by omega) (Nat.zero_le _) le_rfl (fun h0 => absurd h0 (lt_irrefl 0))
    refine ⟨h1.perm rfl, ?_⟩
    apply SortedOn.pairwise
    rw [h1.length_eq]
    exact h2

/-- Counterexample to C3 as stated: `sort.Sort` is not stable. The archive of thirteen
records, twelve observed at second 1 in the order `a` to `l` and one observed at
second 0, reaches the save decision in an order in which `g` comes before `c`, `d`,
`e`, `f` and `a`, and `b` comes last: the records with equal `UnixTime` do not keep
the relative order they had before the ordering step. -/
theorem sortSort_not_stable :
    loadArchive demoEnv demoFS thirteenCfg.messageDB = .ok (thirteen, false) ∧
    (sortSort thirteen).map (fun m => m.Id)
      = ["m", "g", "c", "d", "e", "f", "a", "h", "i", "j", "k", "l", "b"] ∧
    beforeSave demoEnv thirteenCfg demoFS = .ok ⟨sortSort thirteen, false⟩ ∧
    idsAt 1 thirteen = ["a", "b", "c", "d", "e", "f", "g", "h", "i", "j", "k", "l"] ∧
    idsAt 1 (sortSort thirteen)
      = ["g", "c", "d", "e", "f", "a", "h", "i", "j", "k", "l", "b"] := by
  refine ⟨rfl, by decide, rfl, by decide, by decide⟩

/-- C3, amended: the ordering step sorts ascending by `UnixTime`: for every merged
collection, the collection that is saved and exported is a permutation of it that is
non-decreasing in `UnixTime`. The relative order of records with equal `UnixTime` is
not promised: the step is `sort.Sort`, which is not stable. -/
theorem ordering_step_sorts (messages : List Message) :
    (sortSort messages).Perm messages ∧
    (sortSort messages).length = messages.length ∧
    (sortSort messages).Pairwise (fun x y => x.UnixTime ≤ y.UnixTime) ∧
    (∀ t, (idsAt t (sortSort messages)).Perm (idsAt t messages)) := by
  obtain ⟨h1, h2⟩ := sortSort_spec messages
  refine ⟨h1, h1.length_eq, h2, ?_⟩
  intro t
  unfold idsAt
  exact (h1.filter _).map _

/-- Witness for C3 amended: the spec's example scenario. After the merge the collection
is `[A1, B2]`; the ordering step puts `B2` (900) before `A1` (1000). -/
theorem ordering_step_sorts_witness :
    sortSort [recA1, recB2] = [recB2, recA1] ∧
    (sortSort [recA1, recB2]).Perm [recA1, recB2] ∧
    (sortSort [recA1, recB2]).Pairwise (fun x y => x.UnixTime ≤ y.UnixTime) :=
  ⟨by decide, (ordering_step_sorts [recA1, recB2]).1, (ordering_step_sorts [recA1, recB2]).2.2.1⟩

end Spotkeeper
